import Mathlib

/-!
# Huffman file compressor: a shallow embedding of `main.cpp`

The development follows the source file top to bottom: the trie node, the
bit-level writer and reader, the trie construction, the code table, the trie
codec and the two pipelines.

Modelling conventions.

* A byte (`unsigned char`) is a natural number below 256; truncation to a byte
  is an explicit `% 256`.  An `int` is an integer, wrapped into the 32-bit
  two's-complement range by `wrapInt` wherever the source computes a sum; an
  `unsigned int` is a natural number taken `% 2 ^ 32`.
* A value of type `Node` is a `Node *`: either `nullptr` or an allocated node.
  An operation that dereferences `nullptr`, shifts by a negative count or asks
  an empty queue for its top has no defined result and returns `none`.
* A file is the list of its bytes.  The output stream of the writer is the list
  of the bytes written so far; the input stream of the reader is the list of
  the bytes not yet extracted, together with its end-of-file flag.
* `std::priority_queue` is not part of the source file.  Its container is a
  list of nodes and its three operations are a parameter (`PriorityQueue`);
  statements are made for every implementation that meets the contract of the
  standard library on the containers it can reach (`PriorityQueue.Lawful`).
* The two calls `readTire(fileReader)` that are arguments of one constructor
  call are evaluated in an order the language leaves to the compiler
  (`ArgOrder`).
-/

namespace Huffman

/-! ## Data model -/

/-- Alphabet size, `const int R = 256`. -/
def R : Nat := 256

/-- Wrap an integer into the range of a 32-bit two's-complement `int`. -/
def wrapInt (x : Int) : Int := (x + 2 ^ 31) % 2 ^ 32 - 2 ^ 31

/-- A `Node *`: `nullptr`, or a node with its symbol, weight and two child pointers. -/
inductive Node where
  | null : Node
  | mk (ch : Nat) (freq : Int) (left right : Node) : Node
  deriving DecidableEq, Repr, Inhabited

namespace Node

/-- Test `p == nullptr`. -/
def isNull : Node → Bool
  | null => true
  | mk _ _ _ _ => false

/-- Member function `isLeaf`: both child pointers are null.  The source only calls it
through a non-null pointer; the functions below return `none` on `null` before asking. -/
def isLeaf : Node → Bool
  | null => false
  | mk _ _ left right => left.isNull && right.isNull

/-- Field `freq` of an allocated node (0 for `null`, which the queue never holds). -/
def weight : Node → Int
  | null => 0
  | mk _ f _ _ => f

end Node

/-- Comparator `NodeCompare`: `t1->freq > t2->freq`. -/
def NodeCompare (t1 t2 : Node) : Bool := decide (t1.weight > t2.weight)

/-! ## BitWriter -/

/-- State of a `BitWriter`: the partial byte, the number of bits in it, and the bytes
already written to the output stream. -/
structure BitWriter where
  buffer : Nat
  n : Nat
  os : List Nat
  deriving DecidableEq, Repr

namespace BitWriter

/-- Constructor: `buffer('\0'), n(0)` over an empty output file. -/
def new : BitWriter := { buffer := 0, n := 0, os := [] }

/-- Member `clearBuffer`: flush the partial byte, left-aligned, if there is one. -/
def clearBuffer (w : BitWriter) : BitWriter :=
  if w.n = 0 then w
  else { buffer := 0, n := 0, os := w.os ++ [(w.buffer <<< (8 - w.n)) % 256] }

/-- Member `writeBit`. -/
def writeBit (w : BitWriter) (bit : Bool) : BitWriter :=
  let buffer := (w.buffer <<< 1) % 256
  let buffer := if bit then buffer ||| 1 else buffer
  let w1 : BitWriter := { buffer := buffer, n := w.n + 1, os := w.os }
  if w1.n = 8 then w1.clearBuffer else w1

/-- Member `writeByte`: written directly when byte-aligned, bit by bit otherwise. -/
def writeByte (w : BitWriter) (x : Nat) : BitWriter :=
  if w.n = 0 then { w with os := w.os ++ [x] }
  else (List.range 8).foldl (fun w i => w.writeBit (((x >>> (8 - i - 1)) &&& 1) == 1)) w

/-- Member `writeUnsigned`: four bytes, most significant first. -/
def writeUnsigned (w : BitWriter) (x : Nat) : BitWriter :=
  let w := w.writeByte ((x >>> 24) &&& 0xff)
  let w := w.writeByte ((x >>> 16) &&& 0xff)
  let w := w.writeByte ((x >>> 8) &&& 0xff)
  w.writeByte ((x >>> 0) &&& 0xff)

/-- Member `close`: flush the partial byte; the result is the finished file. -/
def close (w : BitWriter) : List Nat := w.clearBuffer.os

end BitWriter

/-! ## BitReader -/

/-- State of a `BitReader`: the buffered byte, the count of unconsumed bits in it
(an `int`, `-1` once exhausted), the bytes of the source not yet extracted, and the
end-of-file flag of the source stream. -/
structure BitReader where
  buffer : Nat
  n : Int
  is : List Nat
  eof : Bool
  deriving DecidableEq, Repr

namespace BitReader

/-- Member `fillBuffer`.  While the end-of-file flag is clear a byte is requested from
the stream; a request on a drained stream extracts nothing, leaves `buffer` as it was
and raises the flag, and `n` is set to 8 all the same.  Once the flag is raised the
buffer becomes all ones and `n` becomes `-1`. -/
def fillBuffer (r : BitReader) : BitReader :=
  if !r.eof then
    match r.is with
    | b :: rest => { buffer := b, n := 8, is := rest, eof := false }
    | [] => { buffer := r.buffer, n := 8, is := [], eof := true }
  else { buffer := 255, n := -1, is := r.is, eof := r.eof }

/-- Constructor: `buffer(0), n(0)` followed by `fillBuffer()`. -/
def new (input : List Nat) : BitReader :=
  fillBuffer { buffer := 0, n := 0, is := input, eof := false }

/-- Member `readBit`.  The shift `buffer >> n` has no defined result for `n < 0`. -/
def readBit (r : BitReader) : Option (Bool × BitReader) :=
  let n := r.n - 1
  if n < 0 then none
  else
    let bit := ((r.buffer >>> n.toNat) &&& 1) == 1
    let r1 : BitReader := { r with n := n }
    some (bit, if n = 0 then r1.fillBuffer else r1)

/-- Member `readChar`.  The shifts `x <<= (8 - n)` and `buffer >> n` have no defined
result for `n > 8` and `n < 0`. -/
def readChar (r : BitReader) : Option (Nat × BitReader) :=
  if r.n = 8 then some (r.buffer, r.fillBuffer)
  else if r.n < 0 ∨ 8 < r.n then none
  else
    let x := (r.buffer <<< (8 - r.n).toNat) % 256
    let oldN := r.n
    let r1 := r.fillBuffer
    let r2 : BitReader := { r1 with n := oldN }
    some ((x ||| (r2.buffer >>> r2.n.toNat)) % 256, r2)

/-- One round of the loop of `readUnsigned`: `x <<= 8; x |= c`. -/
def readUnsignedStep (acc : Nat × BitReader) : Option (Nat × BitReader) :=
  match acc.2.readChar with
  | none => none
  | some (c, r) => some (((acc.1 <<< 8) % 2 ^ 32) ||| c, r)

/-- Member `readUnsigned`: four calls of `readChar`, most significant byte first. -/
def readUnsigned (r : BitReader) : Option (Nat × BitReader) :=
  (readUnsignedStep (0, r)).bind fun a1 =>
  (readUnsignedStep a1).bind fun a2 =>
  (readUnsignedStep a2).bind fun a3 =>
  readUnsignedStep a3

end BitReader

/-! ## The priority queue -/

/-- The three operations of `std::priority_queue<Node *, std::vector<Node *>, NodeCompare>`
on its underlying container. -/
structure PriorityQueue where
  push : List Node → Node → List Node
  top : List Node → Option Node
  pop : List Node → List Node

/-- Contract of the standard library, for a queue whose container keeps the
representation invariant `inv` (the heap property, for a binary heap): the empty
container has it and `push` and `pop` keep it; `push` adds the element; `top` of a
non-empty queue is an element that `NodeCompare` puts below no other one (any of them,
when several have the least weight); and `pop` removes that element. -/
structure PriorityQueue.LawfulOn (pq : PriorityQueue) (inv : List Node → Prop) : Prop where
  inv_nil : inv []
  inv_push : ∀ q x, inv q → inv (pq.push q x)
  inv_pop : ∀ q, inv q → q ≠ [] → inv (pq.pop q)
  push_perm : ∀ q x, inv q → (pq.push q x).Perm (x :: q)
  top_some : ∀ q, inv q → q ≠ [] → ∃ x, pq.top q = some x
  top_mem : ∀ q x, inv q → pq.top q = some x → x ∈ q
  top_min : ∀ q x, inv q → pq.top q = some x → ∀ y ∈ q, NodeCompare x y = false
  pop_perm : ∀ q x, inv q → pq.top q = some x → (pq.pop q).Perm (q.erase x)

/-- A queue that meets the contract for some representation invariant. -/
def PriorityQueue.Lawful (pq : PriorityQueue) : Prop :=
  ∃ inv : List Node → Prop, pq.LawfulOn inv

/-- Call `queue.top()`: undefined on an empty queue. -/
def queueTop (pq : PriorityQueue) (queue : List Node) : Option Node :=
  if queue.isEmpty then none else pq.top queue

/-- First element of least weight, scanning from the front. -/
def firstMin : List Node → Option Node
  | [] => none
  | x :: q =>
    match firstMin q with
    | none => some x
    | some y => if NodeCompare x y then some y else some x

/-- A concrete queue: elements are kept in insertion order, and the first one of least
weight is served. -/
def listQueue : PriorityQueue where
  push := fun q x => q ++ [x]
  top := firstMin
  pop := fun q =>
    match firstMin q with
    | none => q
    | some x => q.erase x

/-! ## Trie construction -/

/-- Body of the first loop of `buildTrie`, for symbol `i`. -/
def pushLeaf (pq : PriorityQueue) (freq : Nat → Int) (queue : List Node) (i : Nat) :
    List Node :=
  if freq i > 0 then pq.push queue (Node.mk (i % 256) (freq i) Node.null Node.null)
  else queue

/-- The edge case of `buildTrie`: a second leaf of weight 0 when exactly one was pushed. -/
def pushSynthetic (pq : PriorityQueue) (freq : Nat → Int) (queue : List Node) :
    List Node :=
  if queue.length = 1 then
    if freq 0 = 0 then pq.push queue (Node.mk 0 0 Node.null Node.null)
    else pq.push queue (Node.mk 1 0 Node.null Node.null)
  else queue

/-- Expression `new Node('\0', left->freq + right->freq, left, right)`. -/
def mergeNodes (left right : Node) : Option Node :=
  match left, right with
  | Node.mk _ lf _ _, Node.mk _ rf _ _ => some (Node.mk 0 (wrapInt (lf + rf)) left right)
  | _, _ => none

/-- The loop `while (queue.size() > 1)` of `buildTrie`, run for at most `fuel` rounds;
`none` when a round is undefined or the fuel does not suffice. -/
def mergeLoop (pq : PriorityQueue) : Nat → List Node → Option (List Node)
  | 0, queue => if queue.length > 1 then none else some queue
  | fuel + 1, queue =>
    if queue.length > 1 then
      (queueTop pq queue).bind fun left =>
      let q1 := pq.pop queue
      (queueTop pq q1).bind fun right =>
      let q2 := pq.pop q1
      (mergeNodes left right).bind fun x =>
      mergeLoop pq fuel (pq.push q2 x)
    else some queue

/-- Function `buildTrie`.  Every round of the loop shortens a lawful queue by one, so
the initial length is enough fuel. -/
def buildTrie (pq : PriorityQueue) (freq : Nat → Int) : Option Node :=
  let queue := (List.range R).foldl (pushLeaf pq freq) []
  let queue := pushSynthetic pq freq queue
  (mergeLoop pq queue.length queue).bind fun queue =>
  queueTop pq queue

/-! ## Code table -/

/-- Function `buildCode`.  A `std::string` is the list of its characters; the table
`std::string huffmanCode[R]` is a function of the index. -/
def buildCode : (Nat → List Char) → Node → List Char → Option (Nat → List Char)
  | _, Node.null, _ => none
  | huffmanCode, Node.mk ch freq left right, s =>
    if !(Node.mk ch freq left right).isLeaf then
      (buildCode huffmanCode left (s ++ ['0'])).bind fun h1 =>
      buildCode h1 right (s ++ ['1'])
    else some (Function.update huffmanCode ch s)

/-! ## Trie codec -/

/-- Function `writeTire`. -/
def writeTire : Node → BitWriter → Option BitWriter
  | Node.null, _ => none
  | Node.mk ch freq left right, fileWriter =>
    if (Node.mk ch freq left right).isLeaf then
      some ((fileWriter.writeBit true).writeByte ch)
    else
      (writeTire left (fileWriter.writeBit false)).bind fun w1 =>
      writeTire right w1

/-- Order in which a compiler evaluates the two `readTire(fileReader)` arguments of
`new Node('\0', -1, readTire(fileReader), readTire(fileReader))`.  The arguments of a
call are indeterminately sequenced in C++ (their evaluations do not interleave, and
either may come first); only a braced initializer list fixes the order.  Both calls
read from the same stream, so the order decides which serialized subtree becomes which
child. -/
inductive ArgOrder where
  | leftToRight : ArgOrder
  | rightToLeft : ArgOrder
  deriving DecidableEq, Repr

/-- Function `readTire`, with at most `fuel` nested calls.  The third constructor
argument becomes `left` and the fourth `right`; which of the two is read from the
stream first is decided by `ord`. -/
def readTire (ord : ArgOrder) : Nat → BitReader → Option (Node × BitReader)
  | 0, _ => none
  | fuel + 1, fileReader =>
    fileReader.readBit.bind fun (isLeaf, r0) =>
    if isLeaf then
      r0.readChar.bind fun (c, r1) => some (Node.mk c (-1) Node.null Node.null, r1)
    else
      match ord with
      | ArgOrder.leftToRight =>
        (readTire ord fuel r0).bind fun (third, r1) =>
        (readTire ord fuel r1).bind fun (fourth, r2) =>
        some (Node.mk 0 (-1) third fourth, r2)
      | ArgOrder.rightToLeft =>
        (readTire ord fuel r0).bind fun (fourth, r1) =>
        (readTire ord fuel r1).bind fun (third, r2) =>
        some (Node.mk 0 (-1) third fourth, r2)

/-! ## Pipelines -/

/-- Body of the counting loop of `compress`: `++freq[byte]; ++fileLength`. -/
def countStep (st : (Nat → Int) × Nat) (byte : Nat) : (Nat → Int) × Nat :=
  (Function.update st.1 byte (wrapInt (st.1 byte + 1)), (st.2 + 1) % 2 ^ 32)

/-- First pass of `compress`: the frequency table and `fileLength`. -/
def countFreq (input : List Nat) : (Nat → Int) × Nat :=
  input.foldl countStep (fun _ => 0, 0)

/-- Inner loop of `compress`: one `writeBit` for each character of a code string. -/
def writeCode (w : BitWriter) (code : List Char) : BitWriter :=
  code.foldl (fun w ch => if ch = '0' then w.writeBit false else w.writeBit true) w

/-- Second pass of `compress` over the bytes it reads again. -/
def encodeLoop (huffman : Nat → List Char) (bytes : List Nat) (w : BitWriter) : BitWriter :=
  bytes.foldl (fun w byte => writeCode w (huffman byte)) w

/-- Function `compress`: from the bytes of the input file to the bytes of the archive.
The second pass reads `fileLength` bytes from the start of the input. -/
def compress (pq : PriorityQueue) (input : List Nat) : Option (List Nat) :=
  let counted := countFreq input
  let freq := counted.1
  let fileLength := counted.2
  (buildTrie pq freq).bind fun root =>
  (buildCode (fun _ => []) root []).bind fun huffman =>
  (writeTire root BitWriter.new).bind fun w1 =>
  let w2 := w1.writeUnsigned fileLength
  let w3 := encodeLoop huffman (input.take fileLength) w2
  some w3.close

/-- Inner loop of `deCompress`: walk from `x` down to a leaf, one bit per edge. -/
def decodeSymbol : Node → BitReader → Option (Nat × BitReader)
  | Node.null, _ => none
  | Node.mk ch freq left right, fileReader =>
    if !(Node.mk ch freq left right).isLeaf then
      fileReader.readBit.bind fun (bit, r1) =>
      if bit then decodeSymbol right r1 else decodeSymbol left r1
    else some (ch, fileReader)

/-- Outer loop of `deCompress`: `count` symbols appended to the output. -/
def decodeLoop (root : Node) : Nat → BitReader → List Nat → Option (List Nat)
  | 0, _, out => some out
  | count + 1, fileReader, out =>
    (decodeSymbol root fileReader).bind fun (c, r1) =>
    decodeLoop root count r1 (out ++ [c])

/-- Function `deCompress`: from the bytes of the archive to the bytes of the output.
Every nested call of `readTire` consumes a bit of the stream or of the at most eight
stale bits behind it, so `8 * size + 16` nested calls are enough fuel. -/
def deCompress (ord : ArgOrder) (archive : List Nat) : Option (List Nat) :=
  let fileReader := BitReader.new archive
  (readTire ord (8 * archive.length + 16) fileReader).bind fun (root, r1) =>
  r1.readUnsigned.bind fun (length, r2) =>
  decodeLoop root length r2 []

/-! ## Bit sequences (specification vocabulary) -/

/-- The `k` low bits of `x`, most significant first. -/
def bitsOfNat : Nat → Nat → List Bool
  | 0, _ => []
  | k + 1, x => bitsOfNat k (x / 2) ++ [decide (x % 2 = 1)]

/-- The number whose binary digits, most significant first, are `l`. -/
def natOfBits (l : List Bool) : Nat := l.foldl (fun acc b => 2 * acc + b.toNat) 0

/-- The bits of a list of bytes, each byte most significant bit first. -/
def bytesToBits (bytes : List Nat) : List Bool := bytes.flatMap (bitsOfNat 8)

/-- Writer invariant: fewer than eight pending bits, held in the low bits of `buffer`,
and only bytes in the output. -/
def BitWriter.Inv (w : BitWriter) : Prop :=
  w.n < 8 ∧ w.buffer < 2 ^ w.n ∧ ∀ b ∈ w.os, b < 256

/-- Every bit handed to the writer so far: those of the emitted bytes, then the pending
ones. -/
def BitWriter.bits (w : BitWriter) : List Bool :=
  bytesToBits w.os ++ bitsOfNat w.n w.buffer

/-- The reader stands in front of the bit sequence `bits`: either nothing is left, or
the unconsumed low bits of `buffer` followed by the bits of the bytes still in the
stream are `bits`. -/
def BitReader.Rep (r : BitReader) (bits : List Bool) : Prop :=
  bits = [] ∨
    (r.eof = false ∧ 1 ≤ r.n ∧ r.n ≤ 8 ∧ r.buffer < 256 ∧ (∀ b ∈ r.is, b < 256) ∧
      bits = bitsOfNat r.n.toNat r.buffer ++ bytesToBits r.is)

/-! ## Tries (specification vocabulary) -/

namespace Node

/-- Every node of the tree has either no child or two children. -/
def isFull : Node → Bool
  | null => false
  | mk _ _ left right => (left.isNull && right.isNull) || (left.isFull && right.isFull)

/-- The symbols at the leaves, from left to right. -/
def leaves : Node → List Nat
  | null => []
  | mk ch _ left right =>
    if left.isNull && right.isNull then [ch] else left.leaves ++ right.leaves

/-- Each leaf symbol with the path to its leaf: `false` for a left edge, `true` for a
right edge. -/
def codes : Node → List (Nat × List Bool)
  | null => []
  | mk ch _ left right =>
    if left.isNull && right.isNull then [(ch, [])]
    else left.codes.map (fun p => (p.1, false :: p.2))
      ++ right.codes.map (fun p => (p.1, true :: p.2))

/-- The shape of the tree with the symbols of its leaves: what survives serialization.
Weights become the sentinel `-1` and the symbol of an internal node becomes 0. -/
def skeleton : Node → Node
  | null => null
  | mk ch _ left right =>
    if left.isNull && right.isNull then mk ch (-1) null null
    else mk 0 (-1) left.skeleton right.skeleton

/-- Same shape and the same symbol at every corresponding leaf. -/
def leafIso : Node → Node → Bool
  | null, null => true
  | mk c1 _ l1 r1, mk c2 _ l2 r2 =>
    if l1.isNull && r1.isNull then l2.isNull && r2.isNull && decide (c1 = c2)
    else !(l2.isNull && r2.isNull) && leafIso l1 l2 && leafIso r1 r2
  | _, _ => false

/-- Preorder serialization of the grammar `Leaf ::= 1 byte`, `Internal ::= 0 left right`. -/
def serialize : Node → List Bool
  | null => []
  | mk ch _ left right =>
    if left.isNull && right.isNull then true :: bitsOfNat 8 ch
    else false :: (left.serialize ++ right.serialize)

end Node

/-- The bits written for a code string: `false` for the character `0`, `true` for any
other one. -/
def codeBits (code : List Char) : List Bool := code.map fun ch => !decide (ch = '0')

/-- The code string of a path. -/
def pathChars (p : List Bool) : List Char := p.map fun b => if b then '1' else '0'

/-- A run of `k` calls of `readBit`. -/
def readBits : Nat → BitReader → Option (List Bool × BitReader)
  | 0, r => some ([], r)
  | k + 1, r =>
    r.readBit.bind fun (b, r1) =>
    (readBits k r1).bind fun (bs, r2) => some (b :: bs, r2)

/-! ## Trie construction (specification vocabulary) -/

/-- The leaves pushed by the first loop of `buildTrie`, in symbol order. -/
def initialLeaves (freq : Nat → Int) : List Node :=
  ((List.range R).filter fun i => decide (freq i > 0)).map
    fun i => Node.mk (i % 256) (freq i) Node.null Node.null

/-- The nodes in the queue when the merging loop of `buildTrie` starts. -/
def startNodes (freq : Nat → Int) : List Node :=
  if (initialLeaves freq).length = 1 then
    (if freq 0 = 0 then Node.mk 0 0 Node.null Node.null else Node.mk 1 0 Node.null Node.null)
      :: initialLeaves freq
  else initialLeaves freq

/-- The merging discipline of `buildTrie`, free of the queue: `Huff q t` holds when the
nodes `q` can be merged into the single tree `t` by repeatedly taking out a node of
least weight as `left`, then a node of least weight among the others as `right`, and
putting back `new Node(0, left->freq + right->freq, left, right)`. -/
inductive Huff : List Node → Node → Prop
  | single (t : Node) : Huff [t] t
  | step (q : List Node) (left right m : Node) (rest : List Node) (t : Node) :
      q.Perm (left :: right :: rest) →
      (∀ y ∈ right :: rest, NodeCompare left y = false) →
      (∀ y ∈ rest, NodeCompare right y = false) →
      mergeNodes left right = some m →
      Huff (m :: rest) t → Huff q t

/-! ## Sequences of writes and the matching reads (specification vocabulary) -/

/-- One call on a `BitWriter`: `writeBit(b)` or `writeByte(x)`. -/
inductive WriteOp where
  | bit (b : Bool) : WriteOp
  | byte (x : Nat) : WriteOp
  deriving DecidableEq, Repr

namespace WriteOp

/-- Perform the call. -/
def run (w : BitWriter) : WriteOp → BitWriter
  | bit b => w.writeBit b
  | byte x => w.writeByte x

/-- The bits the call stands for. -/
def toBits : WriteOp → List Bool
  | bit b => [b]
  | byte x => bitsOfNat 8 x

end WriteOp

/-- The reads matching a sequence of writes, `readBit` for a `writeBit` and `readChar`
for a `writeByte`, with the values they return. -/
def readBack : List WriteOp → BitReader → Option (List WriteOp)
  | [], _ => some []
  | WriteOp.bit _ :: ops, r =>
    r.readBit.bind fun (b, r1) => (readBack ops r1).bind fun vs => some (WriteOp.bit b :: vs)
  | WriteOp.byte _ :: ops, r =>
    r.readChar.bind fun (x, r1) => (readBack ops r1).bind fun vs => some (WriteOp.byte x :: vs)

/-! ## Weighted path length (specification vocabulary) -/

/-- Weighted path length of a tree for a frequency table: the sum over the leaves of
the count of the symbol times the depth of the leaf. -/
def Node.wpl (freq : Nat → Int) (t : Node) : Int :=
  (t.codes.map fun p => freq p.1 * (p.2.length : Int)).sum

/-- Sum of the counts of the leaf symbols of a tree. -/
def Node.leafSum (freq : Nat → Int) (t : Node) : Int :=
  (t.leaves.map freq).sum

/-- The multisets of leaf depths of full binary trees. -/
inductive IsShape : Multiset Nat → Prop
  | leaf : IsShape {0}
  | node (d1 d2 : Multiset Nat) :
      IsShape d1 → IsShape d2 → IsShape (d1.map Nat.succ + d2.map Nat.succ)

/-- Cost of an assignment of weights to leaf depths: the sum of weight times depth. -/
def wcost (t : Multiset (Int × Nat)) : Int :=
  (t.map fun p => p.1 * (p.2 : Int)).sum

/-- Sum of the positive counts of a frequency table: the weight of the root. -/
def positiveTotal (freq : Nat → Int) : Int :=
  (((List.range R).filter fun i => decide (freq i > 0)).map freq).sum

/-- The leaves of a tree as weighted depths: the count of the symbol and the depth. -/
def Node.weighted (freq : Nat → Int) (t : Node) : Multiset (Int × Nat) :=
  ((t.codes.map fun p => (freq p.1, p.2.length) : List (Int × Nat)) : Multiset (Int × Nat))

/-- A frequency table whose counts do not fit an `int` together: `2 ^ 30` for each of
the symbols 0, 1, 2 and 3. -/
def overflowTable (i : Nat) : Int := if i < 4 then 2 ^ 30 else 0

/-! ## Further vocabulary: mirror image, height, exact weights, packing -/

namespace Node

/-- Mirror image of a tree: the two children of every node exchanged. -/
def mirror : Node → Node
  | null => null
  | mk ch f left right => mk ch f right.mirror left.mirror

/-- Number of edges on the longest path from the node down to a leaf. -/
def height : Node → Nat
  | null => 0
  | mk _ _ left right =>
    if left.isNull && right.isNull then 0 else max left.height right.height + 1

/-- Every internal node carries the exact sum of the weights of its two children. -/
def weightsExact : Node → Bool
  | null => true
  | mk _ f left right =>
    if left.isNull && right.isNull then true
    else decide (f = left.weight + right.weight) && left.weightsExact && right.weightsExact

end Node

/-- Packing of a bit sequence into bytes, most significant bit first, the last byte
filled up with zero bits. -/
def packBits : List Bool → List Nat
  | b7 :: b6 :: b5 :: b4 :: b3 :: b2 :: b1 :: b0 :: rest =>
    natOfBits [b7, b6, b5, b4, b3, b2, b1, b0] :: packBits rest
  | [] => []
  | b :: rest => [natOfBits ((b :: rest) ++ List.replicate (8 - (b :: rest).length) false)]

/-- The eight `writeBit` calls of the slow path of `writeByte`. -/
def writeByteBits (w : BitWriter) (x : Nat) : BitWriter :=
  (List.range 8).foldl (fun w i => w.writeBit (((x >>> (8 - i - 1)) &&& 1) == 1)) w

/-- A frequency table whose counts do not fit an `int` together: 1 for the symbol 0 and
`2 ^ 30` for each of the symbols 1, 2, 3 and 4. -/
def skewedTable (i : Nat) : Int := if i = 0 then 1 else if i < 5 then 2 ^ 30 else 0

end Huffman
namespace Huffman

theorem length_bitsOfNat (k x : Nat) : (bitsOfNat k x).length = k := by
  induction k generalizing x with
  | zero => rfl
  | succ k ih => simp [bitsOfNat, ih]

theorem natOfBits_foldl (l : List Bool) (a : Nat) :
    l.foldl (fun acc b => 2 * acc + b.toNat) a = a * 2 ^ l.length + natOfBits l := by
  induction l generalizing a with
  | nil => simp [natOfBits]
  | cons b l ih =>
    simp only [List.foldl_cons, List.length_cons, natOfBits]
    rw [ih, ih (2 * 0 + b.toNat)]
    ring

theorem natOfBits_append (l1 l2 : List Bool) :
    natOfBits (l1 ++ l2) = natOfBits l1 * 2 ^ l2.length + natOfBits l2 := by
  unfold natOfBits
  rw [List.foldl_append, natOfBits_foldl]
  rfl

theorem natOfBits_singleton (b : Bool) : natOfBits [b] = b.toNat := by
  simp [natOfBits]

theorem natOfBits_lt (l : List Bool) : natOfBits l < 2 ^ l.length := by
  induction l using List.reverseRecOn with
  | nil => simp [natOfBits]
  | append_singleton l b ih =>
    rw [natOfBits_append, natOfBits_singleton]
    simp only [List.length_append, List.length_singleton, pow_succ, pow_zero, pow_one]
    have : b.toNat ≤ 1 := by cases b <;> simp
    omega

theorem natOfBits_bitsOfNat (k x : Nat) : natOfBits (bitsOfNat k x) = x % 2 ^ k := by
  induction k generalizing x with
  | zero => simp [bitsOfNat, natOfBits, Nat.mod_one]
  | succ k ih =>
    rw [bitsOfNat, natOfBits_append, ih, natOfBits_singleton]
    simp only [List.length_singleton, pow_one]
    have h1 : (decide (x % 2 = 1)).toNat = x % 2 := by
      rcases Nat.mod_two_eq_zero_or_one x with h | h <;> simp [h]
    rw [h1, pow_succ, Nat.mul_comm (2 ^ k) 2, Nat.mod_mul]
    ring

theorem bitsOfNat_natOfBits (l : List Bool) : bitsOfNat l.length (natOfBits l) = l := by
  induction l using List.reverseRecOn with
  | nil => rfl
  | append_singleton l b ih =>
    rw [natOfBits_append, natOfBits_singleton]
    simp only [List.length_append, List.length_singleton, pow_one, bitsOfNat]
    have hb : b.toNat ≤ 1 := by cases b <;> simp
    have h1 : (natOfBits l * 2 + b.toNat) / 2 = natOfBits l := by omega
    have h2 : decide ((natOfBits l * 2 + b.toNat) % 2 = 1) = b := by
      cases b <;> simp
      omega
    rw [h1, h2, ih]

theorem bitsOfNat_mod (k x : Nat) : bitsOfNat k (x % 2 ^ k) = bitsOfNat k x := by
  have h := bitsOfNat_natOfBits (bitsOfNat k x)
  rw [length_bitsOfNat, natOfBits_bitsOfNat] at h
  exact h

theorem bitsOfNat_inj {k x y : Nat} (hx : x < 2 ^ k) (hy : y < 2 ^ k)
    (h : bitsOfNat k x = bitsOfNat k y) : x = y := by
  have := congrArg natOfBits h
  rwa [natOfBits_bitsOfNat, natOfBits_bitsOfNat, Nat.mod_eq_of_lt hx, Nat.mod_eq_of_lt hy] at this

theorem bitsOfNat_add (a b x : Nat) :
    bitsOfNat (a + b) x = bitsOfNat a (x / 2 ^ b) ++ bitsOfNat b x := by
  induction b generalizing x with
  | zero => simp [bitsOfNat]
  | succ b ih =>
    rw [← Nat.add_assoc, bitsOfNat, bitsOfNat, ih, List.append_assoc, Nat.div_div_eq_div_mul,
      pow_succ, Nat.mul_comm 2]

theorem bitsOfNat_succ_cons (k x : Nat) :
    bitsOfNat (k + 1) x = decide (x / 2 ^ k % 2 = 1) :: bitsOfNat k x := by
  rw [Nat.add_comm, bitsOfNat_add]
  simp [bitsOfNat]

theorem bitsOfNat_mul_pow (a b x : Nat) :
    bitsOfNat (a + b) (x * 2 ^ b) = bitsOfNat a x ++ List.replicate b false := by
  rw [bitsOfNat_add, Nat.mul_div_cancel _ (by positivity)]
  congr 1
  induction b generalizing x with
  | zero => rfl
  | succ b ih =>
    rw [bitsOfNat, List.replicate_succ', pow_succ, ← Nat.mul_assoc, Nat.mul_div_cancel _ (by omega),
      ih, Nat.mul_mod_left]
    simp

end Huffman
namespace Huffman

/-! ## The writer appends bits -/

namespace BitWriter

theorem inv_new : BitWriter.new.Inv := by
  simp [BitWriter.new, BitWriter.Inv]

theorem bits_new : BitWriter.new.bits = [] := by
  simp [BitWriter.new, BitWriter.bits, bytesToBits, bitsOfNat]

theorem bytesToBits_append (a b : List Nat) :
    bytesToBits (a ++ b) = bytesToBits a ++ bytesToBits b := by
  simp [bytesToBits]

theorem bytesToBits_singleton (x : Nat) : bytesToBits [x] = bitsOfNat 8 x := by
  simp [bytesToBits]

theorem writeBit_spec (w : BitWriter) (b : Bool) (h : w.Inv) :
    (w.writeBit b).Inv ∧ (w.writeBit b).bits = w.bits ++ [b] := by
  obtain ⟨hn, hb, hos⟩ := h
  have hb8 : w.buffer < 2 ^ 7 := lt_of_lt_of_le hb (Nat.pow_le_pow_right (by omega) (by omega))
  have hsh : (w.buffer <<< 1) % 256 = 2 * w.buffer := by
    rw [Nat.shiftLeft_eq]; omega
  have hor : 2 * w.buffer ||| 1 = 2 * w.buffer + 1 := by
    have := Nat.mul_add_lt_is_or (i := 1) (b := 1) (by omega) w.buffer
    simpa using this.symm
  have hnew : (if b then (w.buffer <<< 1) % 256 ||| 1 else (w.buffer <<< 1) % 256)
      = 2 * w.buffer + b.toNat := by
    cases b <;> simp [hsh, hor]
  have hbits : bitsOfNat (w.n + 1) (2 * w.buffer + b.toNat) = bitsOfNat w.n w.buffer ++ [b] := by
    have hb1 : b.toNat ≤ 1 := by cases b <;> simp
    have h1 : (2 * w.buffer + b.toNat) / 2 = w.buffer := by omega
    have h2 : decide ((2 * w.buffer + b.toNat) % 2 = 1) = b := by
      cases b <;> simp
      omega
    rw [bitsOfNat, h1, h2]
  have hlt : 2 * w.buffer + b.toNat < 2 ^ (w.n + 1) := by
    have hb1 : b.toNat ≤ 1 := by cases b <;> simp
    rw [pow_succ]; omega
  unfold writeBit
  simp only [hnew]
  by_cases h8 : w.n + 1 = 8
  · have hlt8 : 2 * w.buffer + b.toNat < 256 := by rw [h8] at hlt; simpa using hlt
    simp only [h8, if_true, clearBuffer, if_false, Nat.reduceEqDiff, Nat.sub_self,
      Nat.shiftLeft_zero, Nat.mod_eq_of_lt hlt8]
    refine ⟨⟨by simp, by simp, ?_⟩, ?_⟩
    · intro x hx
      rcases List.mem_append.1 hx with hx | hx
      · exact hos x hx
      · simp at hx; omega
    · have h0 : bitsOfNat 0 0 = [] := rfl
      simp only [bits, bytesToBits_append, bytesToBits_singleton, h0, List.append_nil]
      rw [← h8, hbits, List.append_assoc]
  · simp only [h8, if_false]
    refine ⟨⟨by simp; omega, hlt, hos⟩, ?_⟩
    simp only [bits, hbits, List.append_assoc]

/-- A run of `writeBit` calls, one per element of `l`. -/
theorem foldl_writeBit_spec (l : List Bool) (w : BitWriter) (h : w.Inv) :
    (l.foldl writeBit w).Inv ∧ (l.foldl writeBit w).bits = w.bits ++ l := by
  induction l generalizing w with
  | nil => simp [h]
  | cons b l ih =>
    obtain ⟨h1, h2⟩ := writeBit_spec w b h
    obtain ⟨h3, h4⟩ := ih (w.writeBit b) h1
    exact ⟨h3, by rw [List.foldl_cons, h4, h2, List.append_assoc]; rfl⟩

theorem byte_bits_eq (x : Nat) :
    (List.range 8).map (fun i => ((x >>> (8 - i - 1)) &&& 1) == 1) = bitsOfNat 8 x := by
  have hr : List.range 8 = [0, 1, 2, 3, 4, 5, 6, 7] := by decide
  have hd : ∀ a : Nat, (a % 2 == 1) = decide (a % 2 = 1) := fun a => by
    rcases Nat.mod_two_eq_zero_or_one a with h | h <;> simp [h]
  simp only [hr, List.map_cons, List.map_nil, bitsOfNat, Nat.shiftRight_eq_div_pow,
    Nat.and_one_is_mod, hd, List.nil_append, List.cons_append, List.singleton_append]
  simp only [Nat.div_div_eq_div_mul]
  norm_num

theorem writeByte_spec (w : BitWriter) (x : Nat) (h : w.Inv) (hx : x < 256) :
    (w.writeByte x).Inv ∧ (w.writeByte x).bits = w.bits ++ bitsOfNat 8 x := by
  unfold writeByte
  by_cases h0 : w.n = 0
  · obtain ⟨hn, hb, hos⟩ := h
    simp only [h0, if_true]
    refine ⟨⟨by simp [h0], by simpa [h0] using hb, ?_⟩, ?_⟩
    · intro y hy
      rcases List.mem_append.1 hy with hy | hy
      · exact hos y hy
      · simp at hy; omega
    · simp [bits, h0, bytesToBits_append, bytesToBits_singleton, bitsOfNat]
  · simp only [h0, if_false]
    have hf : (List.range 8).foldl (fun w i => w.writeBit (((x >>> (8 - i - 1)) &&& 1) == 1)) w
        = ((List.range 8).map (fun i => ((x >>> (8 - i - 1)) &&& 1) == 1)).foldl writeBit w := by
      rw [List.foldl_map]
    rw [hf, byte_bits_eq]
    exact foldl_writeBit_spec _ w h

theorem and_255 (x : Nat) : x &&& 255 = x % 256 := by
  have := Nat.and_pow_two_sub_one_eq_mod x 8
  simpa using this

theorem bitsOfNat_32 (x : Nat) :
    bitsOfNat 32 x = bitsOfNat 8 (x / 2 ^ 24) ++ (bitsOfNat 8 (x / 2 ^ 16) ++
      (bitsOfNat 8 (x / 2 ^ 8) ++ bitsOfNat 8 (x / 2 ^ 0))) := by
  have a1 := bitsOfNat_add 24 8 x
  have a2 := bitsOfNat_add 16 8 (x / 2 ^ 8)
  have a3 := bitsOfNat_add 8 8 (x / 2 ^ 8 / 2 ^ 8)
  simp only [Nat.div_div_eq_div_mul, ← pow_add] at a2 a3
  simp only [Nat.reduceAdd] at a1 a2 a3
  rw [a1, a2, a3]
  simp

theorem writeUnsigned_spec (w : BitWriter) (x : Nat) (h : w.Inv) :
    (w.writeUnsigned x).Inv ∧ (w.writeUnsigned x).bits = w.bits ++ bitsOfNat 32 x := by
  unfold writeUnsigned
  simp only [and_255, Nat.shiftRight_eq_div_pow]
  obtain ⟨i1, b1⟩ := writeByte_spec w (x / 2 ^ 24 % 256) h (Nat.mod_lt _ (by omega))
  obtain ⟨i2, b2⟩ := writeByte_spec _ (x / 2 ^ 16 % 256) i1 (Nat.mod_lt _ (by omega))
  obtain ⟨i3, b3⟩ := writeByte_spec _ (x / 2 ^ 8 % 256) i2 (Nat.mod_lt _ (by omega))
  obtain ⟨i4, b4⟩ := writeByte_spec _ (x / 2 ^ 0 % 256) i3 (Nat.mod_lt _ (by omega))
  refine ⟨i4, ?_⟩
  rw [b4, b3, b2, b1]
  have e : ∀ y, bitsOfNat 8 (y % 256) = bitsOfNat 8 y := fun y => bitsOfNat_mod 8 y
  rw [e, e, e, e]
  have h32 := bitsOfNat_32 x
  rw [h32]
  simp only [List.append_assoc]

theorem close_spec (w : BitWriter) (h : w.Inv) :
    (∀ b ∈ w.close, b < 256) ∧
      bytesToBits w.close = w.bits ++ List.replicate ((8 - w.n) % 8) false := by
  obtain ⟨hn, hb, hos⟩ := h
  unfold close clearBuffer
  by_cases h0 : w.n = 0
  · simp only [h0, if_true]
    exact ⟨hos, by simp [bits, h0, bitsOfNat]⟩
  · simp only [h0, if_false]
    have hlt : w.buffer * 2 ^ (8 - w.n) < 256 := by
      have : w.buffer * 2 ^ (8 - w.n) < 2 ^ w.n * 2 ^ (8 - w.n) :=
        Nat.mul_lt_mul_of_pos_right hb (by positivity)
      rw [← pow_add] at this
      have e : w.n + (8 - w.n) = 8 := by omega
      rw [e] at this
      simpa using this
    rw [Nat.shiftLeft_eq, Nat.mod_eq_of_lt hlt]
    refine ⟨?_, ?_⟩
    · intro y hy
      rcases List.mem_append.1 hy with hy | hy
      · exact hos y hy
      · simp at hy; omega
    · have e : (8 - w.n) % 8 = 8 - w.n := Nat.mod_eq_of_lt (by omega)
      have e8 : bitsOfNat 8 (w.buffer * 2 ^ (8 - w.n))
          = bitsOfNat w.n w.buffer ++ List.replicate (8 - w.n) false := by
        have := bitsOfNat_mul_pow w.n (8 - w.n) w.buffer
        have e2 : w.n + (8 - w.n) = 8 := by omega
        rwa [e2] at this
      rw [e, bytesToBits_append, bytesToBits_singleton, e8, bits, List.append_assoc]

end BitWriter
end Huffman
namespace Huffman

/-! ## The reader consumes bits -/

namespace BitReader

theorem rep_nil (r : BitReader) : r.Rep [] := Or.inl rfl

theorem rep_new (bytes : List Nat) (h : ∀ b ∈ bytes, b < 256) :
    (BitReader.new bytes).Rep (bytesToBits bytes) := by
  cases bytes with
  | nil => exact Or.inl rfl
  | cons b rest =>
    right
    have hnew : BitReader.new (b :: rest) = { buffer := b, n := 8, is := rest, eof := false } := by
      simp [BitReader.new, fillBuffer]
    rw [hnew]
    refine ⟨rfl, by simp, by simp, h b (by simp), fun y hy => h y (by simp [hy]), ?_⟩
    simp [bytesToBits]

/-- After the buffer has been used up, `fillBuffer` stands in front of the bytes still
in the stream. -/
theorem rep_fillBuffer (r : BitReader) (he : r.eof = false) (h : ∀ b ∈ r.is, b < 256) :
    r.fillBuffer.Rep (bytesToBits r.is) := by
  unfold fillBuffer
  simp only [he, Bool.not_false, if_true]
  cases hr : r.is with
  | nil => exact Or.inl rfl
  | cons b rest =>
    right
    rw [hr] at h
    refine ⟨rfl, by simp, by simp, h b (by simp), fun y hy => h y (by simp [hy]), ?_⟩
    simp [bytesToBits]

theorem readBit_spec (r : BitReader) (b : Bool) (bs : List Bool) (h : r.Rep (b :: bs)) :
    ∃ r1, r.readBit = some (b, r1) ∧ r1.Rep bs := by
  rcases h with h | ⟨he, h1, h8, hb, his, hbits⟩
  · simp at h
  obtain ⟨k, hk⟩ : ∃ k : Nat, r.n = (k : Int) + 1 := ⟨(r.n - 1).toNat, by omega⟩
  have hsub : r.n - 1 = (k : Int) := by omega
  have hto : r.n.toNat = k + 1 := by omega
  rw [hto, bitsOfNat_succ_cons, List.cons_append] at hbits
  obtain ⟨hb1, hbs⟩ := List.cons.inj hbits
  have hbit : (((r.buffer >>> k) &&& 1) == 1) = b := by
    rw [hb1, Nat.shiftRight_eq_div_pow, Nat.and_one_is_mod]
    rcases Nat.mod_two_eq_zero_or_one (r.buffer / 2 ^ k) with h | h <;> simp [h]
  unfold readBit
  simp only [hsub, Int.toNat_ofNat, hbit]
  have hneg : ¬ ((k : Int) < 0) := by omega
  simp only [hneg, if_false]
  by_cases hk0 : k = 0
  · subst hk0
    refine ⟨_, rfl, ?_⟩
    simp only [CharP.cast_eq_zero, if_true]
    rw [hbs]
    simp only [bitsOfNat, List.nil_append]
    exact rep_fillBuffer _ he his
  · have hk0i : ¬ ((k : Int) = 0) := by omega
    simp only [hk0i, if_false]
    refine ⟨_, rfl, Or.inr ⟨he, by simp; omega, by simp; omega, hb, his, ?_⟩⟩
    simpa using hbs

theorem readChar_spec (r : BitReader) (x : Nat) (bs : List Bool) (hx : x < 256)
    (h : r.Rep (bitsOfNat 8 x ++ bs)) :
    ∃ r1, r.readChar = some (x, r1) ∧ r1.Rep bs := by
  rcases h with h | ⟨he, h1, h8, hb, his, hbits⟩
  · have := congrArg List.length h
    simp [length_bitsOfNat] at this
  unfold readChar
  by_cases hn8 : r.n = 8
  · simp only [hn8, if_true]
    have hto : r.n.toNat = 8 := by omega
    rw [hto] at hbits
    have hl := List.append_inj hbits (by simp [length_bitsOfNat])
    have hxe : x = r.buffer := bitsOfNat_inj (by simpa using hx) (by simpa using hb) hl.1
    refine ⟨_, by rw [hxe], ?_⟩
    rw [hl.2]
    exact rep_fillBuffer _ he his
  · simp only [hn8, if_false]
    have hng : ¬ (r.n < 0 ∨ 8 < r.n) := by omega
    simp only [hng, if_false]
    obtain ⟨k, hk⟩ : ∃ k : Nat, r.n = (k : Int) := ⟨r.n.toNat, by omega⟩
    have hk1 : 1 ≤ k := by omega
    have hk7 : k ≤ 7 := by omega
    have hto : r.n.toNat = k := by omega
    have hto8 : (8 - r.n).toNat = 8 - k := by omega
    rw [hto] at hbits
    cases hr : r.is with
    | nil =>
      rw [hr] at hbits
      have := congrArg List.length hbits
      simp [length_bitsOfNat, bytesToBits] at this
      omega
    | cons nx rest =>
      rw [hr] at hbits his
      have hnx : nx < 256 := his nx (by simp)
      have hsplit : bitsOfNat 8 nx = bitsOfNat (8 - k) (nx / 2 ^ k) ++ bitsOfNat k nx := by
        have := bitsOfNat_add (8 - k) k nx
        have e : 8 - k + k = 8 := by omega
        rwa [e] at this
      have hbits2 : bitsOfNat 8 x ++ bs
          = (bitsOfNat k r.buffer ++ bitsOfNat (8 - k) (nx / 2 ^ k))
            ++ (bitsOfNat k nx ++ bytesToBits rest) := by
        rw [hbits]
        simp only [bytesToBits, List.flatMap_cons, hsplit, List.append_assoc]
      have hl := List.append_inj hbits2 (by simp [length_bitsOfNat]; omega)
      have hval : x = r.buffer % 2 ^ k * 2 ^ (8 - k) + nx / 2 ^ k := by
        have := congrArg natOfBits hl.1
        rw [natOfBits_bitsOfNat, natOfBits_append, natOfBits_bitsOfNat, natOfBits_bitsOfNat,
          length_bitsOfNat, Nat.mod_eq_of_lt (by simpa using hx)] at this
        rw [this]
        congr 1
        apply Nat.mod_eq_of_lt
        rw [Nat.div_lt_iff_lt_mul (by positivity), ← pow_add]
        have e : 8 - k + k = 8 := by omega
        rw [e]; simpa using hnx
      have hlow : nx / 2 ^ k < 2 ^ (8 - k) := by
        rw [Nat.div_lt_iff_lt_mul (by positivity), ← pow_add]
        have e : 8 - k + k = 8 := by omega
        rw [e]; simpa using hnx
      have hshl : (r.buffer <<< (8 - k)) % 256 = 2 ^ (8 - k) * (r.buffer % 2 ^ k) := by
        rw [Nat.shiftLeft_eq]
        have e : (256 : Nat) = 2 ^ (8 - k) * 2 ^ k := by
          rw [← pow_add]
          have e : 8 - k + k = 8 := by omega
          rw [e]; norm_num
        rw [e, Nat.mul_comm r.buffer, Nat.mul_mod_mul_left]
      have hfill : r.fillBuffer = { buffer := nx, n := 8, is := rest, eof := false } := by
        simp [fillBuffer, he, hr]
      have hres : ((r.buffer <<< (8 - k)) % 256 ||| (nx >>> k)) % 256 = x := by
        rw [hshl, Nat.shiftRight_eq_div_pow, ← Nat.mul_add_lt_is_or hlow,
          Nat.mul_comm, ← hval]
        exact Nat.mod_eq_of_lt hx
      refine ⟨{ buffer := nx, n := (k : Int), is := rest, eof := false }, ?_,
        Or.inr ⟨rfl, by simp; omega, by simp; omega, hnx, fun y hy => his y (by simp [hy]), ?_⟩⟩
      · rw [hk] at hto8
        simp only [hfill, hk, hto8, Int.toNat_ofNat, hres]
      · simp only [Int.toNat_ofNat]
        exact hl.2

theorem readUnsignedStep_spec (r : BitReader) (acc c : Nat) (bs : List Bool)
    (hacc : acc < 2 ^ 24) (h : r.Rep (bitsOfNat 8 c ++ bs)) :
    ∃ r1, readUnsignedStep (acc, r) = some (acc * 256 + c % 256, r1) ∧ r1.Rep bs := by
  rw [← bitsOfNat_mod] at h
  obtain ⟨r1, h1, h2⟩ := readChar_spec r (c % 2 ^ 8) bs (Nat.mod_lt _ (by norm_num)) h
  refine ⟨r1, ?_, h2⟩
  simp only [readUnsignedStep, h1]
  have hlt : acc * 2 ^ 8 < 2 ^ 32 := by omega
  rw [Nat.shiftLeft_eq, Nat.mod_eq_of_lt hlt, Nat.mul_comm acc,
    ← Nat.mul_add_lt_is_or (Nat.mod_lt _ (by norm_num))]
  norm_num
  exact Nat.mul_comm _ _

theorem readUnsigned_spec (r : BitReader) (x : Nat) (bs : List Bool) (hx : x < 2 ^ 32)
    (h : r.Rep (bitsOfNat 32 x ++ bs)) :
    ∃ r1, r.readUnsigned = some (x, r1) ∧ r1.Rep bs := by
  rw [BitWriter.bitsOfNat_32] at h
  simp only [List.append_assoc] at h
  obtain ⟨r1, e1, h1⟩ := readUnsignedStep_spec r 0 _ _ (by norm_num) h
  obtain ⟨r2, e2, h2⟩ := readUnsignedStep_spec r1 (0 * 256 + x / 2 ^ 24 % 256) _ _ (by omega) h1
  obtain ⟨r3, e3, h3⟩ := readUnsignedStep_spec r2
    ((0 * 256 + x / 2 ^ 24 % 256) * 256 + x / 2 ^ 16 % 256) _ _ (by omega) h2
  obtain ⟨r4, e4, h4⟩ := readUnsignedStep_spec r3
    (((0 * 256 + x / 2 ^ 24 % 256) * 256 + x / 2 ^ 16 % 256) * 256 + x / 2 ^ 8 % 256) _ _
    (by omega) h3
  refine ⟨r4, ?_, h4⟩
  simp only [readUnsigned, e1, e2, e3, Option.some_bind, Option.bind_some, e4]
  congr 2
  norm_num at hx ⊢
  omega

end BitReader
end Huffman
namespace Huffman

/-! ## Trie codec and code table on full tries -/

theorem readBits_spec (l bs : List Bool) (r : BitReader) (h : r.Rep (l ++ bs)) :
    ∃ r1, readBits l.length r = some (l, r1) ∧ r1.Rep bs := by
  induction l generalizing r with
  | nil => exact ⟨r, rfl, h⟩
  | cons b l ih =>
    obtain ⟨r1, e1, h1⟩ := BitReader.readBit_spec r b (l ++ bs) h
    obtain ⟨r2, e2, h2⟩ := ih r1 h1
    exact ⟨r2, by simp [readBits, e1, e2], h2⟩

namespace Node

theorem isNull_iff (t : Node) : t.isNull = true ↔ t = null := by
  cases t <;> simp [isNull]

theorem isFull_ne_null {t : Node} (h : t.isFull = true) : t.isNull = false := by
  cases t with
  | null => simp [isFull] at h
  | mk _ _ _ _ => rfl

/-- Case analysis on a full trie: a leaf, or an internal node with two full children. -/
theorem isFull_cases {ch : Nat} {f : Int} {l r : Node} (h : (mk ch f l r).isFull = true) :
    (l.isNull && r.isNull) = true ∨
      ((l.isNull && r.isNull) = false ∧ l.isFull = true ∧ r.isFull = true) := by
  by_cases hl : (l.isNull && r.isNull) = true
  · exact Or.inl hl
  · right
    simp only [isFull, Bool.or_eq_true, Bool.and_eq_true] at h
    rcases h with h | h
    · simp [h.1, h.2] at hl
    · exact ⟨by simpa using hl, h.1, h.2⟩

theorem writeTire_spec (t : Node) (w : BitWriter) (hf : t.isFull = true)
    (hs : ∀ c ∈ t.leaves, c < 256) (hw : w.Inv) :
    ∃ w1, writeTire t w = some w1 ∧ w1.Inv ∧ w1.bits = w.bits ++ t.serialize := by
  induction t generalizing w with
  | null => simp [isFull] at hf
  | mk ch f l r ihl ihr =>
    rcases isFull_cases hf with hleaf | ⟨hleaf, hl, hr⟩
    · simp only [writeTire, Node.isLeaf, hleaf, if_true, serialize]
      obtain ⟨i1, b1⟩ := BitWriter.writeBit_spec w true hw
      have hc : ch < 256 := hs ch (by simp [leaves, hleaf])
      obtain ⟨i2, b2⟩ := BitWriter.writeByte_spec _ ch i1 hc
      exact ⟨_, rfl, i2, by rw [b2, b1]; simp⟩
    · simp only [leaves, hleaf, Bool.false_eq_true, if_false] at hs
      obtain ⟨i1, b1⟩ := BitWriter.writeBit_spec w false hw
      obtain ⟨w1, e1, i2, b2⟩ := ihl (w.writeBit false) hl
        (fun c hc => hs c (by simp [hc])) i1
      obtain ⟨w2, e2, i3, b3⟩ := ihr w1 hr (fun c hc => hs c (by simp [hc])) i2
      refine ⟨w2, ?_, i3, ?_⟩
      · simp [writeTire, Node.isLeaf, hleaf, e1, e2]
      · rw [b3, b2, b1]; simp [serialize, hleaf]

theorem readTire_spec (t : Node) (fuel : Nat) (r : BitReader) (bs : List Bool)
    (hf : t.isFull = true) (hs : ∀ c ∈ t.leaves, c < 256)
    (hfuel : t.serialize.length ≤ fuel) (hr : r.Rep (t.serialize ++ bs)) :
    ∃ r1, readTire ArgOrder.leftToRight fuel r = some (t.skeleton, r1) ∧ r1.Rep bs := by
  induction t generalizing fuel r bs with
  | null => simp [isFull] at hf
  | mk ch f lt rt ihl ihr =>
    rcases isFull_cases hf with hleaf | ⟨hleaf, hl, hrt⟩
    · simp only [serialize, hleaf, if_true, List.cons_append] at hr hfuel
      obtain ⟨k, rfl⟩ : ∃ k, fuel = k + 1 := ⟨fuel - 1, by simp at hfuel; omega⟩
      obtain ⟨r1, e1, h1⟩ := BitReader.readBit_spec r true _ hr
      have hc : ch < 256 := hs ch (by simp [leaves, hleaf])
      obtain ⟨r2, e2, h2⟩ := BitReader.readChar_spec r1 ch bs hc h1
      exact ⟨r2, by simp [readTire, e1, e2, skeleton, hleaf], h2⟩
    · simp only [serialize, hleaf, Bool.false_eq_true, if_false, List.cons_append,
        List.append_assoc, List.length_cons, List.length_append] at hr hfuel
      simp only [leaves, hleaf, Bool.false_eq_true, if_false] at hs
      obtain ⟨k, rfl⟩ : ∃ k, fuel = k + 1 := ⟨fuel - 1, by omega⟩
      obtain ⟨r1, e1, h1⟩ := BitReader.readBit_spec r false _ hr
      obtain ⟨r2, e2, h2⟩ := ihl k r1 _ hl (fun c hc => hs c (by simp [hc])) (by omega) h1
      obtain ⟨r3, e3, h3⟩ := ihr k r2 _ hrt (fun c hc => hs c (by simp [hc])) (by omega) h2
      exact ⟨r3, by simp [readTire, e1, e2, e3, skeleton, hleaf], h3⟩

theorem isNull_skeleton (t : Node) : t.skeleton.isNull = t.isNull := by
  cases t with
  | null => rfl
  | mk ch f l r =>
    by_cases hleaf : (l.isNull && r.isNull) = true
    · simp only [skeleton, hleaf, if_true]; rfl
    · simp only [skeleton, hleaf, if_false]; rfl

theorem leafIso_skeleton (t : Node) : t.leafIso t.skeleton = true := by
  induction t with
  | null => rfl
  | mk ch f l r ihl ihr =>
    by_cases hleaf : (l.isNull && r.isNull) = true
    · simp only [skeleton, hleaf, if_true, leafIso]
      simp [isNull]
    · simp only [skeleton, hleaf, if_false, leafIso, isNull_skeleton, ihl, ihr]
      simp

end Node
end Huffman
namespace Huffman

/-! ## Code table and symbol decoding on full tries -/

theorem codeBits_pathChars (p : List Bool) : codeBits (pathChars p) = p := by
  induction p with
  | nil => rfl
  | cons b p ih =>
    simp only [codeBits, pathChars, List.map_cons, List.map_map] at ih ⊢
    rw [ih]
    cases b <;> simp

theorem codeBits_append (a b : List Char) : codeBits (a ++ b) = codeBits a ++ codeBits b := by
  simp [codeBits]

theorem writeCode_eq (w : BitWriter) (code : List Char) :
    writeCode w code = (codeBits code).foldl BitWriter.writeBit w := by
  unfold writeCode codeBits
  rw [List.foldl_map]
  congr 1
  funext w ch
  by_cases h : ch = '0' <;> simp [h]

theorem writeCode_spec (w : BitWriter) (code : List Char) (hw : w.Inv) :
    (writeCode w code).Inv ∧ (writeCode w code).bits = w.bits ++ codeBits code := by
  rw [writeCode_eq]
  exact BitWriter.foldl_writeBit_spec _ w hw

theorem encodeLoop_spec (huffman : Nat → List Char) (bytes : List Nat) (w : BitWriter)
    (hw : w.Inv) :
    (encodeLoop huffman bytes w).Inv ∧
      (encodeLoop huffman bytes w).bits
        = w.bits ++ bytes.flatMap (fun b => codeBits (huffman b)) := by
  induction bytes generalizing w with
  | nil => simp [encodeLoop, hw]
  | cons b bytes ih =>
    obtain ⟨i1, b1⟩ := writeCode_spec w (huffman b) hw
    obtain ⟨i2, b2⟩ := ih (writeCode w (huffman b)) i1
    refine ⟨i2, ?_⟩
    simp only [encodeLoop, List.foldl_cons, List.flatMap_cons] at b2 ⊢
    rw [b2, b1, List.append_assoc]

namespace Node

theorem codes_fst (t : Node) : t.codes.map Prod.fst = t.leaves := by
  induction t with
  | null => rfl
  | mk ch f l r ihl ihr =>
    by_cases hleaf : (l.isNull && r.isNull) = true
    · simp [codes, leaves, hleaf]
    · have hleaf2 : (l.isNull && r.isNull) = false := by simpa using hleaf
      simp only [codes, leaves, hleaf2, Bool.false_eq_true, if_false, List.map_append,
        List.map_map]
      rw [← ihl, ← ihr]
      rfl

theorem mem_leaves_of_mem_codes {t : Node} {p : Nat × List Bool} (h : p ∈ t.codes) :
    p.1 ∈ t.leaves := by
  rw [← codes_fst]
  exact List.mem_map_of_mem _ h

theorem buildCode_spec (t : Node) (tbl : Nat → List Char) (s : List Char)
    (hf : t.isFull = true) (hnd : t.leaves.Nodup) :
    ∃ tbl1, buildCode tbl t s = some tbl1 ∧
      (∀ p ∈ t.codes, tbl1 p.1 = s ++ pathChars p.2) ∧
      (∀ c, c ∉ t.leaves → tbl1 c = tbl c) := by
  induction t generalizing tbl s with
  | null => simp [isFull] at hf
  | mk ch f l r ihl ihr =>
    rcases isFull_cases hf with hleaf | ⟨hleaf, hl, hr⟩
    · refine ⟨Function.update tbl ch s, by simp [buildCode, Node.isLeaf, hleaf], ?_, ?_⟩
      · intro p hp
        simp only [codes, hleaf, if_true, List.mem_singleton] at hp
        subst hp
        simp [pathChars]
      · intro c hc
        simp only [leaves, hleaf, if_true, List.mem_singleton] at hc
        simp [Function.update, hc]
    · simp only [leaves, hleaf, Bool.false_eq_true, if_false] at hnd
      obtain ⟨ndl, ndr, hdis⟩ := List.nodup_append.1 hnd
      obtain ⟨t1, e1, c1, o1⟩ := ihl tbl (s ++ ['0']) hl ndl
      obtain ⟨t2, e2, c2, o2⟩ := ihr t1 (s ++ ['1']) hr ndr
      refine ⟨t2, by simp [buildCode, Node.isLeaf, hleaf, e1, e2], ?_, ?_⟩
      · intro p hp
        simp only [codes, hleaf, Bool.false_eq_true, if_false, List.mem_append,
          List.mem_map] at hp
        rcases hp with ⟨q, hq, rfl⟩ | ⟨q, hq, rfl⟩
        · have hql : q.1 ∈ l.leaves := mem_leaves_of_mem_codes hq
          have hqr : q.1 ∉ r.leaves := fun h => hdis hql h
          rw [o2 _ hqr, c1 q hq]
          simp [pathChars]
        · rw [c2 q hq]
          simp [pathChars]
      · intro c hc
        simp only [leaves, hleaf, Bool.false_eq_true, if_false, List.mem_append, not_or] at hc
        rw [o2 c hc.2, o1 c hc.1]

theorem decodeSymbol_spec (t : Node) (hf : t.isFull = true) (p : Nat × List Bool)
    (hp : p ∈ t.codes) (r : BitReader) (bs : List Bool) (hr : r.Rep (p.2 ++ bs)) :
    ∃ r1, decodeSymbol t r = some (p.1, r1) ∧ r1.Rep bs := by
  induction t generalizing p r with
  | null => simp [isFull] at hf
  | mk ch f lt rt ihl ihr =>
    rcases isFull_cases hf with hleaf | ⟨hleaf, hl, hrt⟩
    · simp only [codes, hleaf, if_true, List.mem_singleton] at hp
      subst hp
      exact ⟨r, by simp [decodeSymbol, Node.isLeaf, hleaf], by simpa using hr⟩
    · simp only [codes, hleaf, Bool.false_eq_true, if_false, List.mem_append,
        List.mem_map] at hp
      rcases hp with ⟨q, hq, rfl⟩ | ⟨q, hq, rfl⟩
      · obtain ⟨r1, e1, h1⟩ := BitReader.readBit_spec r false _ hr
        obtain ⟨r2, e2, h2⟩ := ihl hl q hq r1 h1
        exact ⟨r2, by simp [decodeSymbol, Node.isLeaf, hleaf, e1, e2], h2⟩
      · obtain ⟨r1, e1, h1⟩ := BitReader.readBit_spec r true _ hr
        obtain ⟨r2, e2, h2⟩ := ihr hrt q hq r1 h1
        exact ⟨r2, by simp [decodeSymbol, Node.isLeaf, hleaf, e1, e2], h2⟩

/-- The path of a leaf symbol (the first one, should a symbol occur twice). -/
theorem exists_code_of_mem_leaves {t : Node} {c : Nat} (h : c ∈ t.leaves) :
    ∃ p, (c, p) ∈ t.codes := by
  rw [← codes_fst, List.mem_map] at h
  obtain ⟨q, hq, rfl⟩ := h
  exact ⟨q.2, hq⟩

theorem decodeLoop_spec (root : Node) (hf : root.isFull = true) (tbl : Nat → List Char)
    (htbl : ∀ p ∈ root.codes, tbl p.1 = pathChars p.2) (l : List Nat)
    (hl : ∀ c ∈ l, c ∈ root.leaves) (r : BitReader) (out : List Nat) (bs : List Bool)
    (hr : r.Rep (l.flatMap (fun b => codeBits (tbl b)) ++ bs)) :
    decodeLoop root l.length r out = some (out ++ l) := by
  induction l generalizing r out with
  | nil => simp [decodeLoop]
  | cons c l ih =>
    obtain ⟨p, hp⟩ := exists_code_of_mem_leaves (hl c (by simp))
    have hc : codeBits (tbl c) = p := by
      rw [htbl (c, p) hp, codeBits_pathChars]
    simp only [List.flatMap_cons, hc, List.append_assoc] at hr
    obtain ⟨r1, e1, h1⟩ := decodeSymbol_spec root hf (c, p) hp r _ hr
    have := ih (fun d hd => hl d (by simp [hd])) r1 (out ++ [c]) h1
    simp only [List.length_cons, decodeLoop, e1, Option.some_bind, Option.bind_some]
    rw [this]
    simp

end Node
end Huffman
namespace Huffman

/-! ## The queue loop of `buildTrie` follows the merging discipline -/

theorem Huff.perm {q q1 : List Node} {t : Node} (h : Huff q t) (hp : q1.Perm q) :
    Huff q1 t := by
  cases h with
  | single =>
    rw [List.perm_singleton.1 hp]
    exact Huff.single t
  | step _ left right m rest _ h1 h2 h3 h4 h5 =>
    exact Huff.step q1 left right m rest t (hp.trans h1) h2 h3 h4 h5

namespace PriorityQueue

theorem LawfulOn.queueTop_some {pq : PriorityQueue} {inv : List Node → Prop}
    (h : pq.LawfulOn inv) (q : List Node) (hi : inv q) (hq : q ≠ []) :
    ∃ x, queueTop pq q = some x ∧ x ∈ q ∧
      (∀ y ∈ q, NodeCompare x y = false) ∧ (pq.pop q).Perm (q.erase x) ∧ inv (pq.pop q) := by
  obtain ⟨x, hx⟩ := h.top_some q hi hq
  refine ⟨x, ?_, h.top_mem q x hi hx, h.top_min q x hi hx, h.pop_perm q x hi hx,
    h.inv_pop q hi hq⟩
  unfold queueTop
  cases q with
  | nil => exact absurd rfl hq
  | cons a q => simpa using hx

/-- One round of the loop on a lawful queue. -/
theorem LawfulOn.round {pq : PriorityQueue} {inv : List Node → Prop} (h : pq.LawfulOn inv)
    (q : List Node) (hi : inv q) (hq : 1 < q.length) :
    ∃ left right, queueTop pq q = some left ∧ queueTop pq (pq.pop q) = some right ∧
      q.Perm (left :: right :: pq.pop (pq.pop q)) ∧
      (∀ y ∈ right :: pq.pop (pq.pop q), NodeCompare left y = false) ∧
      (∀ y ∈ pq.pop (pq.pop q), NodeCompare right y = false) ∧
      inv (pq.pop (pq.pop q)) := by
  have hne : q ≠ [] := by intro h0; rw [h0] at hq; simp at hq
  obtain ⟨left, e1, m1, min1, p1, i1⟩ := h.queueTop_some q hi hne
  have hlen1 : (pq.pop q).length = q.length - 1 := by
    rw [p1.length_eq, List.length_erase_of_mem m1]
  have hne1 : pq.pop q ≠ [] := by
    intro h0; rw [h0] at hlen1; simp at hlen1; omega
  obtain ⟨right, e2, m2, min2, p2, i2⟩ := h.queueTop_some (pq.pop q) i1 hne1
  have hq1 : q.Perm (left :: pq.pop q) :=
    (List.perm_cons_erase m1).trans (List.Perm.cons left p1.symm)
  have hq2 : (pq.pop q).Perm (right :: pq.pop (pq.pop q)) :=
    (List.perm_cons_erase m2).trans (List.Perm.cons right p2.symm)
  refine ⟨left, right, e1, e2, hq1.trans (List.Perm.cons left hq2), ?_, ?_, i2⟩
  · intro y hy
    exact min1 y (hq1.symm.subset (List.mem_cons_of_mem _ (hq2.symm.subset hy)))
  · intro y hy
    exact min2 y (hq2.symm.subset (List.mem_cons_of_mem _ hy))

end PriorityQueue

theorem mergeLoop_spec {pq : PriorityQueue} {inv : List Node → Prop} (h : pq.LawfulOn inv)
    (fuel : Nat) (q : List Node) (hi : inv q)
    (hne : q ≠ []) (hall : ∀ t ∈ q, t.isNull = false) (hfuel : q.length ≤ fuel + 1) :
    ∃ t, mergeLoop pq fuel q = some [t] ∧ inv [t] ∧ Huff q t := by
  induction fuel generalizing q with
  | zero =>
    obtain ⟨t, rfl⟩ : ∃ t, q = [t] := by
      cases q with
      | nil => exact absurd rfl hne
      | cons a q =>
        cases q with
        | nil => exact ⟨a, rfl⟩
        | cons b q => simp at hfuel
    exact ⟨t, by simp [mergeLoop], hi, Huff.single t⟩
  | succ fuel ih =>
    by_cases hq : 1 < q.length
    · obtain ⟨left, right, e1, e2, hp, min1, min2, i2⟩ := h.round q hi hq
      have hl : left.isNull = false := hall left (hp.symm.subset (by simp))
      have hr : right.isNull = false := hall right (hp.symm.subset (by simp))
      obtain ⟨m, hm, hmn⟩ : ∃ m, mergeNodes left right = some m ∧ m.isNull = false := by
        cases left with
        | null => simp [Node.isNull] at hl
        | mk c1 f1 a1 b1 =>
          cases right with
          | null => simp [Node.isNull] at hr
          | mk c2 f2 a2 b2 => exact ⟨_, rfl, rfl⟩
      have hpush := h.push_perm (pq.pop (pq.pop q)) m i2
      have hlen : (pq.push (pq.pop (pq.pop q)) m).length ≤ fuel + 1 := by
        have := hp.length_eq
        rw [hpush.length_eq]
        simp only [List.length_cons] at this ⊢
        omega
      have hall2 : ∀ t ∈ pq.push (pq.pop (pq.pop q)) m, t.isNull = false := by
        intro t ht
        rcases List.mem_cons.1 (hpush.subset ht) with rfl | ht
        · exact hmn
        · exact hall t (hp.symm.subset (by simp [ht]))
      have hne2 : pq.push (pq.pop (pq.pop q)) m ≠ [] := by
        intro h0
        have := hpush.length_eq
        rw [h0] at this
        simp at this
      obtain ⟨t, et, it, ht⟩ := ih _ (h.inv_push _ m i2) hne2 hall2 hlen
      refine ⟨t, ?_, it, Huff.step q left right m _ t hp min1 min2 hm (ht.perm hpush.symm)⟩
      simp [mergeLoop, hq, e1, e2, hm, et]
    · obtain ⟨t, rfl⟩ : ∃ t, q = [t] := by
        cases q with
        | nil => exact absurd rfl hne
        | cons a q =>
          cases q with
          | nil => exact ⟨a, rfl⟩
          | cons b q => simp at hq
      exact ⟨t, by simp [mergeLoop], hi, Huff.single t⟩

theorem foldl_pushLeaf_perm {pq : PriorityQueue} {inv : List Node → Prop}
    (h : pq.LawfulOn inv) (freq : Nat → Int) (l : List Nat) (q : List Node) (hi : inv q) :
    inv (l.foldl (pushLeaf pq freq) q) ∧
    (l.foldl (pushLeaf pq freq) q).Perm
      (q ++ (l.filter fun i => decide (freq i > 0)).map
        fun i => Node.mk (i % 256) (freq i) Node.null Node.null) := by
  induction l generalizing q with
  | nil => simp [hi]
  | cons i l ih =>
    simp only [List.foldl_cons]
    by_cases hpos : freq i > 0
    · have hstep : pushLeaf pq freq q i
          = pq.push q (Node.mk (i % 256) (freq i) Node.null Node.null) := by
        simp [pushLeaf, hpos]
      rw [hstep]
      obtain ⟨i1, p1⟩ := ih _ (h.inv_push q _ hi)
      refine ⟨i1, p1.trans ?_⟩
      simp only [hpos, List.filter_cons, decide_True, if_true, List.map_cons]
      refine (List.Perm.append_right _ (h.push_perm q _ hi)).trans ?_
      simp only [List.cons_append]
      exact List.perm_middle.symm
    · have hstep : pushLeaf pq freq q i = q := by simp [pushLeaf, hpos]
      rw [hstep]
      obtain ⟨i1, p1⟩ := ih q hi
      refine ⟨i1, p1.trans ?_⟩
      simp [hpos, List.filter_cons]

theorem pushSynthetic_perm {pq : PriorityQueue} {inv : List Node → Prop}
    (h : pq.LawfulOn inv) (freq : Nat → Int) :
    inv (pushSynthetic pq freq ((List.range R).foldl (pushLeaf pq freq) [])) ∧
    (pushSynthetic pq freq ((List.range R).foldl (pushLeaf pq freq) [])).Perm
      (startNodes freq) := by
  obtain ⟨hi, hp0⟩ := foldl_pushLeaf_perm h freq (List.range R) [] h.inv_nil
  have hp : ((List.range R).foldl (pushLeaf pq freq) []).Perm (initialLeaves freq) := by
    simpa [initialLeaves] using hp0
  unfold pushSynthetic startNodes
  rw [hp.length_eq]
  by_cases h1 : (initialLeaves freq).length = 1
  · simp only [h1, if_true]
    by_cases h0 : freq 0 = 0
    · simp only [h0, if_true]
      exact ⟨h.inv_push _ _ hi, (h.push_perm _ _ hi).trans (List.Perm.cons _ hp)⟩
    · simp only [h0, if_false]
      exact ⟨h.inv_push _ _ hi, (h.push_perm _ _ hi).trans (List.Perm.cons _ hp)⟩
  · simp only [h1, if_false]
    exact ⟨hi, hp⟩

theorem startNodes_not_null (freq : Nat → Int) : ∀ t ∈ startNodes freq, t.isNull = false := by
  intro t ht
  have hinit : ∀ t ∈ initialLeaves freq, t.isNull = false := by
    intro t ht
    simp only [initialLeaves, List.mem_map] at ht
    obtain ⟨i, _, rfl⟩ := ht
    rfl
  unfold startNodes at ht
  split at ht
  · rcases List.mem_cons.1 ht with rfl | ht
    · split <;> rfl
    · exact hinit t ht
  · exact hinit t ht

/-- On a lawful queue `buildTrie` returns the tree the merging discipline builds from
the start nodes, whenever there is at least one of them. -/
theorem buildTrie_spec {pq : PriorityQueue} (h : pq.Lawful) (freq : Nat → Int)
    (hne : startNodes freq ≠ []) :
    ∃ t, buildTrie pq freq = some t ∧ Huff (startNodes freq) t := by
  obtain ⟨inv, h⟩ := h
  obtain ⟨hi, hp⟩ := pushSynthetic_perm h freq
  set q := pushSynthetic pq freq ((List.range R).foldl (pushLeaf pq freq) []) with hq
  have hne1 : q ≠ [] := by
    intro h0
    rw [h0] at hp
    exact hne (List.nil_perm.1 hp)
  have hall : ∀ t ∈ q, t.isNull = false :=
    fun t ht => startNodes_not_null freq t (hp.subset ht)
  obtain ⟨t, et, it, ht⟩ := mergeLoop_spec h q.length q hi hne1 hall (by omega)
  refine ⟨t, ?_, ht.perm hp.symm⟩
  obtain ⟨x, ex, mx, _, _⟩ := h.queueTop_some [t] it (by simp)
  have hxt : x = t := by simpa using mx
  simp only [buildTrie, ← hq, et, Option.some_bind, Option.bind_some, ex, hxt]

end Huffman
namespace Huffman

/-! ## Shape of the tree built by the merging discipline -/

theorem mergeNodes_eq {left right m : Node} (h : mergeNodes left right = some m) :
    left.isNull = false ∧ right.isNull = false ∧
      m = Node.mk 0 (wrapInt (left.weight + right.weight)) left right := by
  cases left with
  | null => simp [mergeNodes] at h
  | mk c1 f1 a1 b1 =>
    cases right with
    | null => simp [mergeNodes] at h
    | mk c2 f2 a2 b2 =>
      simp only [mergeNodes, Option.some.injEq] at h
      exact ⟨rfl, rfl, h.symm⟩

theorem leaves_merge (w : Int) (left right : Node) (hl : left.isNull = false) :
    (Node.mk 0 w left right).leaves = left.leaves ++ right.leaves := by
  simp [Node.leaves, hl]

theorem isFull_merge (w : Int) (left right : Node) (hl : left.isFull = true)
    (hr : right.isFull = true) : (Node.mk 0 w left right).isFull = true := by
  simp [Node.isFull, hl, hr]

/-- The tree is full and carries exactly the leaves of the nodes it was merged from. -/
theorem Huff.shape {q : List Node} {t : Node} (h : Huff q t)
    (hq : ∀ x ∈ q, x.isFull = true) :
    t.isFull = true ∧ t.leaves.Perm (q.flatMap Node.leaves) := by
  induction h with
  | single t => exact ⟨hq t (by simp), by simp⟩
  | step q left right m rest t hp _ _ hm _ ih =>
    obtain ⟨hl, hr, rfl⟩ := mergeNodes_eq hm
    have hfl : left.isFull = true := hq left (hp.symm.subset (by simp))
    have hfr : right.isFull = true := hq right (hp.symm.subset (by simp))
    have hq1 : ∀ x ∈ Node.mk 0 (wrapInt (left.weight + right.weight)) left right :: rest,
        x.isFull = true := by
      intro x hx
      rcases List.mem_cons.1 hx with rfl | hx
      · exact isFull_merge _ _ _ hfl hfr
      · exact hq x (hp.symm.subset (by simp [hx]))
    obtain ⟨h1, h2⟩ := ih hq1
    refine ⟨h1, h2.trans ?_⟩
    have := (hp.flatMap_right Node.leaves).symm
    simp only [List.flatMap_cons, leaves_merge _ _ _ hl, List.append_assoc] at this ⊢
    exact this

/-! ## The start nodes -/

theorem isFull_leaf (c : Nat) (f : Int) : (Node.mk c f Node.null Node.null).isFull = true := rfl

theorem leaves_leaf (c : Nat) (f : Int) : (Node.mk c f Node.null Node.null).leaves = [c] := rfl

theorem initialLeaves_isFull (freq : Nat → Int) : ∀ x ∈ initialLeaves freq, x.isFull = true := by
  intro x hx
  simp only [initialLeaves, List.mem_map] at hx
  obtain ⟨i, _, rfl⟩ := hx
  rfl

theorem startNodes_isFull (freq : Nat → Int) : ∀ x ∈ startNodes freq, x.isFull = true := by
  intro x hx
  unfold startNodes at hx
  split at hx
  · rcases List.mem_cons.1 hx with rfl | hx
    · split <;> rfl
    · exact initialLeaves_isFull freq x hx
  · exact initialLeaves_isFull freq x hx

/-- The symbols with a positive count, in increasing order. -/
theorem initialLeaves_leaves (freq : Nat → Int) :
    (initialLeaves freq).flatMap Node.leaves
      = (List.range R).filter fun i => decide (freq i > 0) := by
  unfold initialLeaves
  have : ∀ l : List Nat, (∀ i ∈ l, i < 256) →
      (l.map fun i => Node.mk (i % 256) (freq i) Node.null Node.null).flatMap Node.leaves = l := by
    intro l hl
    induction l with
    | nil => rfl
    | cons i l ih =>
      simp only [List.map_cons, List.flatMap_cons, leaves_leaf, List.singleton_append]
      rw [ih (fun j hj => hl j (by simp [hj])), Nat.mod_eq_of_lt (hl i (by simp))]
  apply this
  intro i hi
  have := (List.mem_filter.1 hi).1
  simpa [R] using this

theorem initialLeaves_length (freq : Nat → Int) :
    (initialLeaves freq).length = ((List.range R).filter fun i => decide (freq i > 0)).length := by
  simp [initialLeaves]

theorem startNodes_leaves (freq : Nat → Int) :
    (startNodes freq).flatMap Node.leaves =
      if (initialLeaves freq).length = 1 then
        (if freq 0 = 0 then 0 else 1) :: (List.range R).filter fun i => decide (freq i > 0)
      else (List.range R).filter fun i => decide (freq i > 0) := by
  unfold startNodes
  split
  · split <;> simp [leaves_leaf, initialLeaves_leaves]
  · exact initialLeaves_leaves freq

theorem startNodes_leaves_length (freq : Nat → Int) :
    ((startNodes freq).flatMap Node.leaves).length = (startNodes freq).length := by
  rw [startNodes_leaves]
  unfold startNodes
  split <;> simp [initialLeaves_length]

theorem startNodes_length (freq : Nat → Int) (hpos : ∃ i, i < 256 ∧ 0 < freq i) :
    2 ≤ (startNodes freq).length := by
  obtain ⟨i, hi, hf⟩ := hpos
  have hmem : i ∈ (List.range R).filter fun i => decide (freq i > 0) := by
    simp [List.mem_filter, R, hi, hf]
  have hlen : 1 ≤ (initialLeaves freq).length := by
    rw [initialLeaves_length]
    exact List.length_pos_of_mem hmem
  unfold startNodes
  split
  · simp; omega
  · omega

/-- When the count of symbol 0 is not negative, the symbols of the start nodes are
pairwise different: the synthetic leaf never repeats the real one. -/
theorem startNodes_leaves_nodup (freq : Nat → Int) (hz : 0 ≤ freq 0) :
    ((startNodes freq).flatMap Node.leaves).Nodup := by
  have hnd : ((List.range R).filter fun i => decide (freq i > 0)).Nodup :=
    (List.nodup_range R).filter _
  rw [startNodes_leaves]
  split
  next h1 =>
    rw [initialLeaves_length] at h1
    obtain ⟨a, ha⟩ := List.length_eq_one.1 h1
    rw [ha]
    have hmem : a ∈ (List.range R).filter fun i => decide (freq i > 0) := by simp [ha]
    have hfa : 0 < freq a := by simpa using (List.mem_filter.1 hmem).2
    by_cases h0 : freq 0 = 0
    · have : a ≠ 0 := by
        rintro rfl
        omega
      simp [h0, Ne.symm this]
    · simp only [h0, if_false]
      have h0m : 0 ∈ (List.range R).filter fun i => decide (freq i > 0) := by
        have : 0 < freq 0 := by omega
        simp [List.mem_filter, R, this]
      rw [ha] at h0m
      have : a = 0 := (List.mem_singleton.1 h0m).symm
      simp [this]
  next => exact hnd

end Huffman
namespace Huffman

/-! ## The concrete queue is lawful -/

theorem nodeCompare_false_iff (x y : Node) : NodeCompare x y = false ↔ x.weight ≤ y.weight := by
  simp [NodeCompare]

theorem firstMin_spec (q : List Node) (hq : q ≠ []) :
    ∃ x, firstMin q = some x ∧ x ∈ q ∧ ∀ y ∈ q, NodeCompare x y = false := by
  induction q with
  | nil => exact absurd rfl hq
  | cons a q ih =>
    cases q with
    | nil =>
      refine ⟨a, by simp [firstMin], by simp, ?_⟩
      intro y hy
      rw [List.mem_singleton.1 hy, nodeCompare_false_iff]
    | cons b q =>
      obtain ⟨x, ex, mx, hx⟩ := ih (by simp)
      by_cases hc : NodeCompare a x = true
      · refine ⟨x, by simp [firstMin, hc] at ex ⊢; simp [ex, hc], by simp [mx], ?_⟩
        intro y hy
        rcases List.mem_cons.1 hy with rfl | hy
        · simp only [NodeCompare, decide_eq_true_eq] at hc
          rw [nodeCompare_false_iff]
          omega
        · exact hx y hy
      · have hc2 : NodeCompare a x = false := by simpa using hc
        refine ⟨a, by simp [firstMin] at ex ⊢; simp [ex, hc2], by simp, ?_⟩
        intro y hy
        rcases List.mem_cons.1 hy with rfl | hy
        · rw [nodeCompare_false_iff]
        · have := hx y hy
          rw [nodeCompare_false_iff] at this hc2 ⊢
          omega

theorem listQueue_lawful : listQueue.Lawful := by
  refine ⟨fun _ => True, ?_⟩
  refine ⟨trivial, fun _ _ _ => trivial, fun _ _ _ => trivial,
    fun q x _ => List.perm_append_singleton x q, ?_, ?_, ?_, ?_⟩
  · intro q _ hq
    obtain ⟨x, ex, _, _⟩ := firstMin_spec q hq
    exact ⟨x, ex⟩
  · intro q x _ hx
    have hq : q ≠ [] := by
      rintro rfl
      simp [listQueue, firstMin] at hx
    obtain ⟨z, ez, mz, _⟩ := firstMin_spec q hq
    have : firstMin q = some x := hx
    rw [ez] at this
    exact (Option.some.inj this) ▸ mz
  · intro q x _ hx
    have hq : q ≠ [] := by
      rintro rfl
      simp [listQueue, firstMin] at hx
    obtain ⟨z, ez, _, hz⟩ := firstMin_spec q hq
    have : firstMin q = some x := hx
    rw [ez] at this
    exact (Option.some.inj this) ▸ hz
  · intro q x _ hx
    have : firstMin q = some x := hx
    simp [listQueue, this]

/-! ## Prefix-freeness -/

namespace Node

/-- Without any assumption on repeated symbols: the table entry of a leaf symbol is the
path of one of the leaves that carry it. -/
theorem buildCode_mem (t : Node) (tbl : Nat → List Char) (s : List Char)
    (hf : t.isFull = true) :
    ∃ tbl1, buildCode tbl t s = some tbl1 ∧
      (∀ c ∈ t.leaves, ∃ p, (c, p) ∈ t.codes ∧ tbl1 c = s ++ pathChars p) ∧
      (∀ c, c ∉ t.leaves → tbl1 c = tbl c) := by
  induction t generalizing tbl s with
  | null => simp [isFull] at hf
  | mk ch f l r ihl ihr =>
    rcases isFull_cases hf with hleaf | ⟨hleaf, hl, hr⟩
    · refine ⟨Function.update tbl ch s, by simp [buildCode, Node.isLeaf, hleaf], ?_, ?_⟩
      · intro c hc
        simp only [leaves, hleaf, if_true, List.mem_singleton] at hc
        subst hc
        exact ⟨[], by simp [codes, hleaf], by simp [pathChars]⟩
      · intro c hc
        simp only [leaves, hleaf, if_true, List.mem_singleton] at hc
        simp [Function.update, hc]
    · obtain ⟨t1, e1, c1, o1⟩ := ihl tbl (s ++ ['0']) hl
      obtain ⟨t2, e2, c2, o2⟩ := ihr t1 (s ++ ['1']) hr
      refine ⟨t2, by simp [buildCode, Node.isLeaf, hleaf, e1, e2], ?_, ?_⟩
      · intro c hc
        simp only [leaves, hleaf, Bool.false_eq_true, if_false, List.mem_append] at hc
        by_cases hcr : c ∈ r.leaves
        · obtain ⟨p, hp, ep⟩ := c2 c hcr
          refine ⟨true :: p, ?_, by rw [ep]; simp [pathChars]⟩
          simp only [codes, hleaf, Bool.false_eq_true, if_false, List.mem_append, List.mem_map]
          exact Or.inr ⟨(c, p), hp, rfl⟩
        · have hcl : c ∈ l.leaves := hc.resolve_right hcr
          obtain ⟨p, hp, ep⟩ := c1 c hcl
          refine ⟨false :: p, ?_, by rw [o2 c hcr, ep]; simp [pathChars]⟩
          simp only [codes, hleaf, Bool.false_eq_true, if_false, List.mem_append, List.mem_map]
          exact Or.inl ⟨(c, p), hp, rfl⟩
      · intro c hc
        simp only [leaves, hleaf, Bool.false_eq_true, if_false, List.mem_append, not_or] at hc
        rw [o2 c hc.2, o1 c hc.1]

/-- The paths of two leaves with different symbols: neither starts with the other. -/
theorem codes_prefix_free (t : Node) (p q : Nat × List Bool) (hp : p ∈ t.codes)
    (hq : q ∈ t.codes) (hne : p.1 ≠ q.1) : ¬ p.2 <+: q.2 := by
  induction t generalizing p q with
  | null => simp [codes] at hp
  | mk ch f l r ihl ihr =>
    by_cases hleaf : (l.isNull && r.isNull) = true
    · simp only [codes, hleaf, if_true, List.mem_singleton] at hp hq
      rw [hp, hq] at hne
      exact absurd rfl hne
    · have hleaf2 : (l.isNull && r.isNull) = false := by simpa using hleaf
      simp only [codes, hleaf2, Bool.false_eq_true, if_false, List.mem_append,
        List.mem_map] at hp hq
      rcases hp with ⟨p1, hp1, rfl⟩ | ⟨p1, hp1, rfl⟩ <;>
        rcases hq with ⟨q1, hq1, rfl⟩ | ⟨q1, hq1, rfl⟩
      · intro hpre
        exact ihl p1 q1 hp1 hq1 hne ((List.cons_prefix_cons.1 hpre).2)
      · intro hpre
        have := (List.cons_prefix_cons.1 hpre).1
        simp at this
      · intro hpre
        have := (List.cons_prefix_cons.1 hpre).1
        simp at this
      · intro hpre
        exact ihr p1 q1 hp1 hq1 hne ((List.cons_prefix_cons.1 hpre).2)

theorem codes_ne_nil_of_two_leaves (t : Node) (h2 : 2 ≤ t.leaves.length)
    (p : Nat × List Bool) (hp : p ∈ t.codes) : p.2 ≠ [] := by
  cases t with
  | null => simp [codes] at hp
  | mk ch f l r =>
    by_cases hleaf : (l.isNull && r.isNull) = true
    · simp [leaves, hleaf] at h2
    · have hleaf2 : (l.isNull && r.isNull) = false := by simpa using hleaf
      simp only [codes, hleaf2, Bool.false_eq_true, if_false, List.mem_append,
        List.mem_map] at hp
      rcases hp with ⟨p1, _, rfl⟩ | ⟨p1, _, rfl⟩ <;> simp

end Node

theorem codeBits_prefix {a b : List Char} (h : a <+: b) : codeBits a <+: codeBits b := by
  obtain ⟨c, rfl⟩ := h
  exact ⟨codeBits c, by rw [codeBits_append]⟩

/-- On a lawful queue and a table with a positive count, `buildTrie` returns a full
tree with at least two leaves, merged from the start nodes. -/
theorem buildTrie_shape {pq : PriorityQueue} (h : pq.Lawful) (freq : Nat → Int)
    (hpos : ∃ i, i < 256 ∧ 0 < freq i) :
    ∃ t, buildTrie pq freq = some t ∧ Huff (startNodes freq) t ∧ t.isFull = true ∧
      t.leaves.Perm ((startNodes freq).flatMap Node.leaves) ∧ 2 ≤ t.leaves.length := by
  have hlen := startNodes_length freq hpos
  have hne : startNodes freq ≠ [] := by
    intro h0; rw [h0] at hlen; simp at hlen
  obtain ⟨t, et, ht⟩ := buildTrie_spec h freq hne
  obtain ⟨hfull, hperm⟩ := ht.shape (startNodes_isFull freq)
  refine ⟨t, et, ht, hfull, hperm, ?_⟩
  rw [hperm.length_eq, startNodes_leaves_length]
  exact hlen

end Huffman
namespace Huffman

/-! ## The two pipelines -/

theorem wrapInt_of_range {x : Int} (h0 : -2 ^ 31 ≤ x) (h1 : x < 2 ^ 31) : wrapInt x = x := by
  unfold wrapInt
  norm_num at h0 h1 ⊢
  omega

theorem wrapInt_succ (k : Int) : wrapInt (wrapInt k + 1) = wrapInt (k + 1) := by
  unfold wrapInt
  norm_num
  omega

theorem countFreq_append (l : List Nat) (b : Nat) :
    countFreq (l ++ [b]) = countStep (countFreq l) b := by
  simp [countFreq, List.foldl_append]

/-- Below `2 ^ 31` bytes the counters are exact. -/
theorem countFreq_spec (input : List Nat) (h : input.length < 2 ^ 31) :
    (∀ c, (countFreq input).1 c = (input.count c : Int)) ∧
      (countFreq input).2 = input.length := by
  induction input using List.reverseRecOn with
  | nil => exact ⟨fun c => by simp [countFreq], by simp [countFreq]⟩
  | append_singleton l b ih =>
    simp only [List.length_append, List.length_singleton] at h
    obtain ⟨h1, h2⟩ := ih (by omega)
    rw [countFreq_append]
    refine ⟨fun c => ?_, ?_⟩
    · simp only [countStep, Function.update_apply]
      have hcnt : ∀ c, l.count c ≤ l.length := fun c => List.count_le_length c l
      by_cases hc : c = b
      · subst hc
        simp only [if_true, h1, List.count_append, List.count_singleton_self]
        have hc1 := hcnt c
        rw [wrapInt_of_range (by norm_num; omega) (by norm_num at h ⊢; omega)]
        push_cast; ring
      · have hbc : ¬ (b == c) = true := by simpa using fun e => hc e.symm
        simp [hc, h1, List.count_append, List.count_singleton, hbc]
    · simp only [countStep, h2, List.length_append, List.length_singleton]
      apply Nat.mod_eq_of_lt
      omega

/-- A table without a positive count leaves the queue empty, and `buildTrie` asks the
empty queue for its top. -/
theorem buildTrie_none_of_nonpos (pq : PriorityQueue) (freq : Nat → Int)
    (h : ∀ i, freq i ≤ 0) : buildTrie pq freq = none := by
  have hq : ∀ l : List Nat, l.foldl (pushLeaf pq freq) [] = [] := by
    intro l
    induction l with
    | nil => rfl
    | cons i l ih =>
      have : ¬ (freq i > 0) := by have := h i; omega
      simpa [pushLeaf, this] using ih
  simp [buildTrie, hq, pushSynthetic, mergeLoop, queueTop]

theorem startNodes_leaves_lt (freq : Nat → Int) :
    ∀ c ∈ (startNodes freq).flatMap Node.leaves, c < 256 := by
  intro c hc
  have hr : ∀ c ∈ (List.range R).filter (fun i => decide (freq i > 0)), c < 256 := by
    intro c hc
    simpa [R] using (List.mem_filter.1 hc).1
  rw [startNodes_leaves] at hc
  split at hc
  · rcases List.mem_cons.1 hc with rfl | hc
    · split <;> omega
    · exact hr c hc
  · exact hr c hc

theorem mem_startNodes_leaves (freq : Nat → Int) (c : Nat) (hc : c < 256) (hf : 0 < freq c) :
    c ∈ (startNodes freq).flatMap Node.leaves := by
  have : c ∈ (List.range R).filter (fun i => decide (freq i > 0)) := by
    simp [List.mem_filter, R, hc, hf]
  rw [startNodes_leaves]
  split
  · exact List.mem_cons_of_mem _ this
  · exact this

namespace Node

theorem isFull_skeleton (t : Node) : t.skeleton.isFull = t.isFull := by
  induction t with
  | null => rfl
  | mk ch f l r ihl ihr =>
    by_cases hleaf : (l.isNull && r.isNull) = true
    · simp only [skeleton, hleaf, if_true, isFull, Bool.true_or]
      rfl
    · have hleaf2 : (l.isNull && r.isNull) = false := by simpa using hleaf
      simp only [skeleton, hleaf2, Bool.false_eq_true, if_false, isFull, isNull_skeleton, ihl,
        ihr]

theorem codes_skeleton (t : Node) : t.skeleton.codes = t.codes := by
  induction t with
  | null => rfl
  | mk ch f l r ihl ihr =>
    by_cases hleaf : (l.isNull && r.isNull) = true
    · simp only [skeleton, hleaf, if_true, codes]
      rfl
    · have hleaf2 : (l.isNull && r.isNull) = false := by simpa using hleaf
      simp only [skeleton, hleaf2, Bool.false_eq_true, if_false, codes, isNull_skeleton, ihl,
        ihr]

theorem leaves_skeleton (t : Node) : t.skeleton.leaves = t.leaves := by
  rw [← codes_fst, ← codes_fst, codes_skeleton]

theorem length_serialize_pos (t : Node) (h : t.isNull = false) : 0 < t.serialize.length := by
  cases t with
  | null => simp [isNull] at h
  | mk ch f l r =>
    simp only [serialize]
    split <;> simp

end Node

/-- What `compress` writes, for a non-empty input of fewer than `2 ^ 31` bytes. -/
theorem compress_spec {pq : PriorityQueue} (h : pq.Lawful) (input : List Nat)
    (hne : input ≠ []) (hlen : input.length < 2 ^ 31) (hbytes : ∀ b ∈ input, b < 256) :
    ∃ root huffman archive k,
      buildTrie pq (countFreq input).1 = some root ∧
      Huff (startNodes (countFreq input).1) root ∧
      root.isFull = true ∧
      root.leaves.Perm ((startNodes (countFreq input).1).flatMap Node.leaves) ∧
      buildCode (fun _ => []) root [] = some huffman ∧
      compress pq input = some archive ∧ k < 8 ∧ (∀ b ∈ archive, b < 256) ∧
      bytesToBits archive = root.serialize ++ bitsOfNat 32 input.length
        ++ input.flatMap (fun b => codeBits (huffman b)) ++ List.replicate k false := by
  obtain ⟨hcount, hlength⟩ := countFreq_spec input hlen
  have hpos : ∃ i, i < 256 ∧ 0 < (countFreq input).1 i := by
    cases input with
    | nil => exact absurd rfl hne
    | cons b l =>
      refine ⟨b, hbytes b (by simp), ?_⟩
      rw [hcount]
      simp
  obtain ⟨root, eroot, hhuff, hfull, hperm, _⟩ := buildTrie_shape h _ hpos
  have hsym : ∀ c ∈ root.leaves, c < 256 :=
    fun c hc => startNodes_leaves_lt _ c (hperm.subset hc)
  obtain ⟨huffman, ecode, _, _⟩ := Node.buildCode_mem root (fun _ => []) [] hfull
  obtain ⟨w1, ew1, i1, b1⟩ := Node.writeTire_spec root BitWriter.new hfull hsym
    BitWriter.inv_new
  obtain ⟨i2, b2⟩ := BitWriter.writeUnsigned_spec w1 input.length i1
  obtain ⟨i3, b3⟩ := encodeLoop_spec huffman input (w1.writeUnsigned input.length) i2
  obtain ⟨hcl, bcl⟩ := BitWriter.close_spec _ i3
  refine ⟨root, huffman, _,
    (8 - (encodeLoop huffman input (w1.writeUnsigned input.length)).n) % 8,
    eroot, hhuff, hfull, hperm, ecode, ?_, ?_, hcl, ?_⟩
  · simp only [compress, eroot, ecode, ew1, hlength, Option.some_bind, Option.bind_some,
      List.take_length]
  · exact Nat.mod_lt _ (by norm_num)
  · rw [bcl, b3, b2, b1, BitWriter.bits_new]
    simp

theorem length_bytesToBits (bytes : List Nat) :
    (bytesToBits bytes).length = 8 * bytes.length := by
  induction bytes with
  | nil => rfl
  | cons b l ih =>
    simp only [bytesToBits, List.flatMap_cons, List.length_append, length_bitsOfNat,
      List.length_cons] at ih ⊢
    rw [ih]; ring

/-- With the two reads of `readTire` made left to right, `deCompress` recovers every
non-empty input of fewer than `2 ^ 31` bytes from the archive `compress` wrote. -/
theorem deCompress_compress_leftToRight {pq : PriorityQueue} (h : pq.Lawful)
    (input : List Nat) (hne : input ≠ []) (hlen : input.length < 2 ^ 31)
    (hbytes : ∀ b ∈ input, b < 256) :
    ∃ archive, compress pq input = some archive ∧
      deCompress ArgOrder.leftToRight archive = some input := by
  obtain ⟨root, huffman, archive, k, _, _, hfull, hperm, ecode, earch, _, hlt, hbits⟩ :=
    compress_spec h input hne hlen hbytes
  obtain ⟨hcount, _⟩ := countFreq_spec input hlen
  refine ⟨archive, earch, ?_⟩
  have hnd : root.leaves.Nodup := by
    rw [hperm.nodup_iff]
    apply startNodes_leaves_nodup
    rw [hcount]
    positivity
  obtain ⟨tbl1, e1, htbl, _⟩ := Node.buildCode_spec root (fun _ => []) [] hfull hnd
  rw [ecode] at e1
  obtain rfl : huffman = tbl1 := Option.some.inj e1
  have hsym : ∀ c ∈ root.leaves, c < 256 :=
    fun c hc => startNodes_leaves_lt _ c (hperm.subset hc)
  have hmem : ∀ c ∈ input, c ∈ root.leaves := by
    intro c hc
    apply hperm.symm.subset
    apply mem_startNodes_leaves _ c (hbytes c hc)
    rw [hcount]
    exact_mod_cast List.count_pos_iff.2 hc
  have hrep := BitReader.rep_new archive hlt
  rw [hbits] at hrep
  simp only [List.append_assoc] at hrep
  have hfuel : root.serialize.length ≤ 8 * archive.length + 16 := by
    have := congrArg List.length hbits
    rw [length_bytesToBits] at this
    simp only [List.length_append] at this
    omega
  obtain ⟨r1, er1, hr1⟩ := Node.readTire_spec root _ _ _ hfull hsym hfuel hrep
  obtain ⟨r2, er2, hr2⟩ := BitReader.readUnsigned_spec r1 input.length _
    (lt_trans hlen (by norm_num)) hr1
  have hdec := Node.decodeLoop_spec root.skeleton (by rw [Node.isFull_skeleton]; exact hfull)
    huffman (by rw [Node.codes_skeleton]; simpa using htbl) input
    (by rw [Node.leaves_skeleton]; exact hmem) r2 [] _ hr2
  simp only [deCompress, er1, er2, Option.some_bind, Option.bind_some, hdec, List.nil_append]

end Huffman
namespace Huffman

/-! ## Sequences of writes read back -/

theorem foldl_run_spec (ops : List WriteOp) (w : BitWriter) (hw : w.Inv)
    (hb : ∀ x, WriteOp.byte x ∈ ops → x < 256) :
    (ops.foldl WriteOp.run w).Inv ∧
      (ops.foldl WriteOp.run w).bits = w.bits ++ ops.flatMap WriteOp.toBits := by
  induction ops generalizing w with
  | nil => simp [hw]
  | cons op ops ih =>
    have hstep : (WriteOp.run w op).Inv ∧ (WriteOp.run w op).bits = w.bits ++ op.toBits := by
      cases op with
      | bit b => exact BitWriter.writeBit_spec w b hw
      | byte x => exact BitWriter.writeByte_spec w x hw (hb x (by simp))
    obtain ⟨i1, b1⟩ := hstep
    obtain ⟨i2, b2⟩ := ih (WriteOp.run w op) i1 (fun x hx => hb x (by simp [hx]))
    exact ⟨i2, by simp only [List.foldl_cons, List.flatMap_cons, b2, b1, List.append_assoc]⟩

theorem readBack_spec (ops : List WriteOp) (r : BitReader) (bs : List Bool)
    (hb : ∀ x, WriteOp.byte x ∈ ops → x < 256)
    (hr : r.Rep (ops.flatMap WriteOp.toBits ++ bs)) : readBack ops r = some ops := by
  induction ops generalizing r with
  | nil => rfl
  | cons op ops ih =>
    simp only [List.flatMap_cons, List.append_assoc] at hr
    cases op with
    | bit b =>
      obtain ⟨r1, e1, h1⟩ := BitReader.readBit_spec r b _ hr
      have := ih r1 (fun x hx => hb x (by simp [hx])) h1
      simp [readBack, e1, this]
    | byte x =>
      obtain ⟨r1, e1, h1⟩ := BitReader.readChar_spec r x _ (hb x (by simp)) hr
      have := ih r1 (fun x hx => hb x (by simp [hx])) h1
      simp [readBack, e1, this]

/-! ## Aligned writes -/

theorem BitWriter.length_bits (w : BitWriter) : w.bits.length = 8 * w.os.length + w.n := by
  simp [BitWriter.bits, length_bytesToBits, length_bitsOfNat]

theorem BitWriter.writeByte_aligned (w : BitWriter) (x : Nat) (h : w.n = 0) :
    w.writeByte x = { buffer := w.buffer, n := 0, os := w.os ++ [x] } := by
  simp [BitWriter.writeByte, h]

theorem BitWriter.writeUnsigned_aligned (w : BitWriter) (x : Nat) (h : w.n = 0) :
    (w.writeUnsigned x).close
      = w.os ++ [x / 2 ^ 24 % 256, x / 2 ^ 16 % 256, x / 2 ^ 8 % 256, x % 256] := by
  simp [BitWriter.writeUnsigned, BitWriter.writeByte_aligned, h, BitWriter.close,
    BitWriter.clearBuffer, BitWriter.and_255, Nat.shiftRight_eq_div_pow]

/-! ## Single-symbol inputs -/

theorem countFreq_replicate (n b : Nat) :
    (∀ c, (countFreq (List.replicate n b)).1 c = if c = b then wrapInt n else 0) ∧
      (countFreq (List.replicate n b)).2 = n % 2 ^ 32 := by
  induction n with
  | zero =>
    refine ⟨fun c => ?_, ?_⟩
    · simp [countFreq, wrapInt]
    · simp [countFreq]
  | succ n ih =>
    obtain ⟨h1, h2⟩ := ih
    rw [List.replicate_succ', countFreq_append]
    refine ⟨fun c => ?_, ?_⟩
    · simp only [countStep, Function.update_apply, h1, if_true]
      by_cases hc : c = b
      · simp only [hc, if_true]
        rw [wrapInt_succ]
        push_cast; rfl
      · simp [hc]
    · simp only [countStep, h2]
      omega

theorem compress_none_of_buildTrie (pq : PriorityQueue) (input : List Nat)
    (h : buildTrie pq (countFreq input).1 = none) : compress pq input = none := by
  simp [compress, h]

/-- Once the counter of the only symbol has wrapped to a value that is not positive,
no leaf is pushed. -/
theorem replicate_overflow (pq : PriorityQueue) (n b : Nat) (h : wrapInt n ≤ 0) :
    buildTrie pq (countFreq (List.replicate n b)).1 = none ∧
      compress pq (List.replicate n b) = none := by
  have h1 : buildTrie pq (countFreq (List.replicate n b)).1 = none := by
    apply buildTrie_none_of_nonpos
    intro i
    rw [(countFreq_replicate n b).1 i]
    split
    · exact h
    · exact le_refl 0
  exact ⟨h1, compress_none_of_buildTrie pq _ h1⟩

theorem Huff.of_singleton {m t : Node} (h : Huff [m] t) : t = m := by
  cases h with
  | single => rfl
  | step _ left right m1 rest _ hp _ _ _ _ =>
    have := hp.length_eq
    simp at this

theorem Huff.of_pair {a b t : Node} (h : Huff [a, b] t) (hw : a.weight < b.weight) :
    mergeNodes a b = some t := by
  cases h with
  | step _ left right m rest _ hp h1 h2 hm hrest =>
    have hlen := hp.length_eq
    have hnil : rest = [] := by
      cases rest with
      | nil => rfl
      | cons x xs => simp at hlen
    subst hnil
    have hl : left = a ∧ right = b := by
      have hmem : left ∈ [a, b] := hp.symm.subset (by simp)
      have hmem2 : right ∈ [a, b] := hp.symm.subset (by simp)
      have hc := h1 right (by simp)
      rw [nodeCompare_false_iff] at hc
      simp only [List.mem_cons, List.mem_singleton, List.not_mem_nil, or_false] at hmem hmem2
      have hcount := hp.count_eq a
      have hcountb := hp.count_eq b
      have hab : a ≠ b := fun e => by rw [e] at hw; omega
      rcases hmem with e1 | e1 <;> rcases hmem2 with e2 | e2
      · rw [e1, e2] at hcountb
        simp [List.count_cons, hab, hab.symm] at hcountb
      · exact ⟨e1, e2⟩
      · rw [e1, e2] at hc
        omega
      · rw [e1, e2] at hcount
        simp [List.count_cons, hab, hab.symm] at hcount
    obtain ⟨rfl, rfl⟩ := hl
    rw [hm, hrest.of_singleton]

/-! ## Trie codec, read left to right -/

/-- With the two reads of `readTire` made left to right, a full trie written by
`writeTire`, followed by any further bits and closed, is read back as its skeleton
(same shape, same leaf symbols), and the reader is left in front of the further bits and
the padding. -/
theorem readTire_writeTire_leftToRight (t : Node) (hf : t.isFull = true)
    (hs : ∀ c ∈ t.leaves, c < 256) (extra : List Bool) (fuel : Nat)
    (hfuel : t.serialize.length ≤ fuel) :
    ∃ w r k, writeTire t BitWriter.new = some w ∧
      readTire ArgOrder.leftToRight fuel
        (BitReader.new (extra.foldl BitWriter.writeBit w).close) = some (t.skeleton, r) ∧
      t.leafIso t.skeleton = true ∧ k < 8 ∧ r.Rep (extra ++ List.replicate k false) := by
  obtain ⟨w, ew, i1, b1⟩ := Node.writeTire_spec t BitWriter.new hf hs BitWriter.inv_new
  obtain ⟨i2, b2⟩ := BitWriter.foldl_writeBit_spec extra w i1
  obtain ⟨hlt, hclose⟩ := BitWriter.close_spec _ i2
  have hrep := BitReader.rep_new _ hlt
  rw [hclose, b2, b1, BitWriter.bits_new, List.nil_append, List.append_assoc] at hrep
  obtain ⟨r, er, hr⟩ := Node.readTire_spec t fuel _ _ hf hs hfuel hrep
  exact ⟨w, r, _, ew, er, Node.leafIso_skeleton t, Nat.mod_lt _ (by norm_num), hr⟩

end Huffman
namespace Huffman

/-! ## Optimality: trees as multisets of weighted depths -/

/-- A shape with more than one leaf has two leaves of greatest depth that can be merged
into one leaf a level higher. -/
theorem IsShape.deepest {d : Multiset Nat} (h : IsShape d) :
    d = {0} ∨ ∃ k d0, d = (k + 1) ::ₘ (k + 1) ::ₘ d0 ∧ IsShape (k ::ₘ d0) ∧
      ∀ x ∈ d, x ≤ k + 1 := by
  induction h with
  | leaf => exact Or.inl rfl
  | node d1 d2 h1 h2 ih1 ih2 =>
    right
    have key : ∀ (e1 e2 : Multiset Nat) (k : Nat) (e0 : Multiset Nat),
        IsShape e2 → e1 = (k + 1) ::ₘ (k + 1) ::ₘ e0 → IsShape (k ::ₘ e0) →
        (∀ x ∈ e1, x ≤ k + 1) → (∀ x ∈ e2, x ≤ k + 1) →
        ∃ k' d0, e1.map Nat.succ + e2.map Nat.succ = (k' + 1) ::ₘ (k' + 1) ::ₘ d0 ∧
          IsShape (k' ::ₘ d0) ∧ ∀ x ∈ e1.map Nat.succ + e2.map Nat.succ, x ≤ k' + 1 := by
      intro e1 e2 k e0 hs2 he1 hs1 hb1 hb2
      refine ⟨k + 1, e0.map Nat.succ + e2.map Nat.succ, ?_, ?_, ?_⟩
      · rw [he1]; simp [Multiset.cons_add]
      · have := IsShape.node (k ::ₘ e0) e2 hs1 hs2
        simpa [Multiset.cons_add] using this
      · intro x hx
        rcases Multiset.mem_add.1 hx with hx | hx
        · obtain ⟨y, hy, rfl⟩ := Multiset.mem_map.1 hx
          have := hb1 y hy
          omega
        · obtain ⟨y, hy, rfl⟩ := Multiset.mem_map.1 hx
          have := hb2 y hy
          omega
    rcases ih1 with rfl | ⟨k1, e01, he1, hs1, hb1⟩
    · rcases ih2 with rfl | ⟨k2, e02, he2, hs2, hb2⟩
      · refine ⟨0, 0, ?_, ?_, ?_⟩
        · simp
        · simpa using IsShape.leaf
        · intro x hx
          simp at hx
          omega
      · have := key d2 {0} k2 e02 IsShape.leaf he2 hs2 hb2 (by simp)
        rwa [add_comm] at this
    · rcases ih2 with rfl | ⟨k2, e02, he2, hs2, hb2⟩
      · exact key d1 {0} k1 e01 IsShape.leaf he1 hs1 hb1 (by simp)
      · by_cases hk : k2 ≤ k1
        · exact key d1 d2 k1 e01 h2 he1 hs1 hb1
            (fun x hx => le_trans (hb2 x hx) (by omega))
        · have := key d2 d1 k2 e02 h1 he2 hs2 hb2
            (fun x hx => le_trans (hb1 x hx) (by omega))
          rwa [add_comm] at this

theorem wcost_cons (p : Int × Nat) (t : Multiset (Int × Nat)) :
    wcost (p ::ₘ t) = p.1 * (p.2 : Int) + wcost t := by
  simp [wcost]

/-- Exchange: the weight `x` standing outside `m` is traded for the smaller weight `a`;
when `a` sits inside `m`, at a depth of at most `bound`, `x` takes its place. -/
theorem exchange (m : Multiset (Int × Nat)) (bound : Nat) (x a : Int) (r : Multiset Int)
    (hbound : ∀ p ∈ m, p.2 ≤ bound) (hax : a ≤ x)
    (hw : a ::ₘ r = x ::ₘ m.map Prod.fst) :
    ∃ m1 : Multiset (Int × Nat), m1.map Prod.snd = m.map Prod.snd ∧ m1.map Prod.fst = r ∧
      wcost m1 ≤ wcost m + (x - a) * (bound : Int) := by
  have hmem : a ∈ x ::ₘ m.map Prod.fst := by rw [← hw]; exact Multiset.mem_cons_self a r
  by_cases hxa : a = x
  · subst hxa
    refine ⟨m, rfl, ((Multiset.cons_inj_right a).1 hw).symm, by simp⟩
  · have hmem2 : a ∈ m.map Prod.fst := (Multiset.mem_cons.1 hmem).resolve_left hxa
    obtain ⟨p, hp, hpa⟩ := Multiset.mem_map.1 hmem2
    obtain ⟨m0, rfl⟩ := Multiset.exists_cons_of_mem hp
    refine ⟨(x, p.2) ::ₘ m0, by simp, ?_, ?_⟩
    · rw [Multiset.map_cons, hpa, Multiset.cons_swap] at hw
      rw [Multiset.map_cons]
      exact ((Multiset.cons_inj_right a).1 hw).symm
    · rw [wcost_cons, wcost_cons, hpa]
      have hd : (p.2 : Int) ≤ (bound : Int) := by exact_mod_cast hbound p (Multiset.mem_cons_self p m0)
      have hnn : 0 ≤ x - a := by omega
      nlinarith [mul_le_mul_of_nonneg_left hd hnn]

/-- Merging the two least weights: from any assignment of the weights `a`, `b` and `r`
to the leaves of a shape, where `a` is a least weight and `b` a least one among the
others, there is an assignment of `a + b` and `r` to the leaves of a shape that costs
at least `a + b` less. -/
theorem merge_least (t : Multiset (Int × Nat)) (a b : Int) (r : Multiset Int)
    (hs : IsShape (t.map Prod.snd)) (hw : t.map Prod.fst = a ::ₘ b ::ₘ r)
    (ha : ∀ x ∈ b ::ₘ r, a ≤ x) (hb : ∀ x ∈ r, b ≤ x) :
    ∃ t1 : Multiset (Int × Nat), IsShape (t1.map Prod.snd) ∧
      t1.map Prod.fst = (a + b) ::ₘ r ∧ wcost t1 + a + b ≤ wcost t := by
  rcases hs.deepest with h0 | ⟨k, d0, hd, hshape, hbound⟩
  · have := congrArg Multiset.card h0
    rw [Multiset.card_map, ← Multiset.card_map Prod.fst, hw] at this
    simp at this
  -- the two deepest leaves of `t`
  have h1 : k + 1 ∈ t.map Prod.snd := by rw [hd]; exact Multiset.mem_cons_self _ _
  obtain ⟨p, hp, hp2⟩ := Multiset.mem_map.1 h1
  obtain ⟨t0, rfl⟩ := Multiset.exists_cons_of_mem hp
  rw [Multiset.map_cons, hp2, Multiset.cons_inj_right] at hd
  have h2 : k + 1 ∈ t0.map Prod.snd := by rw [hd]; exact Multiset.mem_cons_self _ _
  obtain ⟨q, hq, hq2⟩ := Multiset.mem_map.1 h2
  obtain ⟨m, rfl⟩ := Multiset.exists_cons_of_mem hq
  rw [Multiset.map_cons, hq2, Multiset.cons_inj_right] at hd
  have hbm : ∀ z ∈ q ::ₘ m, z.2 ≤ k + 1 := by
    intro z hz
    apply hbound
    exact Multiset.mem_map_of_mem _ (Multiset.mem_cons_of_mem hz)
  -- all weights are at least `a`
  have hall : ∀ x ∈ (p ::ₘ q ::ₘ m).map Prod.fst, a ≤ x := by
    intro x hx
    rw [hw] at hx
    rcases Multiset.mem_cons.1 hx with rfl | hx
    · exact le_refl _
    · exact ha x hx
  -- trade the weight of `p` for `a`
  obtain ⟨m1, hm1d, hm1w, hm1c⟩ := exchange (q ::ₘ m) (k + 1) p.1 a (b ::ₘ r) hbm
    (hall p.1 (by simp)) (by rw [← hw]; simp)
  have h3 : k + 1 ∈ m1.map Prod.snd := by rw [hm1d, Multiset.map_cons, hq2]; exact Multiset.mem_cons_self _ _
  obtain ⟨q1, hq1, hq12⟩ := Multiset.mem_map.1 h3
  obtain ⟨m2, rfl⟩ := Multiset.exists_cons_of_mem hq1
  rw [Multiset.map_cons, Multiset.map_cons, hq12, hq2, Multiset.cons_inj_right] at hm1d
  have hbm2 : ∀ z ∈ m2, z.2 ≤ k + 1 := by
    intro z hz
    have : z.2 ∈ m.map Prod.snd := by rw [← hm1d]; exact Multiset.mem_map_of_mem _ hz
    obtain ⟨z1, hz1, hz12⟩ := Multiset.mem_map.1 this
    rw [← hz12]
    exact hbm z1 (Multiset.mem_cons_of_mem hz1)
  have hbq1 : b ≤ q1.1 := by
    have : q1.1 ∈ b ::ₘ r := by rw [← hm1w]; simp
    rcases Multiset.mem_cons.1 this with e | hx
    · rw [e]
    · exact hb _ hx
  -- trade the weight of the second deepest leaf for `b`
  obtain ⟨m3, hm3d, hm3w, hm3c⟩ := exchange m2 (k + 1) q1.1 b r hbm2 hbq1
    (by rw [← hm1w]; simp)
  refine ⟨(a + b, k) ::ₘ m3, ?_, ?_, ?_⟩
  · rw [Multiset.map_cons, hm3d, hm1d, hd]
    exact hshape
  · rw [Multiset.map_cons, hm3w]
  · simp only [wcost_cons, hp2, hq2, hq12] at hm1c ⊢
    push_cast at hm1c hm3c ⊢
    nlinarith

end Huffman
namespace Huffman

/-! ## Optimality of the merging discipline -/

namespace Node

theorem wpl_leaf (freq : Nat → Int) (c : Nat) (f : Int) :
    (mk c f null null).wpl freq = 0 := by
  simp [wpl, codes, isNull]

theorem leafSum_eq_codes (freq : Nat → Int) (t : Node) :
    t.leafSum freq = (t.codes.map fun p => freq p.1).sum := by
  rw [leafSum, ← codes_fst, List.map_map]
  rfl

theorem sum_map_deeper (freq : Nat → Int) (b : Bool) (l : List (Nat × List Bool)) :
    ((l.map fun p => (p.1, b :: p.2)).map fun p => freq p.1 * (p.2.length : Int)).sum
      = (l.map fun p => freq p.1 * (p.2.length : Int)).sum + (l.map fun p => freq p.1).sum := by
  induction l with
  | nil => simp
  | cons p l ih =>
    simp only [List.map_cons, List.sum_cons, List.length_cons] at ih ⊢
    rw [ih]
    push_cast
    ring

theorem wpl_node (freq : Nat → Int) (c : Nat) (f : Int) (l r : Node)
    (h : (l.isNull && r.isNull) = false) :
    (mk c f l r).wpl freq = l.wpl freq + r.wpl freq + l.leafSum freq + r.leafSum freq := by
  simp only [wpl, codes, h, Bool.false_eq_true, if_false, List.map_append, List.sum_append,
    sum_map_deeper, leafSum_eq_codes]
  ring

theorem leafSum_node (freq : Nat → Int) (c : Nat) (f : Int) (l r : Node)
    (h : (l.isNull && r.isNull) = false) :
    (mk c f l r).leafSum freq = l.leafSum freq + r.leafSum freq := by
  simp [leafSum, leaves, h]

theorem weighted_fst (freq : Nat → Int) (t : Node) :
    (t.weighted freq).map Prod.fst = ((t.leaves.map freq : List Int) : Multiset Int) := by
  rw [weighted, Multiset.map_coe, List.map_map, ← codes_fst, List.map_map]
  rfl

theorem wcost_weighted (freq : Nat → Int) (t : Node) : wcost (t.weighted freq) = t.wpl freq := by
  rw [weighted, wcost, Multiset.map_coe, Multiset.sum_coe, List.map_map, wpl]
  rfl

theorem weighted_snd (freq : Nat → Int) (t : Node) :
    (t.weighted freq).map Prod.snd
      = ((t.codes.map fun p => p.2.length : List Nat) : Multiset Nat) := by
  rw [weighted, Multiset.map_coe, List.map_map]
  rfl

theorem isShape_of_isFull (t : Node) (hf : t.isFull = true) :
    IsShape ((t.codes.map fun p => p.2.length : List Nat) : Multiset Nat) := by
  induction t with
  | null => simp [isFull] at hf
  | mk ch f l r ihl ihr =>
    rcases isFull_cases hf with hleaf | ⟨hleaf, hl, hr⟩
    · simp only [codes, hleaf, if_true, List.map_cons, List.map_nil, List.length_nil]
      exact IsShape.leaf
    · have := IsShape.node _ _ (ihl hl) (ihr hr)
      simp only [codes, hleaf, Bool.false_eq_true, if_false, List.map_append, List.map_map]
      simp only [Multiset.map_coe, Multiset.coe_add, List.map_map] at this
      exact this

end Node

theorem weight_mk (c : Nat) (f : Int) (l r : Node) : (Node.mk c f l r).weight = f := rfl

theorem wcost_nonneg (t : Multiset (Int × Nat)) (h : ∀ x ∈ t.map Prod.fst, (0 : Int) ≤ x) :
    0 ≤ wcost t := by
  unfold wcost
  apply Multiset.sum_nonneg
  intro y hy
  obtain ⟨p, hp, rfl⟩ := Multiset.mem_map.1 hy
  exact mul_nonneg (h p.1 (Multiset.mem_map_of_mem _ hp)) (by positivity)

/-- The tree merged from `q` costs no more than the trees of `q` hung, as they are, at
the leaves of any shape: its weighted path length is at most the sum of theirs plus the
cost of any assignment of their weights to the leaves of a shape. -/
theorem Huff.optimal {freq : Nat → Int} {q : List Node} {t : Node} (h : Huff q t)
    (hq : ∀ x ∈ q, x.isFull = true ∧ 0 ≤ x.weight ∧ x.weight = x.leafSum freq)
    (hsum : (q.map Node.weight).sum < 2 ^ 31) :
    ∀ s : Multiset (Int × Nat), IsShape (s.map Prod.snd) →
      s.map Prod.fst = ((q.map Node.weight : List Int) : Multiset Int) →
      t.wpl freq ≤ (q.map (Node.wpl freq)).sum + wcost s := by
  induction h with
  | single t =>
    intro s _ hw
    have hnn : 0 ≤ wcost s := by
      apply wcost_nonneg
      intro x hx
      rw [hw] at hx
      simp only [List.map_cons, List.map_nil, Multiset.coe_singleton,
        Multiset.mem_singleton] at hx
      rw [hx]
      exact (hq t (by simp)).2.1
    simp only [List.map_cons, List.map_nil, List.sum_cons, List.sum_nil, add_zero]
    omega
  | step q left right m rest t hp h1 h2 hm _ ih =>
    intro s hs hw
    obtain ⟨hln, hrn, rfl⟩ := mergeNodes_eq hm
    obtain ⟨hlf, hl0, hlw⟩ := hq left (hp.symm.subset (by simp))
    obtain ⟨hrf, hr0, hrw⟩ := hq right (hp.symm.subset (by simp))
    have hleaf : (left.isNull && right.isNull) = false := by simp [hln]
    have hsumq : (q.map Node.weight).sum
        = left.weight + (right.weight + (rest.map Node.weight).sum) := by
      rw [(hp.map Node.weight).sum_eq]
      simp
    have hrest0 : 0 ≤ (rest.map Node.weight).sum := by
      apply List.sum_nonneg
      intro x hx
      obtain ⟨y, hy, rfl⟩ := List.mem_map.1 hx
      exact (hq y (hp.symm.subset (by simp [hy]))).2.1
    have hwrap : wrapInt (left.weight + right.weight) = left.weight + right.weight :=
      wrapInt_of_range (by norm_num; omega) (by norm_num at hsum ⊢; omega)
    rw [hwrap] at ih
    have hq1 : ∀ x ∈ Node.mk 0 (left.weight + right.weight) left right :: rest,
        x.isFull = true ∧ 0 ≤ x.weight ∧ x.weight = x.leafSum freq := by
      intro x hx
      rcases List.mem_cons.1 hx with rfl | hx
      · refine ⟨isFull_merge _ _ _ hlf hrf, by rw [weight_mk]; omega, ?_⟩
        rw [Node.leafSum_node freq _ _ _ _ hleaf, ← hlw, ← hrw]
        rfl
      · exact hq x (hp.symm.subset (by simp [hx]))
    have hsum1 : ((Node.mk 0 (left.weight + right.weight) left right :: rest).map
        Node.weight).sum < 2 ^ 31 := by
      simp only [List.map_cons, List.sum_cons, weight_mk]
      omega
    have hw2 : s.map Prod.fst
        = left.weight ::ₘ right.weight ::ₘ ((rest.map Node.weight : List Int) : Multiset Int) := by
      rw [hw]
      have := hp.map Node.weight
      rw [← Multiset.coe_eq_coe] at this
      rw [this]
      rfl
    have ha : ∀ x ∈ right.weight ::ₘ ((rest.map Node.weight : List Int) : Multiset Int),
        left.weight ≤ x := by
      intro x hx
      have hx1 : x ∈ (right :: rest).map Node.weight := by simpa using hx
      obtain ⟨y, hy, rfl⟩ := List.mem_map.1 hx1
      exact (nodeCompare_false_iff _ _).1 (h1 y hy)
    have hb : ∀ x ∈ ((rest.map Node.weight : List Int) : Multiset Int), right.weight ≤ x := by
      intro x hx
      have hx1 : x ∈ rest.map Node.weight := by simpa using hx
      obtain ⟨y, hy, rfl⟩ := List.mem_map.1 hx1
      exact (nodeCompare_false_iff _ _).1 (h2 y hy)
    obtain ⟨s1, hs1, hw1, hc1⟩ := merge_least s left.weight right.weight _ hs hw2 ha hb
    have := ih hq1 hsum1 s1 hs1 (by rw [hw1]; rfl)
    have hwplq : (q.map (Node.wpl freq)).sum
        = left.wpl freq + (right.wpl freq + (rest.map (Node.wpl freq)).sum) := by
      rw [(hp.map (Node.wpl freq)).sum_eq]
      simp
    rw [hwplq]
    simp only [List.map_cons, List.sum_cons, Node.wpl_node freq _ _ _ _ hleaf] at this
    rw [← hlw, ← hrw] at this
    omega

theorem positiveTotal_eq (freq : Nat → Int) :
    positiveTotal freq = ((initialLeaves freq).map Node.weight).sum := by
  unfold positiveTotal initialLeaves
  rw [List.map_map]
  rfl

theorem initialLeaves_exact (freq : Nat → Int) :
    ∀ x ∈ initialLeaves freq,
      x.isFull = true ∧ 0 ≤ x.weight ∧ x.weight = x.leafSum freq ∧ x.wpl freq = 0 := by
  intro x hx
  simp only [initialLeaves, List.mem_map, List.mem_filter, List.mem_range,
    decide_eq_true_eq] at hx
  obtain ⟨i, ⟨hi, hpos⟩, rfl⟩ := hx
  have hi256 : i % 256 = i := Nat.mod_eq_of_lt (by simpa [R] using hi)
  refine ⟨rfl, by rw [weight_mk]; omega, ?_, Node.wpl_leaf freq _ _⟩
  simp [Node.leafSum, leaves_leaf, hi256, weight_mk]

theorem startNodes_of_two (freq : Nat → Int)
    (h2 : ∃ i j, i < 256 ∧ j < 256 ∧ i ≠ j ∧ 0 < freq i ∧ 0 < freq j) :
    startNodes freq = initialLeaves freq := by
  obtain ⟨i, j, hi, hj, hij, hfi, hfj⟩ := h2
  unfold startNodes
  split
  next h1 =>
    rw [initialLeaves_length] at h1
    obtain ⟨a, ha⟩ := List.length_eq_one.1 h1
    have hmi : i ∈ (List.range R).filter fun i => decide (freq i > 0) := by
      simp [List.mem_filter, R, hi, hfi]
    have hmj : j ∈ (List.range R).filter fun i => decide (freq i > 0) := by
      simp [List.mem_filter, R, hj, hfj]
    rw [ha] at hmi hmj
    exact absurd ((List.mem_singleton.1 hmi).trans (List.mem_singleton.1 hmj).symm) hij
  next => rfl

/-- The tree of `buildTrie` is optimal when the weights do not overflow. -/
theorem buildTrie_optimal_of_bounded {pq : PriorityQueue} (hpq : pq.Lawful) (freq : Nat → Int)
    (h2 : ∃ i j, i < 256 ∧ j < 256 ∧ i ≠ j ∧ 0 < freq i ∧ 0 < freq j)
    (hsum : positiveTotal freq < 2 ^ 31) :
    ∃ t, buildTrie pq freq = some t ∧
      ∀ u : Node, u.isFull = true → u.leaves.Perm t.leaves → t.wpl freq ≤ u.wpl freq := by
  have hpos : ∃ i, i < 256 ∧ 0 < freq i := by
    obtain ⟨i, _, hi, _, _, hfi, _⟩ := h2
    exact ⟨i, hi, hfi⟩
  obtain ⟨t, et, hhuff, _, hperm, _⟩ := buildTrie_shape hpq freq hpos
  refine ⟨t, et, ?_⟩
  intro u hu hul
  rw [startNodes_of_two freq h2] at hhuff hperm
  have hexact := initialLeaves_exact freq
  have hopt := hhuff.optimal (fun x hx => ⟨(hexact x hx).1, (hexact x hx).2.1, (hexact x hx).2.2.1⟩)
    (by rw [← positiveTotal_eq]; exact hsum) (u.weighted freq)
    (by rw [Node.weighted_snd]; exact Node.isShape_of_isFull u hu)
    (by
      rw [Node.weighted_fst, Multiset.coe_eq_coe]
      refine ((hul.trans hperm).map freq).trans ?_
      rw [initialLeaves_leaves]
      unfold initialLeaves
      rw [List.map_map]
      exact List.Perm.refl _)
  have hzero : ((initialLeaves freq).map (Node.wpl freq)).sum = 0 := by
    apply List.sum_eq_zero
    intro x hx
    obtain ⟨y, hy, rfl⟩ := List.mem_map.1 hx
    exact (hexact y hy).2.2.2
  rw [hzero, Node.wcost_weighted] at hopt
  omega

end Huffman
namespace Huffman

/-! ## Height, leaf count and serialized length of full tries -/

namespace Node

theorem leaves_length_pos (t : Node) (hf : t.isFull = true) : 1 ≤ t.leaves.length := by
  induction t with
  | null => simp [isFull] at hf
  | mk ch f l r ihl _ =>
    rcases isFull_cases hf with hleaf | ⟨hleaf, hl, _⟩
    · simp [leaves, hleaf]
    · have := ihl hl
      simp only [leaves, hleaf, Bool.false_eq_true, if_false, List.length_append]
      omega

/-- A full trie is less high than it has leaves. -/
theorem height_lt_leaves (t : Node) (hf : t.isFull = true) :
    t.height + 1 ≤ t.leaves.length := by
  induction t with
  | null => simp [isFull] at hf
  | mk ch f l r ihl ihr =>
    rcases isFull_cases hf with hleaf | ⟨hleaf, hl, hr⟩
    · simp [leaves, height, hleaf]
    · have h1 := ihl hl
      have h2 := ihr hr
      have h3 := leaves_length_pos l hl
      have h4 := leaves_length_pos r hr
      simp only [leaves, height, hleaf, Bool.false_eq_true, if_false, List.length_append]
      rcases Nat.le_total l.height r.height with h | h
      · rw [max_eq_right h]; omega
      · rw [max_eq_left h]; omega

/-- No path to a leaf is longer than the height. -/
theorem code_length_le_height (t : Node) (p : Nat × List Bool) (hp : p ∈ t.codes) :
    p.2.length ≤ t.height := by
  induction t generalizing p with
  | null => simp [codes] at hp
  | mk ch f l r ihl ihr =>
    by_cases hleaf : (l.isNull && r.isNull) = true
    · simp only [codes, hleaf, if_true, List.mem_singleton] at hp
      rw [hp]; simp
    · have hleaf2 : (l.isNull && r.isNull) = false := by simpa using hleaf
      simp only [codes, hleaf2, Bool.false_eq_true, if_false, List.mem_append,
        List.mem_map] at hp
      simp only [height, hleaf2, Bool.false_eq_true, if_false]
      rcases hp with ⟨q, hq, rfl⟩ | ⟨q, hq, rfl⟩
      · have := ihl q hq
        have := le_max_left l.height r.height
        simp only [List.length_cons]
        omega
      · have := ihr q hq
        have := le_max_right l.height r.height
        simp only [List.length_cons]
        omega

/-- One tag bit for each of the `2 L - 1` nodes and eight symbol bits for each of the
`L` leaves. -/
theorem length_serialize (t : Node) (hf : t.isFull = true) :
    t.serialize.length + 1 = 10 * t.leaves.length := by
  induction t with
  | null => simp [isFull] at hf
  | mk ch f l r ihl ihr =>
    rcases isFull_cases hf with hleaf | ⟨hleaf, hl, hr⟩
    · simp [serialize, leaves, hleaf, length_bitsOfNat]
    · have h1 := ihl hl
      have h2 := ihr hr
      simp only [serialize, leaves, hleaf, Bool.false_eq_true, if_false, List.length_cons,
        List.length_append]
      omega

theorem isNull_mirror (t : Node) : t.mirror.isNull = t.isNull := by
  cases t <;> rfl

/-- What `readTire` builds from the serialization of a trie: its skeleton when the two
reads are made left to right, the mirror image of its skeleton otherwise. -/
theorem readTire_spec_ord (ord : ArgOrder) (t : Node) (fuel : Nat) (r : BitReader)
    (bs : List Bool) (hf : t.isFull = true) (hs : ∀ c ∈ t.leaves, c < 256)
    (hfuel : t.serialize.length ≤ fuel) (hr : r.Rep (t.serialize ++ bs)) :
    ∃ r1, readTire ord fuel r
        = some (match ord with
            | ArgOrder.leftToRight => t.skeleton
            | ArgOrder.rightToLeft => t.skeleton.mirror, r1) ∧ r1.Rep bs := by
  cases ord with
  | leftToRight => exact readTire_spec t fuel r bs hf hs hfuel hr
  | rightToLeft =>
    induction t generalizing fuel r bs with
    | null => simp [isFull] at hf
    | mk ch f lt rt ihl ihr =>
      rcases isFull_cases hf with hleaf | ⟨hleaf, hl, hrt⟩
      · simp only [serialize, hleaf, if_true, List.cons_append] at hr hfuel
        obtain ⟨k, rfl⟩ : ∃ k, fuel = k + 1 := ⟨fuel - 1, by simp at hfuel; omega⟩
        obtain ⟨r1, e1, h1⟩ := BitReader.readBit_spec r true _ hr
        have hc : ch < 256 := hs ch (by simp [leaves, hleaf])
        obtain ⟨r2, e2, h2⟩ := BitReader.readChar_spec r1 ch bs hc h1
        exact ⟨r2, by simp [readTire, e1, e2, skeleton, hleaf, mirror], h2⟩
      · simp only [serialize, hleaf, Bool.false_eq_true, if_false, List.cons_append,
          List.append_assoc, List.length_cons, List.length_append] at hr hfuel
        simp only [leaves, hleaf, Bool.false_eq_true, if_false] at hs
        obtain ⟨k, rfl⟩ : ∃ k, fuel = k + 1 := ⟨fuel - 1, by omega⟩
        obtain ⟨r1, e1, h1⟩ := BitReader.readBit_spec r false _ hr
        obtain ⟨r2, e2, h2⟩ := ihl k r1 _ hl (fun c hc => hs c (by simp [hc])) (by omega) h1
        obtain ⟨r3, e3, h3⟩ := ihr k r2 _ hrt (fun c hc => hs c (by simp [hc])) (by omega) h2
        exact ⟨r3, by simp [readTire, e1, e2, e3, skeleton, hleaf, mirror], h3⟩

end Node

theorem startNodes_length_le (freq : Nat → Int) : (startNodes freq).length ≤ 256 := by
  have h : (initialLeaves freq).length ≤ 256 := by
    rw [initialLeaves_length]
    have := List.length_filter_le (fun i => decide (freq i > 0)) (List.range R)
    simpa [R] using this
  unfold startNodes
  split
  next h1 => simp [h1]
  next => exact h

end Huffman
namespace Huffman

/-! ## Bit positions of the writer and the reader -/

theorem BitWriter.n_eq_of_bits (w : BitWriter) (h : w.Inv) : w.n = w.bits.length % 8 := by
  have := w.length_bits
  have := h.1
  omega

/-- On the unaligned path `writeByte` is the eight `writeBit` calls. -/
theorem BitWriter.writeByte_unaligned (w : BitWriter) (x : Nat) (h : w.n ≠ 0) :
    w.writeByte x = writeByteBits w x := by
  simp [BitWriter.writeByte, writeByteBits, h]

theorem BitWriter.writeByte_n (w : BitWriter) (x : Nat) (h : w.Inv) (hx : x < 256) :
    (w.writeByte x).n = w.n := by
  obtain ⟨i1, b1⟩ := BitWriter.writeByte_spec w x h hx
  rw [BitWriter.n_eq_of_bits _ i1, BitWriter.n_eq_of_bits _ h, b1, List.length_append,
    length_bitsOfNat]
  omega

/-- On the unaligned path `readChar` leaves the count of unconsumed bits as it was. -/
theorem BitReader.readChar_n (r r1 : BitReader) (c : Nat) (h : r.n ≠ 8)
    (e : r.readChar = some (c, r1)) : r1.n = r.n := by
  unfold BitReader.readChar at e
  simp only [h, if_false] at e
  split at e
  · simp at e
  · simp only [Option.some.injEq, Prod.mk.injEq] at e
    rw [← e.2]

/-- In front of a non-empty bit sequence the count of unconsumed bits is the length of
the sequence modulo 8, with 8 for 0. -/
theorem BitReader.Rep.n_mod {r : BitReader} {bits : List Bool} (h : r.Rep bits)
    (hne : bits ≠ []) : 1 ≤ r.n ∧ r.n ≤ 8 ∧ r.n.toNat % 8 = bits.length % 8 := by
  rcases h with h | ⟨_, h1, h8, _, _, hbits⟩
  · exact absurd h hne
  · refine ⟨h1, h8, ?_⟩
    have := congrArg List.length hbits
    rw [List.length_append, length_bitsOfNat, length_bytesToBits] at this
    omega

end Huffman
namespace Huffman

/-! ## The emitted bytes are the packing of the bits written -/

theorem natOfBits_replicate_false (k : Nat) : natOfBits (List.replicate k false) = 0 := by
  induction k with
  | zero => rfl
  | succ k ih =>
    rw [List.replicate_succ', natOfBits_append, ih, natOfBits_singleton]
    simp

theorem packBits_nil : packBits [] = [] := rfl

theorem packBits_byte (x : Nat) (rest : List Bool) :
    packBits (bitsOfNat 8 x ++ rest) = x % 256 :: packBits rest := by
  obtain ⟨b7, b6, b5, b4, b3, b2, b1, b0, h⟩ :
      ∃ b7 b6 b5 b4 b3 b2 b1 b0, bitsOfNat 8 x = [b7, b6, b5, b4, b3, b2, b1, b0] :=
    ⟨_, _, _, _, _, _, _, _, rfl⟩
  have hv : natOfBits [b7, b6, b5, b4, b3, b2, b1, b0] = x % 256 := by
    rw [← h, natOfBits_bitsOfNat]
    norm_num
  rw [h]
  show packBits (b7 :: b6 :: b5 :: b4 :: b3 :: b2 :: b1 :: b0 :: rest) = _
  rw [packBits, hv]

theorem packBits_bytes (os : List Nat) (hos : ∀ b ∈ os, b < 256) (t : List Bool) :
    packBits (bytesToBits os ++ t) = os ++ packBits t := by
  induction os with
  | nil => rfl
  | cons b os ih =>
    have hb : b % 256 = b := Nat.mod_eq_of_lt (hos b (by simp))
    have := ih (fun c hc => hos c (by simp [hc]))
    simp only [bytesToBits, List.flatMap_cons, List.append_assoc] at this ⊢
    rw [packBits_byte, this, hb]
    rfl

theorem packBits_short (l : List Bool) (h0 : 0 < l.length) (h8 : l.length < 8) :
    packBits l = [natOfBits (l ++ List.replicate (8 - l.length) false)] := by
  rcases l with _ | ⟨b1, _ | ⟨b2, _ | ⟨b3, _ | ⟨b4, _ | ⟨b5, _ | ⟨b6, _ | ⟨b7, _ | ⟨b8, l⟩⟩⟩⟩⟩⟩⟩⟩
  · simp at h0
  · rfl
  · rfl
  · rfl
  · rfl
  · rfl
  · rfl
  · rfl
  · simp only [List.length_cons] at h8
    omega

/-- The file `close` returns is the packing of the bits handed to the writer. -/
theorem BitWriter.close_eq_packBits (w : BitWriter) (h : w.Inv) :
    w.close = packBits w.bits := by
  obtain ⟨hn, hb, hos⟩ := h
  unfold BitWriter.bits
  rw [packBits_bytes w.os hos]
  unfold BitWriter.close BitWriter.clearBuffer
  by_cases h0 : w.n = 0
  · have z : ∀ y, bitsOfNat 0 y = [] := fun _ => rfl
    simp only [h0, if_true, z, packBits_nil, List.append_nil]
  · simp only [h0, if_false]
    have hlt : w.buffer * 2 ^ (8 - w.n) < 256 := by
      have : w.buffer * 2 ^ (8 - w.n) < 2 ^ w.n * 2 ^ (8 - w.n) :=
        Nat.mul_lt_mul_of_pos_right hb (by positivity)
      rw [← pow_add] at this
      have e : w.n + (8 - w.n) = 8 := by omega
      rw [e] at this
      simpa using this
    rw [Nat.shiftLeft_eq, Nat.mod_eq_of_lt hlt,
      packBits_short _ (by rw [length_bitsOfNat]; omega) (by rw [length_bitsOfNat]; omega),
      natOfBits_append, natOfBits_bitsOfNat, natOfBits_replicate_false, length_bitsOfNat,
      List.length_replicate, Nat.mod_eq_of_lt hb, Nat.add_zero]

/-- On the aligned path `writeByte` leaves the writer as the eight `writeBit` calls of
the slow path would. -/
theorem BitWriter.writeByte_eq_bits (w : BitWriter) (x : Nat) (h : w.Inv) (h0 : w.n = 0)
    (hx : x < 256) : w.writeByte x = writeByteBits w x := by
  have hf : writeByteBits w x = (bitsOfNat 8 x).foldl BitWriter.writeBit w := by
    unfold writeByteBits
    rw [← BitWriter.byte_bits_eq, List.foldl_map]
  obtain ⟨i1, b1⟩ := BitWriter.foldl_writeBit_spec (bitsOfNat 8 x) w h
  rw [← hf] at i1 b1
  obtain ⟨hn, hb, hos⟩ := h
  have hbuf : w.buffer = 0 := by rw [h0] at hb; simpa using hb
  have hn1 : (writeByteBits w x).n = 0 := by
    have e1 := BitWriter.n_eq_of_bits _ i1
    have e2 := w.length_bits
    rw [b1, List.length_append, length_bitsOfNat, e2, h0] at e1
    omega
  have hbuf1 : (writeByteBits w x).buffer = 0 := by
    have := i1.2.1
    rw [hn1] at this
    simpa using this
  have hos1 : (writeByteBits w x).os = w.os ++ [x] := by
    have e := b1
    have z : ∀ y, bitsOfNat 0 y = [] := fun _ => rfl
    simp only [BitWriter.bits, hn1, h0, z, List.append_nil] at e
    have e2 : bytesToBits (writeByteBits w x).os = bytesToBits (w.os ++ [x]) := by
      rw [e, BitWriter.bytesToBits_append, BitWriter.bytesToBits_singleton]
    have p1 := packBits_bytes (writeByteBits w x).os i1.2.2 []
    have p2 := packBits_bytes (w.os ++ [x]) (by
      intro c hc
      rcases List.mem_append.1 hc with hc | hc
      · exact hos c hc
      · simp at hc; omega) []
    rw [List.append_nil, packBits_nil, List.append_nil] at p1 p2
    rw [← p1, e2, p2]
  rw [BitWriter.writeByte_aligned w x h0]
  generalize writeByteBits w x = w1 at hn1 hbuf1 hos1
  cases w1 with
  | mk b n o =>
    simp only at hn1 hbuf1 hos1
    rw [hn1, hbuf1, hos1, hbuf]

end Huffman
namespace Huffman

/-! ## The reader after a run of `readBit` calls -/

theorem readBits_add (a b : Nat) (r : BitReader) :
    readBits (a + b) r
      = (readBits a r).bind fun p1 =>
          (readBits b p1.2).bind fun p2 => some (p1.1 ++ p2.1, p2.2) := by
  induction a generalizing r with
  | zero =>
    simp only [Nat.zero_add, readBits, Option.some_bind, List.nil_append]
    cases readBits b r <;> rfl
  | succ a ih =>
    rw [Nat.add_right_comm]
    simp only [readBits]
    cases h1 : r.readBit with
    | none => rfl
    | some p =>
      simp only [Option.some_bind, ih]
      cases h2 : readBits a p.2 with
      | none => rfl
      | some q =>
        simp only [Option.some_bind]
        cases h3 : readBits b q.2 with
        | none => rfl
        | some s => rfl

theorem BitReader.fillBuffer_n (r : BitReader) (m : Int) :
    BitReader.fillBuffer { buffer := r.buffer, n := m, is := r.is, eof := r.eof }
      = r.fillBuffer := by
  simp only [BitReader.fillBuffer]

/-- Fewer `readBit` calls than there are unconsumed bits in the buffer only lower the
count. -/
theorem readBits_within (j : Nat) (r : BitReader) (h : (j : Int) < r.n) :
    ∃ l, readBits j r
      = some (l, { buffer := r.buffer, n := r.n - j, is := r.is, eof := r.eof }) := by
  induction j generalizing r with
  | zero => exact ⟨[], by simp [readBits]⟩
  | succ j ih =>
    have h1 : ¬ (r.n - 1 < 0) := by push_cast at h; omega
    have h2 : ¬ (r.n - 1 = 0) := by push_cast at h; omega
    have e : r.readBit = some (((r.buffer >>> (r.n - 1).toNat) &&& 1) == 1,
        { buffer := r.buffer, n := r.n - 1, is := r.is, eof := r.eof }) := by
      simp [BitReader.readBit, h1, h2]
    obtain ⟨l, hl⟩ := ih { buffer := r.buffer, n := r.n - 1, is := r.is, eof := r.eof }
      (by push_cast at h; simp only; omega)
    refine ⟨(((r.buffer >>> (r.n - 1).toNat) &&& 1) == 1) :: l, ?_⟩
    simp only [readBits, e, Option.some_bind, hl]
    congr 3
    push_cast
    ring

/-- As many `readBit` calls as there are unconsumed bits in the buffer end with a
refill. -/
theorem readBits_refill (j : Nat) (r : BitReader) (h : r.n = (j : Int) + 1) :
    ∃ l, readBits (j + 1) r = some (l, r.fillBuffer) := by
  obtain ⟨l, hl⟩ := readBits_within j r (by omega)
  have e : BitReader.readBit { buffer := r.buffer, n := r.n - j, is := r.is, eof := r.eof }
      = some (((r.buffer >>> 0) &&& 1) == 1, r.fillBuffer) := by
    have hn : r.n - (j : Int) - 1 = 0 := by omega
    simp [BitReader.readBit, hn, BitReader.fillBuffer_n]
  refine ⟨l ++ [((r.buffer >>> 0) &&& 1) == 1], ?_⟩
  rw [readBits_add, hl]
  simp [readBits, e]

/-- With at least eight unread bits of the source ahead, `readChar` returns the byte
made of the values of eight `readBit` calls and leaves the reader in the state they
would leave it in. -/
theorem readChar_eq_readBits_state (r : BitReader) (he : r.eof = false) (h1 : 1 ≤ r.n)
    (h8 : r.n ≤ 8) (hb : r.buffer < 256) (his : ∀ b ∈ r.is, b < 256)
    (hlen : 8 ≤ r.n.toNat + 8 * r.is.length) :
    ∃ bs r1, readBits 8 r = some (bs, r1) ∧ r.readChar = some (natOfBits bs, r1) := by
  -- the bits ahead
  have hrep : r.Rep (bitsOfNat r.n.toNat r.buffer ++ bytesToBits r.is) :=
    Or.inr ⟨he, h1, h8, hb, his, rfl⟩
  have hl : 8 ≤ (bitsOfNat r.n.toNat r.buffer ++ bytesToBits r.is).length := by
    rw [List.length_append, length_bitsOfNat, length_bytesToBits]; exact hlen
  generalize bitsOfNat r.n.toNat r.buffer ++ bytesToBits r.is = bits at hrep hl
  have hsplit : bits = bits.take 8 ++ bits.drop 8 := (List.take_append_drop 8 bits).symm
  have htl : (bits.take 8).length = 8 := by rw [List.length_take]; omega
  rw [hsplit] at hrep
  obtain ⟨ra, ea, _⟩ := readBits_spec (bits.take 8) (bits.drop 8) r hrep
  rw [htl] at ea
  have hx : natOfBits (bits.take 8) < 256 := by
    have := natOfBits_lt (bits.take 8)
    rw [htl] at this
    simpa using this
  have hbx : bitsOfNat 8 (natOfBits (bits.take 8)) = bits.take 8 := by
    have := bitsOfNat_natOfBits (bits.take 8)
    rwa [htl] at this
  rw [← hbx] at hrep
  obtain ⟨rb, eb, _⟩ := BitReader.readChar_spec r _ _ hx hrep
  refine ⟨bits.take 8, ra, ea, ?_⟩
  rw [eb]
  -- the two final states
  by_cases hn8 : r.n = 8
  · obtain ⟨l, el⟩ := readBits_refill 7 r (by omega)
    rw [ea] at el
    have hra : ra = r.fillBuffer := by
      simp only [Option.some.injEq, Prod.mk.injEq] at el
      exact el.2
    have hrb : rb = r.fillBuffer := by
      simp only [BitReader.readChar, hn8, if_true, Option.some.injEq, Prod.mk.injEq] at eb
      exact eb.2.symm
    rw [hra, hrb]
  · obtain ⟨k, hk⟩ : ∃ k : Nat, r.n = (k : Int) + 1 := ⟨(r.n - 1).toNat, by omega⟩
    have hk7 : k + 1 < 8 := by omega
    cases hr : r.is with
    | nil =>
      rw [hr] at hlen
      simp at hlen
      omega
    | cons nx rest =>
      have hfill : r.fillBuffer = { buffer := nx, n := 8, is := rest, eof := false } := by
        simp [BitReader.fillBuffer, he, hr]
      obtain ⟨l1, el1⟩ := readBits_refill k r hk
      obtain ⟨l2, el2⟩ := readBits_within (8 - (k + 1)) r.fillBuffer (by
        rw [hfill]; simp only; omega)
      rw [hfill] at el2
      simp only at el2
      have hcast : (8 : Int) - ((8 - (k + 1) : Nat) : Int) = (k : Int) + 1 := by omega
      rw [hcast] at el2
      have e8 : readBits 8 r = some (l1 ++ l2,
          { buffer := nx, n := (k : Int) + 1, is := rest, eof := false }) := by
        have hadd := readBits_add (k + 1) (8 - (k + 1)) r
        have h8eq : k + 1 + (8 - (k + 1)) = 8 := by omega
        rw [h8eq, el1] at hadd
        rw [hadd, hfill]
        simp only [Option.some_bind, el2]
      rw [ea] at e8
      have hra : ra = { buffer := nx, n := (k : Int) + 1, is := rest, eof := false } := by
        simp only [Option.some.injEq, Prod.mk.injEq] at e8
        exact e8.2
      have hrb : rb = { buffer := nx, n := (k : Int) + 1, is := rest, eof := false } := by
        have hng : ¬ (r.n < 0 ∨ 8 < r.n) := by omega
        simp only [BitReader.readChar, hn8, if_false, hng, hfill, Option.some.injEq,
          Prod.mk.injEq] at eb
        rw [← eb.2, hk]
      rw [hra, hrb]

end Huffman
namespace Huffman

/-! ## Exact weights below the `int` limit -/

theorem Node.weightsExact_leaf (c : Nat) (f : Int) :
    (Node.mk c f Node.null Node.null).weightsExact = true := rfl

theorem Node.weightsExact_node (c : Nat) (f : Int) (l r : Node)
    (h : (l.isNull && r.isNull) = false) :
    (Node.mk c f l r).weightsExact
      = (decide (f = l.weight + r.weight) && l.weightsExact && r.weightsExact) := by
  simp [Node.weightsExact, h]

/-- When the weights of the start nodes are not negative and sum to less than `2 ^ 31`,
no sum of the merging loop wraps: every internal node weighs what its children weigh
together, and the root weighs what the start nodes weigh together. -/
theorem Huff.exact {q : List Node} {t : Node} (h : Huff q t)
    (hq : ∀ x ∈ q, 0 ≤ x.weight ∧ x.weightsExact = true)
    (hsum : (q.map Node.weight).sum < 2 ^ 31) :
    t.weightsExact = true ∧ t.weight = (q.map Node.weight).sum := by
  induction h with
  | single t =>
    exact ⟨(hq t (by simp)).2, by simp⟩
  | step q left right m rest t hp h1 h2 hm _ ih =>
    obtain ⟨hln, hrn, rfl⟩ := mergeNodes_eq hm
    obtain ⟨hl0, hle⟩ := hq left (hp.symm.subset (by simp))
    obtain ⟨hr0, hre⟩ := hq right (hp.symm.subset (by simp))
    have hleaf : (left.isNull && right.isNull) = false := by simp [hln]
    have hsumq : (q.map Node.weight).sum
        = left.weight + (right.weight + (rest.map Node.weight).sum) := by
      rw [(hp.map Node.weight).sum_eq]
      simp
    have hrest0 : 0 ≤ (rest.map Node.weight).sum := by
      apply List.sum_nonneg
      intro x hx
      obtain ⟨y, hy, rfl⟩ := List.mem_map.1 hx
      exact (hq y (hp.symm.subset (by simp [hy]))).1
    have hwrap : wrapInt (left.weight + right.weight) = left.weight + right.weight :=
      wrapInt_of_range (by norm_num; omega) (by norm_num at hsum ⊢; omega)
    rw [hwrap] at ih
    have hq1 : ∀ x ∈ Node.mk 0 (left.weight + right.weight) left right :: rest,
        0 ≤ x.weight ∧ x.weightsExact = true := by
      intro x hx
      rcases List.mem_cons.1 hx with rfl | hx
      · refine ⟨by rw [weight_mk]; omega, ?_⟩
        rw [Node.weightsExact_node _ _ _ _ hleaf, hle, hre]
        simp
      · exact hq x (hp.symm.subset (by simp [hx]))
    have hsum1 : ((Node.mk 0 (left.weight + right.weight) left right :: rest).map
        Node.weight).sum < 2 ^ 31 := by
      simp only [List.map_cons, List.sum_cons, weight_mk]
      omega
    obtain ⟨he, hw⟩ := ih hq1 hsum1
    refine ⟨he, ?_⟩
    rw [hw, hsumq]
    simp only [List.map_cons, List.sum_cons, weight_mk]
    omega

theorem startNodes_exact (freq : Nat → Int) :
    (∀ x ∈ startNodes freq, 0 ≤ x.weight ∧ x.weightsExact = true) ∧
      ((startNodes freq).map Node.weight).sum = positiveTotal freq := by
  have hinit : ∀ x ∈ initialLeaves freq, 0 ≤ x.weight ∧ x.weightsExact = true := by
    intro x hx
    have h0 := (initialLeaves_exact freq x hx).2.1
    simp only [initialLeaves, List.mem_map] at hx
    obtain ⟨i, _, rfl⟩ := hx
    exact ⟨h0, rfl⟩
  unfold startNodes
  split
  · refine ⟨?_, ?_⟩
    · intro x hx
      rcases List.mem_cons.1 hx with rfl | hx
      · split <;> exact ⟨le_refl 0, rfl⟩
      · exact hinit x hx
    · rw [positiveTotal_eq]
      split <;> simp [weight_mk]
  · exact ⟨hinit, (positiveTotal_eq freq).symm⟩

/-! ## The counts of an input add up to its length -/

theorem sum_filter_pos (f : Nat → Int) (h : ∀ i, 0 ≤ f i) (idx : List Nat) :
    ((idx.filter fun i => decide (f i > 0)).map f).sum = (idx.map f).sum := by
  induction idx with
  | nil => rfl
  | cons i idx ih =>
    by_cases hi : f i > 0
    · simp [List.filter_cons, hi, ih]
    · have h0 : f i = 0 := by have := h i; omega
      simp [List.filter_cons, hi, ih, h0]

theorem sum_count_cons (b : Nat) (l idx : List Nat) :
    (idx.map fun i => (((b :: l).count i : Nat) : Int)).sum
      = (idx.map fun i => ((l.count i : Nat) : Int)).sum + (idx.count b : Int) := by
  induction idx with
  | nil => simp
  | cons i idx ih =>
    simp only [List.map_cons, List.sum_cons, ih]
    have h1 : (b :: l).count i = l.count i + if b = i then 1 else 0 := by
      rw [List.count_cons]; simp
    have h2 : (i :: idx).count b = idx.count b + if b = i then 1 else 0 := by
      rw [List.count_cons]
      by_cases hbi : b = i
      · simp [hbi]
      · have : ¬ i = b := fun h => hbi h.symm
        simp [hbi, this]
    rw [h1, h2]
    split <;> push_cast <;> omega

theorem sum_count_range (l : List Nat) (hb : ∀ b ∈ l, b < 256) :
    ((List.range R).map fun i => ((l.count i : Nat) : Int)).sum = l.length := by
  induction l with
  | nil => simp
  | cons b l ih =>
    rw [sum_count_cons, ih (fun x hx => hb x (List.mem_cons_of_mem _ hx))]
    have hbR : b ∈ List.range R := List.mem_range.2 (by have := hb b (by simp); simpa [R] using this)
    rw [List.count_eq_one_of_mem (List.nodup_range R) hbR]
    simp

/-- Below `2 ^ 31` bytes the positive counts add up to the length of the input. -/
theorem positiveTotal_countFreq (input : List Nat) (hlen : input.length < 2 ^ 31)
    (hbytes : ∀ b ∈ input, b < 256) :
    positiveTotal (countFreq input).1 = input.length := by
  have hc := (countFreq_spec input hlen).1
  have hfun : (countFreq input).1 = fun c => ((input.count c : Nat) : Int) := funext hc
  rw [hfun]
  unfold positiveTotal
  rw [sum_filter_pos _ (fun i => by positivity)]
  exact sum_count_range input hbytes

end Huffman
namespace Huffman

/-! ## More frequent symbols get codewords that are not longer -/

/-- Trading the counts of two leaves of a tree keeps the depths and the counts as
multisets, and changes the cost by the product of the two differences. -/
theorem Node.swap_cost (freq : Nat → Int) (t : Node) (a b : Nat) (pa pb : List Bool)
    (ha : (a, pa) ∈ t.codes) (hb : (b, pb) ∈ t.codes) (hab : a ≠ b) :
    ∃ s : Multiset (Int × Nat),
      s.map Prod.snd = (t.weighted freq).map Prod.snd ∧
      s.map Prod.fst = (t.weighted freq).map Prod.fst ∧
      wcost s = t.wpl freq - (freq a - freq b) * ((pa.length : Int) - (pb.length : Int)) := by
  have hma : (a, pa) ∈ (t.codes : Multiset (Nat × List Bool)) := Multiset.mem_coe.2 ha
  have hmb : (b, pb) ∈ (t.codes : Multiset (Nat × List Bool)).erase (a, pa) := by
    refine (Multiset.mem_erase_of_ne ?_).2 (Multiset.mem_coe.2 hb)
    intro h
    exact hab (congrArg Prod.fst h).symm
  have hsplit : (t.codes : Multiset (Nat × List Bool))
      = (a, pa) ::ₘ (b, pb) ::ₘ ((t.codes : Multiset (Nat × List Bool)).erase (a, pa)).erase
          (b, pb) := by
    rw [Multiset.cons_erase hmb, Multiset.cons_erase hma]
  have hweighted : t.weighted freq
      = (t.codes : Multiset (Nat × List Bool)).map fun p => (freq p.1, p.2.length) := by
    rw [Node.weighted, Multiset.map_coe]
  rw [← Node.wcost_weighted, hweighted, hsplit]
  generalize ((t.codes : Multiset (Nat × List Bool)).erase (a, pa)).erase (b, pb) = rest
  refine ⟨(freq b, pa.length) ::ₘ (freq a, pb.length) ::ₘ
    rest.map fun p => (freq p.1, p.2.length), ?_, ?_, ?_⟩
  · simp only [Multiset.map_cons]
  · simp only [Multiset.map_cons]
    exact Multiset.cons_swap _ _ _
  · simp only [Multiset.map_cons, wcost_cons]
    ring

/-- When the positive counts sum to less than `2 ^ 31`, a symbol with a larger count
never gets a longer codeword than a symbol with a smaller positive count. -/
theorem buildTrie_monotone_of_bounded {pq : PriorityQueue} (hpq : pq.Lawful)
    (freq : Nat → Int)
    (h2 : ∃ i j, i < 256 ∧ j < 256 ∧ i ≠ j ∧ 0 < freq i ∧ 0 < freq j)
    (hsum : positiveTotal freq < 2 ^ 31) :
    ∃ t huffman, buildTrie pq freq = some t ∧ buildCode (fun _ => []) t [] = some huffman ∧
      ∀ a b, a < 256 → b < 256 → 0 < freq b → freq b < freq a →
        (huffman a).length ≤ (huffman b).length := by
  have hpos : ∃ i, i < 256 ∧ 0 < freq i := by
    obtain ⟨i, _, hi, _, _, hfi, _⟩ := h2
    exact ⟨i, hi, hfi⟩
  obtain ⟨t, et, hhuff, hfull, hperm, _⟩ := buildTrie_shape hpq freq hpos
  rw [startNodes_of_two freq h2] at hhuff hperm
  rw [initialLeaves_leaves] at hperm
  have hnd : t.leaves.Nodup := hperm.nodup_iff.2 ((List.nodup_range R).filter _)
  obtain ⟨huffman, ecode, hcodes, _⟩ := Node.buildCode_spec t (fun _ => []) [] hfull hnd
  refine ⟨t, huffman, et, ecode, ?_⟩
  intro a b ha hb hfb hfab
  have hleaf : ∀ c, c < 256 → 0 < freq c → ∃ p, (c, p) ∈ t.codes ∧
      (huffman c).length = p.length := by
    intro c hc hfc
    have hmem : c ∈ t.leaves := by
      refine hperm.symm.subset ?_
      simp [List.mem_filter, R, hc, hfc]
    rw [← Node.codes_fst] at hmem
    obtain ⟨p, hp, rfl⟩ := List.mem_map.1 hmem
    refine ⟨p.2, hp, ?_⟩
    rw [hcodes p hp]
    simp [pathChars]
  obtain ⟨pa, hpa, hla⟩ := hleaf a ha (by omega)
  obtain ⟨pb, hpb, hlb⟩ := hleaf b hb hfb
  rw [hla, hlb]
  by_contra hlt
  have hlt2 : pb.length < pa.length := by omega
  have hab : a ≠ b := by
    intro h
    rw [h] at hfab
    exact lt_irrefl _ hfab
  obtain ⟨s, hs2, hs1, hcost⟩ := Node.swap_cost freq t a b pa pb hpa hpb hab
  have hexact := initialLeaves_exact freq
  have hopt := hhuff.optimal
    (fun x hx => ⟨(hexact x hx).1, (hexact x hx).2.1, (hexact x hx).2.2.1⟩)
    (by rw [← positiveTotal_eq]; exact hsum) s
    (by rw [hs2, Node.weighted_snd]; exact Node.isShape_of_isFull t hfull)
    (by
      rw [hs1, Node.weighted_fst, Multiset.coe_eq_coe]
      refine (hperm.map freq).trans ?_
      unfold initialLeaves
      rw [List.map_map]
      exact List.Perm.refl _)
  have hzero : ((initialLeaves freq).map (Node.wpl freq)).sum = 0 := by
    apply List.sum_eq_zero
    intro x hx
    obtain ⟨y, hy, rfl⟩ := List.mem_map.1 hx
    exact (hexact y hy).2.2.2
  rw [hzero, hcost] at hopt
  have hprod : 0 < (freq a - freq b) * ((pa.length : Int) - (pb.length : Int)) :=
    mul_pos (by omega) (by omega)
  omega

end Huffman
namespace Huffman

/-! ## Claims -/

set_option maxRecDepth 100000

/-- C1, evaluated at the one-byte input "Z" (byte 90).  `compress` writes the archive
`40 2b 40 00 00 00 30`; when the two `readTire(fileReader)` arguments of the
constructor call are evaluated right to left, `deCompress` rebuilds the trie mirrored
and writes the byte 0 instead of the byte 90. -/
theorem deCompress_compress_mirrored :
    compress listQueue [90] = some [64, 43, 64, 0, 0, 0, 48] ∧
      deCompress ArgOrder.rightToLeft [64, 43, 64, 0, 0, 0, 48] = some [0] := by
  decide

/-- C2, on the code: for the empty input every count is zero, no leaf is pushed, the
guard `queue.size() == 1` does not fire, and `buildTrie` asks an empty queue for its
top; neither a tree nor an archive results, whatever the queue implementation. -/
theorem compress_empty_undefined (pq : PriorityQueue) :
    buildTrie pq (countFreq []).1 = none ∧ compress pq [] = none := by
  have h : buildTrie pq (countFreq []).1 = none :=
    buildTrie_none_of_nonpos pq _ (fun i => by simp [countFreq])
  exact ⟨h, by simp [compress, h]⟩

/-- C3 as stated fails: for `2 ^ 31` copies of the byte 90 the `int` counter of the
byte wraps to `-2 ^ 31`, and for `2 ^ 32` copies both it and the `unsigned int` length
wrap to 0; either way no leaf is pushed and `buildTrie` returns no tree. -/
theorem single_symbol_overflow :
    (buildTrie listQueue (countFreq (List.replicate (2 ^ 31) 90)).1 = none ∧
      compress listQueue (List.replicate (2 ^ 31) 90) = none) ∧
    (buildTrie listQueue (countFreq (List.replicate (2 ^ 32) 90)).1 = none ∧
      compress listQueue (List.replicate (2 ^ 32) 90) = none) :=
  ⟨replicate_overflow listQueue (2 ^ 31) 90 (by simp only [wrapInt]; norm_num),
    replicate_overflow listQueue (2 ^ 32) 90 (by simp only [wrapInt]; norm_num)⟩

/-- C3, amended: for `n` copies of a byte `b` with `1 ≤ n < 2 ^ 31`, `buildTrie`
returns an internal root whose left child is the synthetic leaf of weight 0, carrying
the symbol 0 when `b ≠ 0` and the symbol 1 when `b = 0`, and whose right child is the
leaf of `b` with weight `n`; the codeword of `b` is the single character `1`. -/
theorem single_symbol_trie (pq : PriorityQueue) (hpq : pq.Lawful) (b n : Nat)
    (hb : b < 256) (hn1 : 1 ≤ n) (hn2 : n < 2 ^ 31) :
    buildTrie pq (countFreq (List.replicate n b)).1
        = some (Node.mk 0 n (Node.mk (if b = 0 then 1 else 0) 0 Node.null Node.null)
            (Node.mk b n Node.null Node.null)) ∧
      ∃ huffman,
        buildCode (fun _ => [])
          (Node.mk 0 n (Node.mk (if b = 0 then 1 else 0) 0 Node.null Node.null)
            (Node.mk b n Node.null Node.null)) [] = some huffman ∧
        huffman b = ['1'] := by
  have hfreq := (countFreq_replicate n b).1
  have hwrap : wrapInt (n : Int) = n :=
    wrapInt_of_range (by norm_num; omega) (by norm_num at hn2 ⊢; omega)
  have hfilter : ((List.range R).filter fun i =>
      decide ((countFreq (List.replicate n b)).1 i > 0)) = [b] := by
    have hiff : ∀ i, decide ((countFreq (List.replicate n b)).1 i > 0) = decide (i = b) := by
      intro i
      rw [hfreq, hwrap]
      by_cases hi : i = b
      · simp [hi]; omega
      · simp [hi]
    simp only [hiff]
    have hnd := List.nodup_range R
    have hmem : b ∈ List.range R := by simp [R, hb]
    rw [List.filter_eq, List.count_eq_one_of_mem hnd hmem]
    rfl
  have hstart : startNodes (countFreq (List.replicate n b)).1
      = [Node.mk (if b = 0 then 1 else 0) 0 Node.null Node.null,
          Node.mk b n Node.null Node.null] := by
    have hinit : initialLeaves (countFreq (List.replicate n b)).1
        = [Node.mk b n Node.null Node.null] := by
      unfold initialLeaves
      rw [hfilter]
      simp only [List.map_cons, List.map_nil, hfreq, if_true, hwrap, Nat.mod_eq_of_lt hb]
    simp only [startNodes, hinit, List.length_singleton, if_true, hfreq, hwrap]
    by_cases h0 : b = 0
    · subst h0
      have : ¬ ((n : Int) = 0) := by omega
      simp [this]
    · have : ¬ (0 = b) := fun e => h0 e.symm
      simp [this, h0]
  obtain ⟨t, et, ht⟩ := buildTrie_spec hpq (countFreq (List.replicate n b)).1
    (by rw [hstart]; simp)
  rw [hstart] at ht
  have hm := ht.of_pair (by simp [Node.weight]; omega)
  simp only [mergeNodes, zero_add, hwrap, Option.some.injEq] at hm
  rw [et, ← hm]
  refine ⟨rfl, ?_⟩
  refine ⟨_, rfl, ?_⟩
  simp [Function.update]

/-- Witness of `single_symbol_trie`: the one-byte input "Z". -/
theorem single_symbol_trie_witness :
    listQueue.Lawful ∧ 90 < 256 ∧ 1 ≤ 1 ∧ 1 < 2 ^ 31 ∧
      (buildTrie listQueue (countFreq (List.replicate 1 90)).1
        = some (Node.mk 0 (1 : Nat) (Node.mk (if 90 = 0 then 1 else 0) 0 Node.null Node.null)
            (Node.mk 90 (1 : Nat) Node.null Node.null)) ∧
      ∃ huffman,
        buildCode (fun _ => [])
          (Node.mk 0 (1 : Nat) (Node.mk (if 90 = 0 then 1 else 0) 0 Node.null Node.null)
            (Node.mk 90 (1 : Nat) Node.null Node.null)) [] = some huffman ∧
        huffman 90 = ['1']) :=
  ⟨listQueue_lawful, by decide, by decide, by norm_num,
    single_symbol_trie listQueue listQueue_lawful 90 1 (by decide) (by decide) (by norm_num)⟩

/-- C4: for every lawful queue and every frequency table with a positive count, the
table `buildCode` computes from the tree of `buildTrie` gives every leaf symbol a
non-empty codeword, and the codeword of a leaf symbol is neither a prefix of nor equal
to the codeword of another leaf symbol. -/
theorem buildCode_prefix_free (pq : PriorityQueue) (hpq : pq.Lawful) (freq : Nat → Int)
    (hpos : ∃ i, i < 256 ∧ 0 < freq i) :
    ∃ root huffman, buildTrie pq freq = some root ∧
      buildCode (fun _ => []) root [] = some huffman ∧
      (∀ a ∈ root.leaves, huffman a ≠ []) ∧
      (∀ a ∈ root.leaves, ∀ b ∈ root.leaves, a ≠ b →
        ¬ huffman a <+: huffman b ∧ huffman a ≠ huffman b) := by
  obtain ⟨root, eroot, _, hfull, _, h2⟩ := buildTrie_shape hpq freq hpos
  obtain ⟨huffman, ecode, hmem, _⟩ := Node.buildCode_mem root (fun _ => []) [] hfull
  have hnp : ∀ a ∈ root.leaves, ∀ b ∈ root.leaves, a ≠ b → ¬ huffman a <+: huffman b := by
    intro a ha b hb hab hpre
    obtain ⟨p, hp, ep⟩ := hmem a ha
    obtain ⟨q, hq, eq⟩ := hmem b hb
    have := codeBits_prefix hpre
    rw [ep, eq, List.nil_append, List.nil_append, codeBits_pathChars, codeBits_pathChars] at this
    exact Node.codes_prefix_free root (a, p) (b, q) hp hq hab this
  refine ⟨root, huffman, eroot, ecode, ?_, ?_⟩
  · intro a ha
    obtain ⟨p, hp, ep⟩ := hmem a ha
    have hne := Node.codes_ne_nil_of_two_leaves root h2 (a, p) hp
    rw [ep]
    cases p with
    | nil => exact absurd rfl hne
    | cons x p => simp [pathChars]
  · intro a ha b hb hab
    refine ⟨hnp a ha b hb hab, fun e => hnp a ha b hb hab ?_⟩
    rw [e]

/-- Witness of `buildCode_prefix_free`: the table that counts the byte 90 once. -/
theorem buildCode_prefix_free_witness :
    listQueue.Lawful ∧ (∃ i, i < 256 ∧ 0 < (countFreq [90]).1 i) ∧
      ∃ root huffman, buildTrie listQueue (countFreq [90]).1 = some root ∧
        buildCode (fun _ => []) root [] = some huffman ∧
        (∀ a ∈ root.leaves, huffman a ≠ []) ∧
        (∀ a ∈ root.leaves, ∀ b ∈ root.leaves, a ≠ b →
          ¬ huffman a <+: huffman b ∧ huffman a ≠ huffman b) :=
  ⟨listQueue_lawful, ⟨90, by decide, by decide⟩,
    buildCode_prefix_free listQueue listQueue_lawful (countFreq [90]).1
      ⟨90, by decide, by decide⟩⟩

/-- C5: for every lawful queue and every frequency table with a positive count, the
tree `buildTrie` returns is full (every node has no child or two children) and has at
least two leaves. -/
theorem buildTrie_full (pq : PriorityQueue) (hpq : pq.Lawful) (freq : Nat → Int)
    (hpos : ∃ i, i < 256 ∧ 0 < freq i) :
    ∃ root, buildTrie pq freq = some root ∧ root.isFull = true ∧ 2 ≤ root.leaves.length := by
  obtain ⟨root, eroot, _, hfull, _, h2⟩ := buildTrie_shape hpq freq hpos
  exact ⟨root, eroot, hfull, h2⟩

/-- Witness of `buildTrie_full`: the table of the input "AAB". -/
theorem buildTrie_full_witness :
    listQueue.Lawful ∧ (∃ i, i < 256 ∧ 0 < (countFreq [65, 65, 66]).1 i) ∧
      ∃ root, buildTrie listQueue (countFreq [65, 65, 66]).1 = some root ∧
        root.isFull = true ∧ 2 ≤ root.leaves.length :=
  ⟨listQueue_lawful, ⟨65, by decide, by decide⟩,
    buildTrie_full listQueue listQueue_lawful (countFreq [65, 65, 66]).1
      ⟨65, by decide, by decide⟩⟩

/-- C6, evaluated at the trie with the leaf `A` (65) on the left and the leaf `B` (66)
on the right.  `writeTire` and `close` emit `50 68 40`; when the two
`readTire(fileReader)` arguments are evaluated right to left, `readTire` consumes
the same 19 bits but returns the mirrored trie, with `B` on the left and `A` on the
right, which is not leaf-isomorphic to the trie written. -/
theorem readTire_writeTire_mirrored :
    (writeTire (Node.mk 0 2 (Node.mk 65 1 Node.null Node.null)
        (Node.mk 66 1 Node.null Node.null)) BitWriter.new).map BitWriter.close
      = some [80, 104, 64] ∧
    readTire ArgOrder.rightToLeft 2 (BitReader.new [80, 104, 64])
      = some (Node.mk 0 (-1) (Node.mk 66 (-1) Node.null Node.null)
          (Node.mk 65 (-1) Node.null Node.null),
          { buffer := 64, n := 5, is := [], eof := false }) ∧
    (Node.mk 0 2 (Node.mk 65 1 Node.null Node.null)
        (Node.mk 66 1 Node.null Node.null)).leafIso
      (Node.mk 0 (-1) (Node.mk 66 (-1) Node.null Node.null)
        (Node.mk 65 (-1) Node.null Node.null)) = false := by
  decide

/-- C7: a sequence of `writeBit` and `writeByte` calls on a fresh writer, closed, and
read back from a fresh reader by the matching `readBit` and `readChar` calls returns
the written values in order. -/
theorem readBack_writes (ops : List WriteOp) (hb : ∀ x, WriteOp.byte x ∈ ops → x < 256) :
    readBack ops (BitReader.new (ops.foldl WriteOp.run BitWriter.new).close) = some ops := by
  obtain ⟨hinv, hbits⟩ := foldl_run_spec ops BitWriter.new BitWriter.inv_new hb
  obtain ⟨hlt, hclose⟩ := BitWriter.close_spec _ hinv
  have hrep := BitReader.rep_new _ hlt
  rw [hclose, hbits, BitWriter.bits_new, List.nil_append] at hrep
  exact readBack_spec ops _ _ hb hrep

/-- Witness of `readBack_writes`: a bit, a byte written bit by bit, a bit, six more
bits and a byte written on the aligned path. -/
theorem readBack_writes_witness :
    (∀ x, WriteOp.byte x ∈ [WriteOp.bit true, WriteOp.byte 200, WriteOp.bit false,
        WriteOp.bit true, WriteOp.bit true, WriteOp.bit false, WriteOp.bit false,
        WriteOp.bit true, WriteOp.bit false, WriteOp.byte 7] → x < 256) ∧
      readBack [WriteOp.bit true, WriteOp.byte 200, WriteOp.bit false,
        WriteOp.bit true, WriteOp.bit true, WriteOp.bit false, WriteOp.bit false,
        WriteOp.bit true, WriteOp.bit false, WriteOp.byte 7]
        (BitReader.new ([WriteOp.bit true, WriteOp.byte 200, WriteOp.bit false,
          WriteOp.bit true, WriteOp.bit true, WriteOp.bit false, WriteOp.bit false,
          WriteOp.bit true, WriteOp.bit false, WriteOp.byte 7].foldl
            WriteOp.run BitWriter.new).close)
        = some [WriteOp.bit true, WriteOp.byte 200, WriteOp.bit false,
          WriteOp.bit true, WriteOp.bit true, WriteOp.bit false, WriteOp.bit false,
          WriteOp.bit true, WriteOp.bit false, WriteOp.byte 7] :=
  ⟨by simp, readBack_writes _ (by simp)⟩

/-- C8: after any bits `pre`, `writeUnsigned x` for `x < 2 ^ 32` followed by `close`
is read back as `x` by `readUnsigned` once the bits `pre` have been read; and when
the number of bits before it is a multiple of 8, the four bytes emitted for `x` are
its bytes from the most significant to the least significant. -/
theorem readUnsigned_writeUnsigned (x : Nat) (hx : x < 2 ^ 32) (pre : List Bool) :
    (∃ r1 r2,
      readBits pre.length
        (BitReader.new ((pre.foldl BitWriter.writeBit BitWriter.new).writeUnsigned x).close)
        = some (pre, r1) ∧
      r1.readUnsigned = some (x, r2)) ∧
    (pre.length % 8 = 0 →
      (((pre.foldl BitWriter.writeBit BitWriter.new).writeUnsigned x).close).drop
          (pre.length / 8)
        = [x / 2 ^ 24 % 256, x / 2 ^ 16 % 256, x / 2 ^ 8 % 256, x % 256]) := by
  obtain ⟨i1, b1⟩ := BitWriter.foldl_writeBit_spec pre BitWriter.new BitWriter.inv_new
  obtain ⟨i2, b2⟩ := BitWriter.writeUnsigned_spec _ x i1
  obtain ⟨hlt, hclose⟩ := BitWriter.close_spec _ i2
  have hrep := BitReader.rep_new _ hlt
  rw [hclose, b2, b1, BitWriter.bits_new, List.nil_append, List.append_assoc] at hrep
  obtain ⟨r1, e1, h1⟩ := readBits_spec pre _ _ hrep
  obtain ⟨r2, e2, _⟩ := BitReader.readUnsigned_spec r1 x _ hx h1
  refine ⟨⟨r1, r2, e1, e2⟩, ?_⟩
  intro h8
  have hlen := BitWriter.length_bits (pre.foldl BitWriter.writeBit BitWriter.new)
  rw [b1, BitWriter.bits_new, List.nil_append] at hlen
  have hn : (pre.foldl BitWriter.writeBit BitWriter.new).n = 0 := by
    have := i1.1
    omega
  have hos : (pre.foldl BitWriter.writeBit BitWriter.new).os.length = pre.length / 8 := by
    omega
  rw [BitWriter.writeUnsigned_aligned _ x hn, ← hos, List.drop_left]

/-- Witness of `readUnsigned_writeUnsigned`: the value `2 ^ 31` after three bits. -/
theorem readUnsigned_writeUnsigned_witness :
    2 ^ 31 < 2 ^ 32 ∧
    ((∃ r1 r2,
      readBits [true, false, true].length
        (BitReader.new
          (([true, false, true].foldl BitWriter.writeBit BitWriter.new).writeUnsigned
            (2 ^ 31)).close)
        = some ([true, false, true], r1) ∧
      r1.readUnsigned = some (2 ^ 31, r2)) ∧
    ([true, false, true].length % 8 = 0 →
      ((([true, false, true].foldl BitWriter.writeBit BitWriter.new).writeUnsigned
          (2 ^ 31)).close).drop ([true, false, true].length / 8)
        = [2 ^ 31 / 2 ^ 24 % 256, 2 ^ 31 / 2 ^ 16 % 256, 2 ^ 31 / 2 ^ 8 % 256,
            2 ^ 31 % 256])) :=
  ⟨by norm_num, readUnsigned_writeUnsigned (2 ^ 31) (by norm_num) [true, false, true]⟩

/-- C9: for every lawful queue and every non-empty input of `N < 2 ^ 31` bytes, the
bits of the archive `compress` writes are the preorder serialization of the tree of
`buildTrie`, then `N` as 32 bits from the most significant, then the codewords of the
input bytes in input order, then fewer than eight zero bits; every element of the
archive is a byte. -/
theorem compress_layout (pq : PriorityQueue) (hpq : pq.Lawful) (input : List Nat)
    (hne : input ≠ []) (hlen : input.length < 2 ^ 31) (hbytes : ∀ b ∈ input, b < 256) :
    ∃ root huffman archive k,
      buildTrie pq (countFreq input).1 = some root ∧
      buildCode (fun _ => []) root [] = some huffman ∧
      compress pq input = some archive ∧ k < 8 ∧ (∀ b ∈ archive, b < 256) ∧
      bytesToBits archive = root.serialize ++ bitsOfNat 32 input.length
        ++ input.flatMap (fun b => codeBits (huffman b)) ++ List.replicate k false := by
  obtain ⟨root, huffman, archive, k, h1, _, _, _, h2, h3, h4, h5, h6⟩ :=
    compress_spec hpq input hne hlen hbytes
  exact ⟨root, huffman, archive, k, h1, h2, h3, h4, h5, h6⟩

/-- Witness of `compress_layout`: the input "AAB". -/
theorem compress_layout_witness :
    listQueue.Lawful ∧ [65, 65, 66] ≠ [] ∧ [65, 65, 66].length < 2 ^ 31 ∧
      (∀ b ∈ [65, 65, 66], b < 256) ∧
      ∃ root huffman archive k,
        buildTrie listQueue (countFreq [65, 65, 66]).1 = some root ∧
        buildCode (fun _ => []) root [] = some huffman ∧
        compress listQueue [65, 65, 66] = some archive ∧ k < 8 ∧ (∀ b ∈ archive, b < 256) ∧
        bytesToBits archive = root.serialize ++ bitsOfNat 32 [65, 65, 66].length
          ++ [65, 65, 66].flatMap (fun b => codeBits (huffman b))
          ++ List.replicate k false :=
  ⟨listQueue_lawful, by decide, by simp, by decide,
    compress_layout listQueue listQueue_lawful [65, 65, 66] (by decide) (by simp)
      (by decide)⟩

/-- C10 as stated fails: for the table with the count `2 ^ 30` for each of the symbols
0, 1, 2 and 3 the first sum wraps to `-2 ^ 31`, the merged node is taken out again at
once, and `buildTrie` returns a tree with leaf depths 3, 3, 2, 1, whose weighted path
length is larger than that of the balanced tree with the same four leaves. -/
theorem buildTrie_not_optimal_overflow :
    buildTrie listQueue overflowTable
      = some (Node.mk 0 0
          (Node.mk 0 (-1073741824)
            (Node.mk 0 (-2147483648) (Node.mk 0 1073741824 Node.null Node.null)
              (Node.mk 1 1073741824 Node.null Node.null))
            (Node.mk 2 1073741824 Node.null Node.null))
          (Node.mk 3 1073741824 Node.null Node.null)) ∧
    (Node.mk 0 0
      (Node.mk 0 0 (Node.mk 0 0 Node.null Node.null) (Node.mk 1 0 Node.null Node.null))
      (Node.mk 0 0 (Node.mk 2 0 Node.null Node.null)
        (Node.mk 3 0 Node.null Node.null))).isFull = true ∧
    (Node.mk 0 0
      (Node.mk 0 0 (Node.mk 0 0 Node.null Node.null) (Node.mk 1 0 Node.null Node.null))
      (Node.mk 0 0 (Node.mk 2 0 Node.null Node.null)
        (Node.mk 3 0 Node.null Node.null))).leaves
      = (Node.mk 0 0
          (Node.mk 0 (-1073741824)
            (Node.mk 0 (-2147483648) (Node.mk 0 1073741824 Node.null Node.null)
              (Node.mk 1 1073741824 Node.null Node.null))
            (Node.mk 2 1073741824 Node.null Node.null))
          (Node.mk 3 1073741824 Node.null Node.null)).leaves ∧
    (Node.mk 0 0
      (Node.mk 0 0 (Node.mk 0 0 Node.null Node.null) (Node.mk 1 0 Node.null Node.null))
      (Node.mk 0 0 (Node.mk 2 0 Node.null Node.null)
        (Node.mk 3 0 Node.null Node.null))).wpl overflowTable
      < (Node.mk 0 0
          (Node.mk 0 (-1073741824)
            (Node.mk 0 (-2147483648) (Node.mk 0 1073741824 Node.null Node.null)
              (Node.mk 1 1073741824 Node.null Node.null))
            (Node.mk 2 1073741824 Node.null Node.null))
          (Node.mk 3 1073741824 Node.null Node.null)).wpl overflowTable := by
  decide

/-- C10, amended: for every lawful queue, whichever node it serves among those of least
weight, and every frequency table with at least two positive counts whose positive
counts sum to less than `2 ^ 31`, the weighted path length of the tree of `buildTrie`
is at most that of every full binary tree with the same leaf symbols. -/
theorem buildTrie_optimal (pq : PriorityQueue) (hpq : pq.Lawful) (freq : Nat → Int)
    (h2 : ∃ i j, i < 256 ∧ j < 256 ∧ i ≠ j ∧ 0 < freq i ∧ 0 < freq j)
    (hsum : positiveTotal freq < 2 ^ 31) :
    ∃ t, buildTrie pq freq = some t ∧
      ∀ u : Node, u.isFull = true → u.leaves.Perm t.leaves → t.wpl freq ≤ u.wpl freq :=
  buildTrie_optimal_of_bounded hpq freq h2 hsum

/-- Witness of `buildTrie_optimal`: the table of the input "AAB". -/
theorem buildTrie_optimal_witness :
    listQueue.Lawful ∧
    (∃ i j, i < 256 ∧ j < 256 ∧ i ≠ j ∧
      0 < (countFreq [65, 65, 66]).1 i ∧ 0 < (countFreq [65, 65, 66]).1 j) ∧
    positiveTotal (countFreq [65, 65, 66]).1 < 2 ^ 31 ∧
    ∃ t, buildTrie listQueue (countFreq [65, 65, 66]).1 = some t ∧
      ∀ u : Node, u.isFull = true → u.leaves.Perm t.leaves →
        t.wpl (countFreq [65, 65, 66]).1 ≤ u.wpl (countFreq [65, 65, 66]).1 :=
  ⟨listQueue_lawful, ⟨65, 66, by decide, by decide, by decide, by decide, by decide⟩,
    by decide,
    buildTrie_optimal listQueue listQueue_lawful (countFreq [65, 65, 66]).1
      ⟨65, 66, by decide, by decide, by decide, by decide, by decide⟩ (by decide)⟩

end Huffman
namespace Huffman

/-! ## Claims, continued -/

set_option maxRecDepth 100000

/-- C11, evaluated at the input "AAAAABBBCCD".  `compress` gives the codewords of A, B,
C and D the lengths 1, 2, 3 and 3 and writes a 12-byte archive: 39 bits of trie, 32 bits
of length, 20 bits of codewords and 5 bits of padding, which is fewer than 88 bits plus
the 39 of the trie.  With the two `readTire(fileReader)` arguments evaluated left to
right `deCompress` returns the input; with the arguments evaluated right to left it
returns the eleven bytes "CDBBBAAAAAA". -/
theorem deCompress_compress_scenario :
    compress listQueue [65, 65, 65, 65, 65, 66, 66, 66, 67, 67, 68]
      = some [80, 84, 37, 18, 134, 0, 0, 0, 22, 10, 191, 192] ∧
    (buildTrie listQueue (countFreq [65, 65, 65, 65, 65, 66, 66, 66, 67, 67, 68]).1).map
        Node.codes
      = some [(65, [false]), (66, [true, false]), (68, [true, true, false]),
          (67, [true, true, true])] ∧
    ((buildTrie listQueue (countFreq [65, 65, 65, 65, 65, 66, 66, 66, 67, 67, 68]).1).map
        fun t => t.serialize.length) = some 39 ∧
    8 * [80, 84, 37, 18, 134, 0, 0, 0, 22, 10, 191, 192].length < 88 + 39 ∧
    deCompress ArgOrder.leftToRight [80, 84, 37, 18, 134, 0, 0, 0, 22, 10, 191, 192]
      = some [65, 65, 65, 65, 65, 66, 66, 66, 67, 67, 68] ∧
    deCompress ArgOrder.rightToLeft [80, 84, 37, 18, 134, 0, 0, 0, 22, 10, 191, 192]
      = some [67, 68, 66, 66, 66, 65, 65, 65, 65, 65, 65] := by
  decide

/-- C12, evaluated at the one-byte source `00`.  After the eight bits of the source have
been read the reader is not exhausted: the request for a further byte has failed, the
buffer still holds the byte `00` and `n` is 8 again.  The next `readBit` returns
`false` and the next `readChar` returns `00`, not the all-ones filler.  Only a fill
after that makes the buffer all ones with `n = -1`, and in that state both `readBit`
and `readChar` shift by a negative count, which has no defined result. -/
theorem reads_past_end_of_source :
    readBits 8 (BitReader.new [0])
      = some ([false, false, false, false, false, false, false, false],
          { buffer := 0, n := 8, is := [], eof := true }) ∧
    BitReader.readBit { buffer := 0, n := 8, is := [], eof := true }
      = some (false, { buffer := 0, n := 7, is := [], eof := true }) ∧
    BitReader.readChar { buffer := 0, n := 8, is := [], eof := true }
      = some (0, { buffer := 255, n := -1, is := [], eof := true }) ∧
    BitReader.readBit { buffer := 255, n := -1, is := [], eof := true } = none ∧
    BitReader.readChar { buffer := 255, n := -1, is := [], eof := true } = none := by
  decide

/-- C17, evaluated at the 17-byte input of fifteen `A` followed by `B` and `C`, with the
two `readTire(fileReader)` arguments evaluated right to left.  The codeword of `A` is
the single bit 1; in the mirrored trie that `readTire` returns, the first descent reads
two bits and ends at the leaf of `B`; and the seventeen descents need more bits than
the archive holds, so that a `readBit` is issued in the exhausted state of the reader
and `deCompress` has no defined result. -/
theorem deCompress_runs_past_archive :
    compress listQueue [65, 65, 65, 65, 65, 65, 65, 65, 65, 65, 65, 65, 65, 65, 65, 66, 67]
      = some [40, 84, 58, 8, 0, 0, 0, 143, 255, 241] ∧
    (buildTrie listQueue
        (countFreq [65, 65, 65, 65, 65, 65, 65, 65, 65, 65, 65, 65, 65, 65, 65, 66, 67]).1).map
        Node.codes
      = some [(66, [false, false]), (67, [false, true]), (65, [true])] ∧
    ((readTire ArgOrder.rightToLeft 96
        (BitReader.new [40, 84, 58, 8, 0, 0, 0, 143, 255, 241])).bind fun p =>
      p.2.readUnsigned.bind fun q =>
      (decodeSymbol p.1 q.2).map fun s => (p.1, q.1, q.2.n, s.1, s.2.n))
      = some (Node.mk 0 (-1) (Node.mk 65 (-1) Node.null Node.null)
            (Node.mk 0 (-1) (Node.mk 67 (-1) Node.null Node.null)
              (Node.mk 66 (-1) Node.null Node.null)),
          17, 3, 66, 1) ∧
    deCompress ArgOrder.rightToLeft [40, 84, 58, 8, 0, 0, 0, 143, 255, 241] = none := by
  decide

/-- C14: for every lawful queue and every frequency table with at least two positive
counts, the leaves of the tree of `buildTrie` carry the symbols with a positive count,
each once; the table of `buildCode` holds for each of them the path to its leaf, `0` for
a left edge and `1` for a right edge; and the entry of every other symbol stays empty. -/
theorem buildCode_paths (pq : PriorityQueue) (hpq : pq.Lawful) (freq : Nat → Int)
    (h2 : ∃ i j, i < 256 ∧ j < 256 ∧ i ≠ j ∧ 0 < freq i ∧ 0 < freq j) :
    ∃ root huffman, buildTrie pq freq = some root ∧
      root.leaves.Perm ((List.range R).filter fun i => decide (freq i > 0)) ∧
      root.leaves.Nodup ∧
      buildCode (fun _ => []) root [] = some huffman ∧
      (∀ p ∈ root.codes, huffman p.1 = pathChars p.2) ∧
      (∀ c, c ∉ root.leaves → huffman c = []) := by
  have hpos : ∃ i, i < 256 ∧ 0 < freq i := by
    obtain ⟨i, _, hi, _, _, hfi, _⟩ := h2
    exact ⟨i, hi, hfi⟩
  obtain ⟨root, eroot, _, hfull, hperm, _⟩ := buildTrie_shape hpq freq hpos
  rw [startNodes_of_two freq h2, initialLeaves_leaves] at hperm
  have hnd : root.leaves.Nodup := hperm.nodup_iff.2 ((List.nodup_range R).filter _)
  obtain ⟨huffman, ecode, hcodes, hother⟩ :=
    Node.buildCode_spec root (fun _ => []) [] hfull hnd
  exact ⟨root, huffman, eroot, hperm, hnd, ecode, by simpa using hcodes, hother⟩

/-- Witness of `buildCode_paths`: the table of the input "AAB". -/
theorem buildCode_paths_witness :
    listQueue.Lawful ∧
    (∃ i j, i < 256 ∧ j < 256 ∧ i ≠ j ∧
      0 < (countFreq [65, 65, 66]).1 i ∧ 0 < (countFreq [65, 65, 66]).1 j) ∧
    ∃ root huffman, buildTrie listQueue (countFreq [65, 65, 66]).1 = some root ∧
      root.leaves.Perm
        ((List.range R).filter fun i => decide ((countFreq [65, 65, 66]).1 i > 0)) ∧
      root.leaves.Nodup ∧
      buildCode (fun _ => []) root [] = some huffman ∧
      (∀ p ∈ root.codes, huffman p.1 = pathChars p.2) ∧
      (∀ c, c ∉ root.leaves → huffman c = []) :=
  ⟨listQueue_lawful, ⟨65, 66, by decide, by decide, by decide, by decide, by decide⟩,
    buildCode_paths listQueue listQueue_lawful (countFreq [65, 65, 66]).1
      ⟨65, 66, by decide, by decide, by decide, by decide, by decide⟩⟩

/-- C18: for every lawful queue and every frequency table with a positive count, the
tree of `buildTrie` has at most 256 leaves and height at most 255, so that a call of
`buildCode` or `writeTire` on it nests at most 256 deep; both return a result, and the
codeword of every leaf symbol has between 1 and 255 characters. -/
theorem buildTrie_bounded (pq : PriorityQueue) (hpq : pq.Lawful) (freq : Nat → Int)
    (hpos : ∃ i, i < 256 ∧ 0 < freq i) :
    ∃ root huffman w, buildTrie pq freq = some root ∧
      root.leaves.length ≤ 256 ∧ root.height ≤ 255 ∧ root.height + 1 ≤ 256 ∧
      (∀ p ∈ root.codes, 1 ≤ p.2.length ∧ p.2.length ≤ 255) ∧
      buildCode (fun _ => []) root [] = some huffman ∧
      (∀ a ∈ root.leaves, 1 ≤ (huffman a).length ∧ (huffman a).length ≤ 255) ∧
      writeTire root BitWriter.new = some w := by
  obtain ⟨root, eroot, _, hfull, hperm, h2⟩ := buildTrie_shape hpq freq hpos
  have hlen : root.leaves.length ≤ 256 := by
    rw [hperm.length_eq, startNodes_leaves_length]
    exact startNodes_length_le freq
  have hheight := Node.height_lt_leaves root hfull
  have hcodes : ∀ p ∈ root.codes, 1 ≤ p.2.length ∧ p.2.length ≤ 255 := by
    intro p hp
    have h1 := Node.code_length_le_height root p hp
    have h3 := Node.codes_ne_nil_of_two_leaves root h2 p hp
    have h4 : 0 < p.2.length := List.length_pos.2 h3
    omega
  obtain ⟨huffman, ecode, hmem, _⟩ := Node.buildCode_mem root (fun _ => []) [] hfull
  have hsym : ∀ c ∈ root.leaves, c < 256 :=
    fun c hc => startNodes_leaves_lt _ c (hperm.subset hc)
  obtain ⟨w, ew, _, _⟩ := Node.writeTire_spec root BitWriter.new hfull hsym BitWriter.inv_new
  refine ⟨root, huffman, w, eroot, hlen, by omega, by omega, hcodes, ecode, ?_, ew⟩
  intro a ha
  obtain ⟨p, hp, ep⟩ := hmem a ha
  have := hcodes (a, p) hp
  rw [ep]
  simpa [pathChars] using this

/-- Witness of `buildTrie_bounded`: the table of the input "AAB". -/
theorem buildTrie_bounded_witness :
    listQueue.Lawful ∧ (∃ i, i < 256 ∧ 0 < (countFreq [65, 65, 66]).1 i) ∧
    ∃ root huffman w, buildTrie listQueue (countFreq [65, 65, 66]).1 = some root ∧
      root.leaves.length ≤ 256 ∧ root.height ≤ 255 ∧ root.height + 1 ≤ 256 ∧
      (∀ p ∈ root.codes, 1 ≤ p.2.length ∧ p.2.length ≤ 255) ∧
      buildCode (fun _ => []) root [] = some huffman ∧
      (∀ a ∈ root.leaves, 1 ≤ (huffman a).length ∧ (huffman a).length ≤ 255) ∧
      writeTire root BitWriter.new = some w :=
  ⟨listQueue_lawful, ⟨65, by decide, by decide⟩,
    buildTrie_bounded listQueue listQueue_lawful (countFreq [65, 65, 66]).1
      ⟨65, by decide, by decide⟩⟩

/-- C20: for every full trie with `L` leaves, `writeTire` on a fresh writer writes
`10 * L - 1` bits, which is not a multiple of 8.  Hence `writeUnsigned` finds pending
bits and each of its four `writeByte` calls is the eight `writeBit` calls of the slow
path; and in an archive that goes on with the length and any further bits, `readTire`,
in whichever order its two reads are made, leaves the reader inside a byte, so that each
of the four `readChar` calls of `readUnsigned` starts with `n` different from 8. -/
theorem writeTire_bit_count (t : Node) (hf : t.isFull = true)
    (hs : ∀ c ∈ t.leaves, c < 256) (x : Nat) (extra : List Bool) (ord : ArgOrder) :
    ∃ w, writeTire t BitWriter.new = some w ∧
      w.bits.length + 1 = 10 * t.leaves.length ∧
      (10 * t.leaves.length - 1) % 8 ≠ 0 ∧
      w.n ≠ 0 ∧
      w.writeUnsigned x
        = writeByteBits (writeByteBits (writeByteBits (writeByteBits w ((x >>> 24) &&& 0xff))
            ((x >>> 16) &&& 0xff)) ((x >>> 8) &&& 0xff)) ((x >>> 0) &&& 0xff) ∧
      ∃ t1 r0 c1 r1 c2 r2 c3 r3 c4 r4,
        readTire ord (8 * (extra.foldl BitWriter.writeBit (w.writeUnsigned x)).close.length + 16)
            (BitReader.new (extra.foldl BitWriter.writeBit (w.writeUnsigned x)).close)
          = some (t1, r0) ∧
        r0.n ≠ 8 ∧ r0.readChar = some (c1, r1) ∧
        r1.n ≠ 8 ∧ r1.readChar = some (c2, r2) ∧
        r2.n ≠ 8 ∧ r2.readChar = some (c3, r3) ∧
        r3.n ≠ 8 ∧ r3.readChar = some (c4, r4) := by
  obtain ⟨w, ew, iw, bw⟩ := Node.writeTire_spec t BitWriter.new hf hs BitWriter.inv_new
  rw [BitWriter.bits_new, List.nil_append] at bw
  have hser := Node.length_serialize t hf
  have hL := Node.leaves_length_pos t hf
  have hodd : (10 * t.leaves.length - 1) % 8 ≠ 0 := by omega
  have hn : w.n ≠ 0 := by
    rw [BitWriter.n_eq_of_bits w iw, bw]
    omega
  -- the four bytes of the length
  have e255 : ∀ y : Nat, y &&& 0xff = y % 256 := BitWriter.and_255
  have hb : ∀ y : Nat, y &&& 0xff < 256 := fun y => by rw [e255]; exact Nat.mod_lt _ (by norm_num)
  obtain ⟨i1, _⟩ := BitWriter.writeByte_spec w _ iw (hb (x >>> 24))
  have n1 := BitWriter.writeByte_n w _ iw (hb (x >>> 24))
  obtain ⟨i2, _⟩ := BitWriter.writeByte_spec _ _ i1 (hb (x >>> 16))
  have n2 := BitWriter.writeByte_n _ _ i1 (hb (x >>> 16))
  obtain ⟨i3, _⟩ := BitWriter.writeByte_spec _ _ i2 (hb (x >>> 8))
  have n3 := BitWriter.writeByte_n _ _ i2 (hb (x >>> 8))
  have hwu : w.writeUnsigned x
      = writeByteBits (writeByteBits (writeByteBits (writeByteBits w ((x >>> 24) &&& 0xff))
          ((x >>> 16) &&& 0xff)) ((x >>> 8) &&& 0xff)) ((x >>> 0) &&& 0xff) := by
    have u1 := BitWriter.writeByte_unaligned w ((x >>> 24) &&& 0xff) hn
    have u2 := BitWriter.writeByte_unaligned _ ((x >>> 16) &&& 0xff) (by rw [n1]; exact hn)
    have u3 := BitWriter.writeByte_unaligned _ ((x >>> 8) &&& 0xff)
      (by rw [n2, n1]; exact hn)
    have u4 := BitWriter.writeByte_unaligned _ ((x >>> 0) &&& 0xff)
      (by rw [n3, n2, n1]; exact hn)
    unfold BitWriter.writeUnsigned
    simp only []
    rw [u4, u3, u2, u1]
  refine ⟨w, ew, by rw [bw]; exact hser, hodd, hn, hwu, ?_⟩
  -- the archive and its bits
  obtain ⟨iu, bu⟩ := BitWriter.writeUnsigned_spec w x iw
  obtain ⟨ie, be⟩ := BitWriter.foldl_writeBit_spec extra (w.writeUnsigned x) iu
  obtain ⟨hlt, hclose⟩ := BitWriter.close_spec _ ie
  have hrep := BitReader.rep_new _ hlt
  have htotal := length_bytesToBits (extra.foldl BitWriter.writeBit (w.writeUnsigned x)).close
  rw [hclose, be, bu, bw] at hrep htotal
  simp only [List.append_assoc] at hrep
  simp only [List.length_append, length_bitsOfNat, List.length_replicate] at htotal
  have hfuel : t.serialize.length
      ≤ 8 * (extra.foldl BitWriter.writeBit (w.writeUnsigned x)).close.length + 16 := by omega
  obtain ⟨r0, e0, h0⟩ := Node.readTire_spec_ord ord t _ _ _ hf hs hfuel hrep
  rw [BitWriter.bitsOfNat_32] at h0
  simp only [List.append_assoc] at h0
  have hm0 := h0.n_mod (by
    intro h
    have := congrArg List.length h
    simp [length_bitsOfNat] at this)
  simp only [List.length_append, length_bitsOfNat, List.length_replicate] at hm0
  have hr0 : r0.n ≠ 8 := by
    intro h8
    rw [h8] at hm0
    have := hm0.2.2
    simp at this
    omega
  have hmod : ∀ y : Nat, bitsOfNat 8 y = bitsOfNat 8 (y % 2 ^ 8) := fun y => (bitsOfNat_mod 8 y).symm
  have hlt8 : ∀ y : Nat, y % 2 ^ 8 < 256 := fun y => Nat.mod_lt _ (by norm_num)
  rw [hmod (x / 2 ^ 24)] at h0
  obtain ⟨r1, e1, h1⟩ := BitReader.readChar_spec r0 _ _ (hlt8 _) h0
  have hr1 : r1.n ≠ 8 := by rw [BitReader.readChar_n r0 r1 _ hr0 e1]; exact hr0
  rw [hmod (x / 2 ^ 16)] at h1
  obtain ⟨r2, e2, h2⟩ := BitReader.readChar_spec r1 _ _ (hlt8 _) h1
  have hr2 : r2.n ≠ 8 := by rw [BitReader.readChar_n r1 r2 _ hr1 e2]; exact hr1
  rw [hmod (x / 2 ^ 8)] at h2
  obtain ⟨r3, e3, h3⟩ := BitReader.readChar_spec r2 _ _ (hlt8 _) h2
  have hr3 : r3.n ≠ 8 := by rw [BitReader.readChar_n r2 r3 _ hr2 e3]; exact hr2
  rw [hmod (x / 2 ^ 0)] at h3
  obtain ⟨r4, e4, _⟩ := BitReader.readChar_spec r3 _ _ (hlt8 _) h3
  exact ⟨_, r0, _, r1, _, r2, _, r3, _, r4, e0, hr0, e1, hr1, e2, hr2, e3, hr3, e4⟩

/-- Witness of `writeTire_bit_count`: the trie with the leaves `A` and `B`, the length
3 and one further bit. -/
theorem writeTire_bit_count_witness :
    (Node.mk 0 2 (Node.mk 65 1 Node.null Node.null)
      (Node.mk 66 1 Node.null Node.null)).isFull = true ∧
    (∀ c ∈ (Node.mk 0 2 (Node.mk 65 1 Node.null Node.null)
      (Node.mk 66 1 Node.null Node.null)).leaves, c < 256) ∧
    ∃ w, writeTire (Node.mk 0 2 (Node.mk 65 1 Node.null Node.null)
        (Node.mk 66 1 Node.null Node.null)) BitWriter.new = some w ∧
      w.bits.length + 1 = 10 * (Node.mk 0 2 (Node.mk 65 1 Node.null Node.null)
        (Node.mk 66 1 Node.null Node.null)).leaves.length ∧
      (10 * (Node.mk 0 2 (Node.mk 65 1 Node.null Node.null)
        (Node.mk 66 1 Node.null Node.null)).leaves.length - 1) % 8 ≠ 0 ∧
      w.n ≠ 0 ∧
      w.writeUnsigned 3
        = writeByteBits (writeByteBits (writeByteBits (writeByteBits w ((3 >>> 24) &&& 0xff))
            ((3 >>> 16) &&& 0xff)) ((3 >>> 8) &&& 0xff)) ((3 >>> 0) &&& 0xff) ∧
      ∃ t1 r0 c1 r1 c2 r2 c3 r3 c4 r4,
        readTire ArgOrder.leftToRight
            (8 * ([true].foldl BitWriter.writeBit (w.writeUnsigned 3)).close.length + 16)
            (BitReader.new ([true].foldl BitWriter.writeBit (w.writeUnsigned 3)).close)
          = some (t1, r0) ∧
        r0.n ≠ 8 ∧ r0.readChar = some (c1, r1) ∧
        r1.n ≠ 8 ∧ r1.readChar = some (c2, r2) ∧
        r2.n ≠ 8 ∧ r2.readChar = some (c3, r3) ∧
        r3.n ≠ 8 ∧ r3.readChar = some (c4, r4) :=
  ⟨by decide, by decide,
    writeTire_bit_count _ (by decide) (by decide) 3 [true] ArgOrder.leftToRight⟩

/-- C15: for every sequence of `writeBit` and `writeByte` calls on a fresh writer, the
file `close` returns is the packing, most significant bit first and filled up with zero
bits, of the bits written, where `writeByte x` stands for the bits 7 down to 0 of `x`.
On the aligned path `writeByte` leaves the writer as the eight `writeBit` calls of the
slow path would, and `close` adds no byte when no bit is pending. -/
theorem close_packs_writes (ops : List WriteOp) (hb : ∀ x, WriteOp.byte x ∈ ops → x < 256) :
    (ops.foldl WriteOp.run BitWriter.new).close = packBits (ops.flatMap WriteOp.toBits) ∧
    bytesToBits (ops.foldl WriteOp.run BitWriter.new).close
      = ops.flatMap WriteOp.toBits
        ++ List.replicate ((8 - (ops.flatMap WriteOp.toBits).length % 8) % 8) false ∧
    (∀ x, WriteOp.toBits (WriteOp.byte x) = (List.range 8).map fun i => x.testBit (7 - i)) ∧
    (∀ (w : BitWriter) (x : Nat), w.Inv → w.n = 0 → x < 256 →
      w.writeByte x = writeByteBits w x) ∧
    (∀ w : BitWriter, w.n = 0 → w.close = w.os) := by
  obtain ⟨hinv, hbits⟩ := foldl_run_spec ops BitWriter.new BitWriter.inv_new hb
  rw [BitWriter.bits_new, List.nil_append] at hbits
  refine ⟨?_, ?_, ?_, ?_, ?_⟩
  · rw [BitWriter.close_eq_packBits _ hinv, hbits]
  · rw [(BitWriter.close_spec _ hinv).2, BitWriter.n_eq_of_bits _ hinv, hbits]
  · intro x
    have hr : List.range 8 = [0, 1, 2, 3, 4, 5, 6, 7] := by decide
    simp only [WriteOp.toBits, hr, List.map_cons, List.map_nil, bitsOfNat,
      Nat.testBit_to_div_mod, List.nil_append, List.cons_append, List.singleton_append,
      Nat.div_div_eq_div_mul]
    norm_num
  · intro w x hw h0 hx
    exact BitWriter.writeByte_eq_bits w x hw h0 hx
  · intro w h0
    simp [BitWriter.close, BitWriter.clearBuffer, h0]

/-- Witness of `close_packs_writes`: a bit, a byte on the slow path, seven bits and a
byte on the aligned path. -/
theorem close_packs_writes_witness :
    (∀ x, WriteOp.byte x ∈ [WriteOp.bit true, WriteOp.byte 200, WriteOp.bit false,
        WriteOp.bit true, WriteOp.bit true, WriteOp.bit false, WriteOp.bit false,
        WriteOp.bit true, WriteOp.bit false, WriteOp.byte 7] → x < 256) ∧
    (([WriteOp.bit true, WriteOp.byte 200, WriteOp.bit false,
        WriteOp.bit true, WriteOp.bit true, WriteOp.bit false, WriteOp.bit false,
        WriteOp.bit true, WriteOp.bit false, WriteOp.byte 7].foldl
          WriteOp.run BitWriter.new).close
      = packBits ([WriteOp.bit true, WriteOp.byte 200, WriteOp.bit false,
        WriteOp.bit true, WriteOp.bit true, WriteOp.bit false, WriteOp.bit false,
        WriteOp.bit true, WriteOp.bit false, WriteOp.byte 7].flatMap WriteOp.toBits) ∧
    bytesToBits ([WriteOp.bit true, WriteOp.byte 200, WriteOp.bit false,
        WriteOp.bit true, WriteOp.bit true, WriteOp.bit false, WriteOp.bit false,
        WriteOp.bit true, WriteOp.bit false, WriteOp.byte 7].foldl
          WriteOp.run BitWriter.new).close
      = [WriteOp.bit true, WriteOp.byte 200, WriteOp.bit false,
        WriteOp.bit true, WriteOp.bit true, WriteOp.bit false, WriteOp.bit false,
        WriteOp.bit true, WriteOp.bit false, WriteOp.byte 7].flatMap WriteOp.toBits
        ++ List.replicate ((8 - ([WriteOp.bit true, WriteOp.byte 200, WriteOp.bit false,
        WriteOp.bit true, WriteOp.bit true, WriteOp.bit false, WriteOp.bit false,
        WriteOp.bit true, WriteOp.bit false,
        WriteOp.byte 7].flatMap WriteOp.toBits).length % 8) % 8) false ∧
    (∀ x, WriteOp.toBits (WriteOp.byte x) = (List.range 8).map fun i => x.testBit (7 - i)) ∧
    (∀ (w : BitWriter) (x : Nat), w.Inv → w.n = 0 → x < 256 →
      w.writeByte x = writeByteBits w x) ∧
    (∀ w : BitWriter, w.n = 0 → w.close = w.os)) :=
  ⟨by simp, close_packs_writes _ (by simp)⟩

/-- C16: for every reader state that holds real source bits (the end-of-file flag is
down, between one and eight bits of the buffered byte are unconsumed, every byte is below
256) with at least eight unread bits left in the buffer and the stream together, eight
successive `readBit` calls return bits `bs` and a final state `r1`, and `readChar`
returns the byte `natOfBits bs` (the bits read most significant first) together with the
very same state `r1`: buffer, unconsumed-bit count, stream and flag.  The statement
covers the aligned path (`n = 8`) and the unaligned path (`n < 8`) alike. -/
theorem readChar_matches_readBits (r : BitReader) (he : r.eof = false) (h1 : 1 ≤ r.n)
    (h8 : r.n ≤ 8) (hb : r.buffer < 256) (his : ∀ b ∈ r.is, b < 256)
    (hlen : 8 ≤ r.n.toNat + 8 * r.is.length) :
    ∃ bs r1, bs.length = 8 ∧ readBits 8 r = some (bs, r1) ∧
      r.readChar = some (natOfBits bs, r1) := by
  obtain ⟨bs, r1, e1, e2⟩ := readChar_eq_readBits_state r he h1 h8 hb his hlen
  refine ⟨bs, r1, ?_, e1, e2⟩
  have hrep : r.Rep (bitsOfNat r.n.toNat r.buffer ++ bytesToBits r.is) :=
    Or.inr ⟨he, h1, h8, hb, his, rfl⟩
  have hl : 8 ≤ (bitsOfNat r.n.toNat r.buffer ++ bytesToBits r.is).length := by
    rw [List.length_append, length_bitsOfNat, length_bytesToBits]; exact hlen
  have hsplit := List.take_append_drop 8 (bitsOfNat r.n.toNat r.buffer ++ bytesToBits r.is)
  rw [← hsplit] at hrep
  obtain ⟨ra, ea, _⟩ := readBits_spec _ _ r hrep
  rw [List.length_take, Nat.min_eq_left hl, e1] at ea
  simp only [Option.some.injEq, Prod.mk.injEq] at ea
  rw [ea.1, List.length_take, Nat.min_eq_left hl]

/-- Witness of `readChar_matches_readBits`: five bits of the byte 200 are unconsumed and
the byte 7 is still in the stream (the unaligned path). -/
theorem readChar_matches_readBits_witness :
    ∃ bs r1, bs.length = 8 ∧
      readBits 8 { buffer := 200, n := 5, is := [7], eof := false } = some (bs, r1) ∧
      BitReader.readChar { buffer := 200, n := 5, is := [7], eof := false }
        = some (natOfBits bs, r1) :=
  readChar_matches_readBits { buffer := 200, n := 5, is := [7], eof := false } rfl
    (by decide) (by decide) (by decide) (by simp) (by decide)

/-- C13 as stated fails: the input of `2 ^ 31` copies of the byte 90 has a length that
fits in 32 unsigned bits, and the recorded length is `2 ^ 31`, but the `int` counter of
the byte has wrapped to `-2 ^ 31` while the byte occurs `2 ^ 31` times; no leaf is pushed
and `compress` writes no archive. -/
theorem count_wraps_at_int_limit :
    (List.replicate (2 ^ 31) 90).length ≤ 2 ^ 32 - 1 ∧
    (countFreq (List.replicate (2 ^ 31) 90)).2 = 2 ^ 31 ∧
    (List.replicate (2 ^ 31) 90).count 90 = 2 ^ 31 ∧
    (countFreq (List.replicate (2 ^ 31) 90)).1 90 = -2 ^ 31 ∧
    compress listQueue (List.replicate (2 ^ 31) 90) = none := by
  have hw : wrapInt ((2 ^ 31 : Nat) : Int) = -2 ^ 31 := by
    simp only [wrapInt]; norm_num
  refine ⟨?_, ?_, ?_, ?_, ?_⟩
  · rw [List.length_replicate]; norm_num
  · rw [(countFreq_replicate (2 ^ 31) 90).2]; norm_num
  · exact List.count_replicate_self 90 (2 ^ 31)
  · rw [(countFreq_replicate (2 ^ 31) 90).1 90, if_pos rfl]; exact hw
  · exact (replicate_overflow listQueue (2 ^ 31) 90 (by rw [hw]; norm_num)).2

/-- C13, amended: for every lawful queue and every input of `N` bytes with
`0 < N < 2 ^ 31`, the recorded length is `N`, every count is the number of occurrences
of its byte, `buildTrie` returns a tree in which every internal node weighs exactly the
sum of its two children and the root weighs `N`, and the second pass runs over all `N`
bytes, so that the archive holds the trie, the length and the `N` codewords in input
order. -/
theorem compress_exact (pq : PriorityQueue) (hpq : pq.Lawful) (input : List Nat)
    (hne : input ≠ []) (hlen : input.length < 2 ^ 31) (hbytes : ∀ b ∈ input, b < 256) :
    (countFreq input).2 = input.length ∧
    (∀ c, (countFreq input).1 c = (input.count c : Int)) ∧
    ∃ root huffman archive k,
      buildTrie pq (countFreq input).1 = some root ∧
      root.weightsExact = true ∧ root.weight = (input.length : Int) ∧
      buildCode (fun _ => []) root [] = some huffman ∧
      compress pq input = some archive ∧
      input.take (countFreq input).2 = input ∧ k < 8 ∧
      bytesToBits archive = root.serialize ++ bitsOfNat 32 input.length
        ++ input.flatMap (fun b => codeBits (huffman b)) ++ List.replicate k false := by
  obtain ⟨hcount, hlength⟩ := countFreq_spec input hlen
  obtain ⟨root, huffman, archive, k, eroot, hhuff, _, _, ecode, earch, hk, _, hbits⟩ :=
    compress_spec hpq input hne hlen hbytes
  obtain ⟨hq, hsum⟩ := startNodes_exact (countFreq input).1
  have htotal := positiveTotal_countFreq input hlen hbytes
  obtain ⟨hexact, hweight⟩ := hhuff.exact hq (by
    rw [hsum, htotal]
    have : ((input.length : Nat) : Int) < 2 ^ 31 := by exact_mod_cast hlen
    exact this)
  refine ⟨hlength, hcount, root, huffman, archive, k, eroot, hexact, ?_, ecode, earch, ?_,
    hk, hbits⟩
  · rw [hweight, hsum, htotal]
  · rw [hlength, List.take_length]

/-- Witness of `compress_exact`: the input "AAB". -/
theorem compress_exact_witness :
    listQueue.Lawful ∧ [65, 65, 66] ≠ [] ∧ [65, 65, 66].length < 2 ^ 31 ∧
    (∀ b ∈ [65, 65, 66], b < 256) ∧
    ((countFreq [65, 65, 66]).2 = [65, 65, 66].length ∧
    (∀ c, (countFreq [65, 65, 66]).1 c = ([65, 65, 66].count c : Int)) ∧
    ∃ root huffman archive k,
      buildTrie listQueue (countFreq [65, 65, 66]).1 = some root ∧
      root.weightsExact = true ∧ root.weight = ([65, 65, 66].length : Int) ∧
      buildCode (fun _ => []) root [] = some huffman ∧
      compress listQueue [65, 65, 66] = some archive ∧
      [65, 65, 66].take (countFreq [65, 65, 66]).2 = [65, 65, 66] ∧ k < 8 ∧
      bytesToBits archive = root.serialize ++ bitsOfNat 32 [65, 65, 66].length
        ++ [65, 65, 66].flatMap (fun b => codeBits (huffman b))
        ++ List.replicate k false) :=
  ⟨listQueue_lawful, by decide, by decide, by simp,
    compress_exact listQueue listQueue_lawful [65, 65, 66] (by decide) (by decide)
      (by simp)⟩

/-- C19 as stated fails: in the table with the count 1 for the symbol 0 and `2 ^ 30`
for each of the symbols 1 to 4, which has five positive counts, the sum of two counts of
`2 ^ 30` wraps to `-2 ^ 31` and the merged node stays the lightest until the last round.
The symbol 3 ends three edges below the root and the symbol 0 two edges below it: the
symbol 3 is more frequent than the symbol 0 and has the longer codeword, `001` against
`10`. -/
theorem longer_code_for_more_frequent :
    (0 < skewedTable 0 ∧ skewedTable 0 < skewedTable 3) ∧
    ((buildTrie listQueue skewedTable).bind fun t =>
      (buildCode (fun _ => []) t []).map fun huffman => (huffman 3, huffman 0))
      = some (['0', '0', '1'], ['1', '0']) ∧
    ((buildTrie listQueue skewedTable).bind fun t =>
      (buildCode (fun _ => []) t []).map fun huffman =>
        decide ((huffman 3).length ≤ (huffman 0).length)) = some false := by
  decide

/-- C19, amended: for every lawful queue and every frequency table with at least two
positive counts whose positive counts sum to less than `2 ^ 31`, `buildTrie` returns a
tree and `buildCode` a table in which, for every two symbols `a` and `b` with
`freq a > freq b > 0`, the codeword of `a` is no longer than the codeword of `b`. -/
theorem buildCode_monotone (pq : PriorityQueue) (hpq : pq.Lawful) (freq : Nat → Int)
    (h2 : ∃ i j, i < 256 ∧ j < 256 ∧ i ≠ j ∧ 0 < freq i ∧ 0 < freq j)
    (hsum : positiveTotal freq < 2 ^ 31) :
    ∃ t huffman, buildTrie pq freq = some t ∧ buildCode (fun _ => []) t [] = some huffman ∧
      ∀ a b, a < 256 → b < 256 → 0 < freq b → freq b < freq a →
        (huffman a).length ≤ (huffman b).length :=
  buildTrie_monotone_of_bounded hpq freq h2 hsum

/-- Witness of `buildCode_monotone`: the table of the input "AAB". -/
theorem buildCode_monotone_witness :
    listQueue.Lawful ∧
    (∃ i j, i < 256 ∧ j < 256 ∧ i ≠ j ∧
      0 < (countFreq [65, 65, 66]).1 i ∧ 0 < (countFreq [65, 65, 66]).1 j) ∧
    positiveTotal (countFreq [65, 65, 66]).1 < 2 ^ 31 ∧
    ∃ t huffman, buildTrie listQueue (countFreq [65, 65, 66]).1 = some t ∧
      buildCode (fun _ => []) t [] = some huffman ∧
      ∀ a b, a < 256 → b < 256 → 0 < (countFreq [65, 65, 66]).1 b →
        (countFreq [65, 65, 66]).1 b < (countFreq [65, 65, 66]).1 a →
        (huffman a).length ≤ (huffman b).length :=
  ⟨listQueue_lawful, ⟨65, 66, by decide, by decide, by decide, by decide, by decide⟩,
    by decide,
    buildCode_monotone listQueue listQueue_lawful (countFreq [65, 65, 66]).1
      ⟨65, 66, by decide, by decide, by decide, by decide, by decide⟩ (by decide)⟩

end Huffman
